import Mathlib

/-!
# Rectangle-to-rectangle distance tracker (`ckdtree/src/rectangle.h`)

A shallow embedding of `rectangle.h` and a verification of its specification.

Conventions of the embedding.

* `npy_float64` values are exact rationals (`ℚ`).  The two quantities that may
  carry the sentinel `infinity` (the exponent `p` and the upper bound) live in
  `WithTop ℚ`, where `⊤` is `infinity`.
* `std::pow` comes from `<cmath>` and is a parameter `pow : ℚ → ℚ → ℚ` of every
  function that calls it.  The facts about real exponentiation that a proof
  needs are collected in `PowLaws`.
* Coordinate and frame storage are lists.  Every subscript of the source is a
  checked access: reading or writing outside the storage yields
  `Error.out_of_range`, which stands for the undefined behaviour of the source.
* `npy_intp` counters that the source compares with zero (`stack_size`,
  `stack_max_size`, `which`, `direction`) are integers; dimensions and
  subscripts are natural numbers.  The stack capacity stays far below `2^63`,
  so no wrap-around is modelled.
* A C++ exception leaves the object behind in the state reached at the `throw`;
  `pop` therefore returns that state together with the error.
-/

namespace CKDTree

/-- The ways an operation of the source can fail. -/
inductive Error
  | invalid_argument
  | logic_error
  | out_of_range
  deriving DecidableEq, Repr

/-- Checked read `a[k]`. -/
def rd {α : Type} (a : List α) (k : Nat) : Except Error α :=
  match a[k]? with
  | some v => .ok v
  | none => .error .out_of_range

/-- Checked write `a[k] = v`. -/
def wr {α : Type} (a : List α) (k : Nat) (v : α) : Except Error (List α) :=
  if k < a.length then .ok (a.set k v) else .error .out_of_range

/-- Modelled from the spec: the helper `dmax` (declared outside `rectangle.h`), the larger of
two numbers. -/
def dmax (x y : ℚ) : ℚ := max x y

/-- Modelled from the spec: the helper `dmin` (declared outside `rectangle.h`), the smaller of
two numbers. -/
def dmin (x y : ℚ) : ℚ := min x y

/-- Modelled from the spec: the helper `dabs` (declared outside `rectangle.h`), the absolute
value. -/
def dabs (x : ℚ) : ℚ := |x|

/-- Modelled from the spec: the part of the tree structure `ckdtree` (declared outside
`rectangle.h`) that this file reads: the dimension and the box sizes of all axes followed by
the half box sizes of all axes. -/
structure ckdtree where
  m : Nat
  raw_boxsize_data : List ℚ
  deriving DecidableEq, Repr

/-- Modelled from the spec: the part of a tree node `ckdtreenode` (declared outside
`rectangle.h`) that this file reads: the split dimension and the split value. -/
structure ckdtreenode where
  split_dim : Nat
  split : ℚ
  deriving DecidableEq, Repr

/-! ## Interval arithmetic -/

/-- The hyperrectangle `struct Rectangle`: `m` and the owned vectors `mins_arr`, `maxes_arr`
(the pointers `mins`, `maxes` always point at their first entries). -/
structure Rectangle where
  m : Nat
  mins : List ℚ
  maxes : List ℚ
  deriving DecidableEq, Repr

namespace Rectangle

/-- `Rectangle(_m, _mins, _maxes)`: copies the first `_m` entries of both buffers. -/
def ofBuffers (_m : Nat) (_mins _maxes : List ℚ) : Except Error Rectangle :=
  if _m ≤ _mins.length ∧ _m ≤ _maxes.length then
    .ok { m := _m, mins := _mins.take _m, maxes := _maxes.take _m }
  else .error .out_of_range

/-- `Rectangle(const Rectangle&)`: a deep copy; values have no identity here. -/
def copy (rect : Rectangle) : Rectangle :=
  { m := rect.m, mins := rect.mins, maxes := rect.maxes }

/-- `Rectangle()`: the empty rectangle. -/
def empty : Rectangle := { m := 0, mins := [], maxes := [] }

/-- `rect->maxes[k] = v`. -/
def set_maxes (rect : Rectangle) (k : Nat) (v : ℚ) : Except Error Rectangle := do
  let a ← wr rect.maxes k v
  pure { rect with maxes := a }

/-- `rect->mins[k] = v`. -/
def set_mins (rect : Rectangle) (k : Nat) (v : ℚ) : Except Error Rectangle := do
  let a ← wr rect.mins k v
  pure { rect with mins := a }

end Rectangle

/-- Loop `for (i = 0; i < m; ++i) { body(i, &min, &max); min_distance += min;
max_distance += max; }` starting from `(0, 0)`. -/
def sum_axes (body : Nat → Except Error (ℚ × ℚ)) (m : Nat) : Except Error (ℚ × ℚ) :=
  (List.range m).foldlM
    (fun acc i => do
      let mm ← body i
      pure (acc.1 + mm.1, acc.2 + mm.2))
    (0, 0)

/-- The three early-exit loops of `distance_p`:
`for (i = 0; i < k; ++i) { r = step(r, x[i], y[i]); if (r > upperbound) return r; } return r;`
run over the subscripts `idx`. -/
def distance_loop (step : ℚ → ℚ → ℚ → ℚ) (x y : List ℚ) (upperbound : WithTop ℚ) :
    List Nat → ℚ → Except Error ℚ
  | [], r => .ok r
  | i :: idx, r => do
    let xi ← rd x i
    let yi ← rd y i
    let r' := step r xi yi
    if upperbound < (r' : WithTop ℚ) then pure r'
    else distance_loop step x y upperbound idx r'

/-- Modelled from the spec: `sqeuclidean_distance_double` (defined outside `rectangle.h`), the
squared Euclidean distance of the first `k` coordinates, without early exit. -/
def sqeuclidean_distance_double (x y : List ℚ) (k : Nat) : Except Error ℚ :=
  (List.range k).foldlM
    (fun r i => do
      let xi ← rd x i
      let yi ← rd y i
      pure (r + (xi - yi) * (xi - yi)))
    0

namespace MinMaxDist

/-- `MinMaxDist::interval_interval_p`. -/
def interval_interval_p (pow : ℚ → ℚ → ℚ) (_tree : ckdtree) (rect1 rect2 : Rectangle)
    (k : Nat) (p : ℚ) : Except Error (ℚ × ℚ) := do
  let r1min ← rd rect1.mins k
  let r2max ← rd rect2.maxes k
  let r2min ← rd rect2.mins k
  let r1max ← rd rect1.maxes k
  pure (pow (dmax 0 (dmax (r1min - r2max) (r2min - r1max))) p,
        pow (dmax (r1max - r2min) (r2max - r1min)) p)

/-- `MinMaxDist::interval_interval_2`. -/
def interval_interval_2 (_tree : ckdtree) (rect1 rect2 : Rectangle)
    (k : Nat) : Except Error (ℚ × ℚ) := do
  let r1min ← rd rect1.mins k
  let r2max ← rd rect2.maxes k
  let r2min ← rd rect2.mins k
  let r1max ← rd rect1.maxes k
  let tmp := dmax 0 (dmax (r1min - r2max) (r2min - r1max))
  let min := tmp * tmp
  let tmp := dmax (r1max - r2min) (r2max - r1min)
  let max := tmp * tmp
  pure (min, max)

/-- `MinMaxDist::rect_rect_p_inf`. -/
def rect_rect_p_inf (_tree : ckdtree) (rect1 rect2 : Rectangle) : Except Error (ℚ × ℚ) := do
  let min_dist ← (List.range rect1.m).foldlM
    (fun min_dist i => do
      let r1min ← rd rect1.mins i
      let r2max ← rd rect2.maxes i
      let r2min ← rd rect2.mins i
      let r1max ← rd rect1.maxes i
      pure (dmax min_dist (dmax (r1min - r2max) (r2min - r1max))))
    0
  let max_dist ← (List.range rect1.m).foldlM
    (fun max_dist i => do
      let r1max ← rd rect1.maxes i
      let r2min ← rd rect2.mins i
      let r2max ← rd rect2.maxes i
      let r1min ← rd rect1.mins i
      pure (dmax max_dist (dmax (r1max - r2min) (r2max - r1min))))
    0
  pure (min_dist, max_dist)

/-- `MinMaxDist::distance_p`.  In the last branch `p` is finite; `q` is its value. -/
def distance_p (pow : ℚ → ℚ → ℚ) (_tree : ckdtree) (x y : List ℚ) (p : WithTop ℚ) (k : Nat)
    (upperbound : WithTop ℚ) : Except Error ℚ :=
  if p = ((2 : ℚ) : WithTop ℚ) then
    sqeuclidean_distance_double x y k
  else
    match p with
    | none =>
      distance_loop (fun r xi yi => dmax r (dabs (xi - yi))) x y upperbound (List.range k) 0
    | some q =>
      if q = 1 then
        distance_loop (fun r xi yi => r + dabs (xi - yi)) x y upperbound (List.range k) 0
      else
        distance_loop (fun r xi yi => r + pow (dabs (xi - yi)) q) x y upperbound
          (List.range k) 0

end MinMaxDist

namespace MinMaxDistBox

/-- `MinMaxDistBox::_interval_interval_1d`; returns `(realmin, realmax)`. -/
def _interval_interval_1d (min max full half : ℚ) : ℚ × ℚ :=
  if max ≤ 0 ∨ min ≥ 0 then
    let min := dabs min
    let max := dabs max
    let mm : ℚ × ℚ := if min > max then (max, min) else (min, max)
    let min := mm.1
    let max := mm.2
    if max < half then
      (min, max)
    else if min > half then
      (full - max, full - min)
    else
      (dmin min (full - max), half)
  else
    let min := -min
    let max := if min > max then min else max
    let max := if max > half then half else max
    (0, max)

/-- The call `_interval_interval_1d(rect1.mins[k] - rect2.maxes[k], rect1.maxes[k] -
rect2.mins[k], ..., tree->raw_boxsize_data[k], tree->raw_boxsize_data[k + rect1.m])` that all
periodic bounds share. -/
def axis_1d (tree : ckdtree) (rect1 rect2 : Rectangle) (k : Nat) : Except Error (ℚ × ℚ) := do
  let r1min ← rd rect1.mins k
  let r2max ← rd rect2.maxes k
  let r1max ← rd rect1.maxes k
  let r2min ← rd rect2.mins k
  let full ← rd tree.raw_boxsize_data k
  let half ← rd tree.raw_boxsize_data (k + rect1.m)
  pure (_interval_interval_1d (r1min - r2max) (r1max - r2min) full half)

/-- `MinMaxDistBox::interval_interval_p`. -/
def interval_interval_p (pow : ℚ → ℚ → ℚ) (tree : ckdtree) (rect1 rect2 : Rectangle)
    (k : Nat) (p : ℚ) : Except Error (ℚ × ℚ) := do
  let mm ← axis_1d tree rect1 rect2 k
  pure (pow mm.1 p, pow mm.2 p)

/-- `MinMaxDistBox::interval_interval_2`. -/
def interval_interval_2 (tree : ckdtree) (rect1 rect2 : Rectangle)
    (k : Nat) : Except Error (ℚ × ℚ) := do
  let mm ← axis_1d tree rect1 rect2 k
  pure (mm.1 * mm.1, mm.2 * mm.2)

/-- `MinMaxDistBox::rect_rect_p_inf`: axis `0` first, then the loop over `k = 1, ..., m - 1`. -/
def rect_rect_p_inf (tree : ckdtree) (rect1 rect2 : Rectangle) : Except Error (ℚ × ℚ) := do
  let first ← axis_1d tree rect1 rect2 0
  (List.range' 1 (rect1.m - 1)).foldlM
    (fun acc k => do
      let mm ← axis_1d tree rect1 rect2 k
      pure (dmin mm.1 acc.1, dmax mm.2 acc.2))
    first

/-- The loop of `MinMaxDistBox::distance_p` over the subscripts `idx`.  The helper
`wrap_distance` is defined outside `rectangle.h` and is a parameter. -/
def distance_loop (pow : ℚ → ℚ → ℚ) (wrap_distance : ℚ → ℚ → ℚ → ℚ) (tree : ckdtree)
    (x y : List ℚ) (p : WithTop ℚ) (upperbound : WithTop ℚ) : List Nat → ℚ → Except Error ℚ
  | [], r => .ok r
  | i :: idx, r => do
    let xi ← rd x i
    let yi ← rd y i
    let half ← rd tree.raw_boxsize_data (i + tree.m)
    let full ← rd tree.raw_boxsize_data i
    let r1 := wrap_distance (xi - yi) half full
    let r' :=
      if p = ((2 : ℚ) : WithTop ℚ) then r + r1 * r1
      else
        match p with
        | none => dmax r (dabs r1)
        | some q => if q = 1 then r + dabs r1 else r + pow (dabs r1) q
    if upperbound < (r' : WithTop ℚ) then pure r'
    else distance_loop pow wrap_distance tree x y p upperbound idx r'

/-- `MinMaxDistBox::distance_p`. -/
def distance_p (pow : ℚ → ℚ → ℚ) (wrap_distance : ℚ → ℚ → ℚ → ℚ) (tree : ckdtree)
    (x y : List ℚ) (p : WithTop ℚ) (k : Nat) (upperbound : WithTop ℚ) : Except Error ℚ :=
  distance_loop pow wrap_distance tree x y p upperbound (List.range k) 0

end MinMaxDistBox

/-- The template parameter `MinMaxDist` of the tracker: the plain strategy `MinMaxDist` or the
periodic strategy `MinMaxDistBox`. -/
inductive Strategy
  | plain
  | box
  deriving DecidableEq, Repr

namespace Strategy

/-- `MinMaxDist::interval_interval_p` of the chosen strategy. -/
def interval_interval_p (S : Strategy) (pow : ℚ → ℚ → ℚ) (tree : ckdtree)
    (rect1 rect2 : Rectangle) (k : Nat) (p : ℚ) : Except Error (ℚ × ℚ) :=
  match S with
  | plain => MinMaxDist.interval_interval_p pow tree rect1 rect2 k p
  | box => MinMaxDistBox.interval_interval_p pow tree rect1 rect2 k p

/-- `MinMaxDist::interval_interval_2` of the chosen strategy. -/
def interval_interval_2 (S : Strategy) (tree : ckdtree)
    (rect1 rect2 : Rectangle) (k : Nat) : Except Error (ℚ × ℚ) :=
  match S with
  | plain => MinMaxDist.interval_interval_2 tree rect1 rect2 k
  | box => MinMaxDistBox.interval_interval_2 tree rect1 rect2 k

/-- `MinMaxDist::rect_rect_p_inf` of the chosen strategy. -/
def rect_rect_p_inf (S : Strategy) (tree : ckdtree)
    (rect1 rect2 : Rectangle) : Except Error (ℚ × ℚ) :=
  match S with
  | plain => MinMaxDist.rect_rect_p_inf tree rect1 rect2
  | box => MinMaxDistBox.rect_rect_p_inf tree rect1 rect2

end Strategy

/-! ## Rectangle-to-rectangle distance tracker -/

/-- The saved frame `struct RR_stack_item`. -/
structure RR_stack_item where
  which : Int
  split_dim : Nat
  min_along_dim : ℚ
  max_along_dim : ℚ
  min_distance : ℚ
  max_distance : ℚ
  deriving DecidableEq, Repr

/-- A value-initialised frame, as `std::vector::resize` creates it. -/
instance : Inhabited RR_stack_item := ⟨⟨0, 0, 0, 0, 0, 0⟩⟩

/-- `const npy_intp LESS = 1`. -/
def LESS : Int := 1

/-- `const npy_intp GREATER = 2`. -/
def GREATER : Int := 2

/-- `std::vector<T>::resize(n)`: keeps the first `n` entries and pads with value-initialised
ones. -/
def vector_resize {α : Type} [Inhabited α] (a : List α) (n : Nat) : List α :=
  a.take n ++ List.replicate (n - a.length) default

/-- The fields of `struct RectRectDistanceTracker`; the pointer `stack` always points at the
first entry of `stack_arr`. -/
structure RectRectDistanceTracker where
  tree : ckdtree
  rect1 : Rectangle
  rect2 : Rectangle
  p : WithTop ℚ
  epsfac : ℚ
  upper_bound : WithTop ℚ
  min_distance : ℚ
  max_distance : ℚ
  stack_size : Int
  stack_max_size : Int
  stack_arr : List RR_stack_item
  deriving DecidableEq

namespace RectRectDistanceTracker

/-- `RectRectDistanceTracker::_resize_stack`. -/
def _resize_stack (t : RectRectDistanceTracker) (new_max_size : Int) :
    RectRectDistanceTracker :=
  { t with
    stack_arr := vector_resize t.stack_arr new_max_size.toNat
    stack_max_size := new_max_size }

/-- The initial `(min_distance, max_distance)` of the constructor (`/* Compute initial min and
max distances */`). -/
def initial_distances (pow : ℚ → ℚ → ℚ) (S : Strategy) (tree : ckdtree)
    (rect1 rect2 : Rectangle) (p : WithTop ℚ) : Except Error (ℚ × ℚ) :=
  if p = ((2 : ℚ) : WithTop ℚ) then
    sum_axes (fun i => S.interval_interval_2 tree rect1 rect2 i) rect1.m
  else
    match p with
    | none => S.rect_rect_p_inf tree rect1 rect2
    | some q => sum_axes (fun i => S.interval_interval_p pow tree rect1 rect2 i q) rect1.m

/-- The constructor `RectRectDistanceTracker::RectRectDistanceTracker`. -/
def construct (pow : ℚ → ℚ → ℚ) (S : Strategy) (_tree : ckdtree) (_rect1 _rect2 : Rectangle)
    (_p : WithTop ℚ) (eps : ℚ) (_upper_bound : WithTop ℚ) :
    Except Error RectRectDistanceTracker :=
  let rect1 := _rect1.copy
  let rect2 := _rect2.copy
  let stack_arr : List RR_stack_item := List.replicate 8 default
  if rect1.m ≠ rect2.m then
    .error .invalid_argument
  else
    let p := _p
    let upper_bound : WithTop ℚ :=
      if p = ((2 : ℚ) : WithTop ℚ) then _upper_bound * _upper_bound
      else
        match p, _upper_bound with
        | some q, some u => ((pow u q : ℚ) : WithTop ℚ)
        | _, _ => _upper_bound
    let epsfac : ℚ :=
      if p = ((2 : ℚ) : WithTop ℚ) then
        let tmp := 1 + eps
        1 / (tmp * tmp)
      else if eps = 0 then 1
      else
        match p with
        | none => 1 / (1 + eps)
        | some q => 1 / pow (1 + eps) q
    do
      let mm ← initial_distances pow S _tree rect1 rect2 p
      pure
        { tree := _tree
          rect1 := rect1
          rect2 := rect2
          p := p
          epsfac := epsfac
          upper_bound := upper_bound
          min_distance := mm.1
          max_distance := mm.2
          stack_size := 0
          stack_max_size := 8
          stack_arr := stack_arr }

/-- The per-axis bounds that `push` subtracts before and adds after the mutation when
`p != infinity`. -/
def axis_bounds (pow : ℚ → ℚ → ℚ) (S : Strategy) (tree : ckdtree) (rect1 rect2 : Rectangle)
    (split_dim : Nat) (q : ℚ) : Except Error (ℚ × ℚ) :=
  if q = 2 then S.interval_interval_2 tree rect1 rect2 split_dim
  else S.interval_interval_p pow tree rect1 rect2 split_dim q

/-- `RectRectDistanceTracker::push`. -/
def push (pow : ℚ → ℚ → ℚ) (S : Strategy) (t : RectRectDistanceTracker)
    (which direction : Int) (split_dim : Nat) (split_val : ℚ) :
    Except Error RectRectDistanceTracker := do
  let p := t.p
  -- push onto stack
  let t := if t.stack_size = t.stack_max_size then t._resize_stack (t.stack_max_size * 2) else t
  if t.stack_size < 0 then throw Error.out_of_range
  let rect := if which = 1 then t.rect1 else t.rect2
  let min_along_dim ← rd rect.mins split_dim
  let max_along_dim ← rd rect.maxes split_dim
  let item : RR_stack_item :=
    { which := which
      split_dim := split_dim
      min_distance := t.min_distance
      max_distance := t.max_distance
      min_along_dim := min_along_dim
      max_along_dim := max_along_dim }
  let arr ← wr t.stack_arr t.stack_size.toNat item
  let t := { t with stack_arr := arr, stack_size := t.stack_size + 1 }
  -- update min/max distances
  let t ←
    match p with
    | some q => do
      let mm ← axis_bounds pow S t.tree t.rect1 t.rect2 split_dim q
      pure { t with min_distance := t.min_distance - mm.1, max_distance := t.max_distance - mm.2 }
    | none => pure t
  let rect ←
    if direction = LESS then rect.set_maxes split_dim split_val
    else rect.set_mins split_dim split_val
  let t := if which = 1 then { t with rect1 := rect } else { t with rect2 := rect }
  match p with
  | some q => do
    let mm ← axis_bounds pow S t.tree t.rect1 t.rect2 split_dim q
    pure { t with min_distance := t.min_distance + mm.1, max_distance := t.max_distance + mm.2 }
  | none => do
    let mm ← S.rect_rect_p_inf t.tree t.rect1 t.rect2
    pure { t with min_distance := mm.1, max_distance := mm.2 }

/-- `RectRectDistanceTracker::push_less_of`. -/
def push_less_of (pow : ℚ → ℚ → ℚ) (S : Strategy) (t : RectRectDistanceTracker)
    (which : Int) (node : ckdtreenode) : Except Error RectRectDistanceTracker :=
  push pow S t which LESS node.split_dim node.split

/-- `RectRectDistanceTracker::push_greater_of`. -/
def push_greater_of (pow : ℚ → ℚ → ℚ) (S : Strategy) (t : RectRectDistanceTracker)
    (which : Int) (node : ckdtreenode) : Except Error RectRectDistanceTracker :=
  push pow S t which GREATER node.split_dim node.split

/-- `RectRectDistanceTracker::pop`.  An error carries the state the tracker is left in. -/
def pop (t : RectRectDistanceTracker) :
    Except (Error × RectRectDistanceTracker) RectRectDistanceTracker :=
  -- pop from stack
  let t := { t with stack_size := t.stack_size - 1 }
  if t.stack_size < 0 then
    .error (.logic_error, t)
  else
    match t.stack_arr[t.stack_size.toNat]? with
    | none => .error (.out_of_range, t)
    | some item =>
      let t := { t with min_distance := item.min_distance, max_distance := item.max_distance }
      if item.which = 1 then
        match wr t.rect1.mins item.split_dim item.min_along_dim,
              wr t.rect1.maxes item.split_dim item.max_along_dim with
        | .ok mins, .ok maxes => .ok { t with rect1 := { t.rect1 with mins := mins, maxes := maxes } }
        | _, _ => .error (.out_of_range, t)
      else
        match wr t.rect2.mins item.split_dim item.min_along_dim,
              wr t.rect2.maxes item.split_dim item.max_along_dim with
        | .ok mins, .ok maxes => .ok { t with rect2 := { t.rect2 with mins := mins, maxes := maxes } }
        | _, _ => .error (.out_of_range, t)

end RectRectDistanceTracker

/-! ## Exponentiation -/

/-- The facts about real exponentiation `x ^ p` (for `x ≥ 0`) that the proofs use. -/
structure PowLaws (pow : ℚ → ℚ → ℚ) : Prop where
  sq : ∀ x, pow x 2 = x * x
  one : ∀ x, pow x 1 = x
  nonneg : ∀ x p, 0 ≤ x → 0 ≤ pow x p
  mono : ∀ x y p, 0 < p → 0 ≤ x → x ≤ y → pow x p ≤ pow y p
  zero : ∀ p, 0 < p → pow 0 p = 0

/-- An executable exponentiation that satisfies `PowLaws`: the exponent is rounded up to a
natural number. -/
def natPow (x p : ℚ) : ℚ := x ^ (Int.toNat ⌈p⌉)

/-! ## Pure readings of the bound computations -/

/-- Equality of outcomes is decidable. -/
instance {ε α : Type} [DecidableEq ε] [DecidableEq α] : DecidableEq (Except ε α)
  | .ok a, .ok b => if h : a = b then isTrue (by rw [h]) else isFalse (by simpa using h)
  | .error a, .error b => if h : a = b then isTrue (by rw [h]) else isFalse (by simpa using h)
  | .ok _, .error _ => isFalse (by simp)
  | .error _, .ok _ => isFalse (by simp)

/-- Entry `k` of a coordinate array (`0` outside it). -/
def coord (a : List ℚ) (k : Nat) : ℚ := a.getD k 0

/-- The per-axis distance bounds before exponentiation: the gap rule of the plain strategy,
the wrapped bounds of the periodic one. -/
def gapPair (S : Strategy) (tree : ckdtree) (rect1 rect2 : Rectangle) (k : Nat) : ℚ × ℚ :=
  match S with
  | .plain =>
    (dmax 0 (dmax (coord rect1.mins k - coord rect2.maxes k)
                  (coord rect2.mins k - coord rect1.maxes k)),
     dmax (coord rect1.maxes k - coord rect2.mins k)
          (coord rect2.maxes k - coord rect1.mins k))
  | .box =>
    MinMaxDistBox._interval_interval_1d
      (coord rect1.mins k - coord rect2.maxes k) (coord rect1.maxes k - coord rect2.mins k)
      (coord tree.raw_boxsize_data k) (coord tree.raw_boxsize_data (k + rect1.m))

/-- The contribution of one axis to the running totals for a finite exponent `q`. -/
def contrib (pow : ℚ → ℚ → ℚ) (q : ℚ) (g : ℚ × ℚ) : ℚ × ℚ :=
  if q = 2 then (g.1 * g.1, g.2 * g.2) else (pow g.1 q, pow g.2 q)

/-- The Chebyshev bounds as the two strategies accumulate them. -/
def infPair (S : Strategy) (tree : ckdtree) (rect1 rect2 : Rectangle) : ℚ × ℚ :=
  match S with
  | .plain =>
    ((List.range rect1.m).foldl
        (fun acc i => dmax acc (dmax (coord rect1.mins i - coord rect2.maxes i)
                                     (coord rect2.mins i - coord rect1.maxes i))) 0,
     (List.range rect1.m).foldl
        (fun acc i => dmax acc (dmax (coord rect1.maxes i - coord rect2.mins i)
                                     (coord rect2.maxes i - coord rect1.mins i))) 0)
  | .box =>
    (List.range' 1 (rect1.m - 1)).foldl
      (fun acc k => (dmin (gapPair .box tree rect1 rect2 k).1 acc.1,
                     dmax (gapPair .box tree rect1 rect2 k).2 acc.2))
      (gapPair .box tree rect1 rect2 0)

/-- The bounds a tracker holds for the rectangles `rect1`, `rect2`: the sum of the per-axis
contributions for a finite exponent, the Chebyshev bounds for `p = infinity`. -/
def totalPair (pow : ℚ → ℚ → ℚ) (S : Strategy) (tree : ckdtree) (rect1 rect2 : Rectangle)
    (p : WithTop ℚ) : ℚ × ℚ :=
  match p with
  | none => infPair S tree rect1 rect2
  | some q =>
    (∑ i in Finset.range rect1.m, (contrib pow q (gapPair S tree rect1 rect2 i)).1,
     ∑ i in Finset.range rect1.m, (contrib pow q (gapPair S tree rect1 rect2 i)).2)

/-- The storage of two rectangles (and of the box sizes, for the periodic strategy) covers
`m` axes. -/
structure Covers (S : Strategy) (tree : ckdtree) (rect1 rect2 : Rectangle) (m : Nat) :
    Prop where
  mins1 : rect1.mins.length = m
  maxes1 : rect1.maxes.length = m
  mins2 : rect2.mins.length = m
  maxes2 : rect2.maxes.length = m
  dim1 : rect1.m = m
  dim2 : rect2.m = m
  box : S = .box → 2 * m ≤ tree.raw_boxsize_data.length

/-! ## The plain strategy in rounded arithmetic

The same code with the result of every addition, subtraction, multiplication and division
passed through a rounding function `fl`; `Binary64.round` is the rounding of IEEE binary64
(round to nearest, ties to even) in the normal range.  Comparisons, `dmax` and the negation
are exact on floating-point numbers; `pow` stands for the library function, rounding
included. -/

namespace Binary64

/-- The power `2^e` for an integer exponent. -/
def pow2 (e : Int) : ℚ :=
  if 0 ≤ e then (2 : ℚ) ^ e.toNat else 1 / (2 : ℚ) ^ (-e).toNat

/-- The number of halvings that bring `n` below 2, found in at most `fuel` steps. -/
def halvings : Nat → Nat → Nat
  | 0, _ => 0
  | fuel + 1, n => if n < 2 then 0 else halvings fuel (n / 2) + 1

/-- The floor of the binary logarithm of `n ≥ 1`; `n` halvings always suffice. -/
def ilog2 (n : Nat) : Nat := halvings n n

/-- The binary exponent of `a > 0`: the `e` with `2^e ≤ a < 2^(e+1)`. -/
def exponent (a : ℚ) : Int :=
  let e0 : Int := (ilog2 a.num.natAbs : Int) - (ilog2 a.den : Int)
  if pow2 e0 ≤ a then e0 else e0 - 1

/-- Rounding to the nearest number with a 53-bit significand, ties to even. -/
def round (x : ℚ) : ℚ :=
  if x = 0 then 0
  else
    let a := |x|
    let u := pow2 (exponent a - 52)
    let q := a / u
    let f : Int := ⌊q⌋
    let r := q - f
    let n : Int :=
      if r < 1 / 2 then f else if 1 / 2 < r then f + 1 else if f % 2 = 0 then f else f + 1
    (if x < 0 then -1 else 1) * (n * u)

end Binary64

namespace Rounded

/-- `MinMaxDist::interval_interval_p` in rounded arithmetic. -/
def interval_interval_p (fl : ℚ → ℚ) (pow : ℚ → ℚ → ℚ) (_tree : ckdtree)
    (rect1 rect2 : Rectangle) (k : Nat) (p : ℚ) : Except Error (ℚ × ℚ) := do
  let r1min ← rd rect1.mins k
  let r2max ← rd rect2.maxes k
  let r2min ← rd rect2.mins k
  let r1max ← rd rect1.maxes k
  pure (pow (dmax 0 (dmax (fl (r1min - r2max)) (fl (r2min - r1max)))) p,
        pow (dmax (fl (r1max - r2min)) (fl (r2max - r1min))) p)

/-- `MinMaxDist::interval_interval_2` in rounded arithmetic. -/
def interval_interval_2 (fl : ℚ → ℚ) (_tree : ckdtree) (rect1 rect2 : Rectangle)
    (k : Nat) : Except Error (ℚ × ℚ) := do
  let r1min ← rd rect1.mins k
  let r2max ← rd rect2.maxes k
  let r2min ← rd rect2.mins k
  let r1max ← rd rect1.maxes k
  let tmp := dmax 0 (dmax (fl (r1min - r2max)) (fl (r2min - r1max)))
  let min := fl (tmp * tmp)
  let tmp := dmax (fl (r1max - r2min)) (fl (r2max - r1min))
  let max := fl (tmp * tmp)
  pure (min, max)

/-- `MinMaxDist::rect_rect_p_inf` in rounded arithmetic. -/
def rect_rect_p_inf (fl : ℚ → ℚ) (_tree : ckdtree) (rect1 rect2 : Rectangle) :
    Except Error (ℚ × ℚ) := do
  let min_dist ← (List.range rect1.m).foldlM
    (fun min_dist i => do
      let r1min ← rd rect1.mins i
      let r2max ← rd rect2.maxes i
      let r2min ← rd rect2.mins i
      let r1max ← rd rect1.maxes i
      pure (dmax min_dist (dmax (fl (r1min - r2max)) (fl (r2min - r1max)))))
    0
  let max_dist ← (List.range rect1.m).foldlM
    (fun max_dist i => do
      let r1max ← rd rect1.maxes i
      let r2min ← rd rect2.mins i
      let r2max ← rd rect2.maxes i
      let r1min ← rd rect1.mins i
      pure (dmax max_dist (dmax (fl (r1max - r2min)) (fl (r2max - r1min)))))
    0
  pure (min_dist, max_dist)

/-- The summation loop of the constructor in rounded arithmetic. -/
def sum_axes (fl : ℚ → ℚ) (body : Nat → Except Error (ℚ × ℚ)) (m : Nat) :
    Except Error (ℚ × ℚ) :=
  (List.range m).foldlM
    (fun acc i => do
      let mm ← body i
      pure (fl (acc.1 + mm.1), fl (acc.2 + mm.2)))
    (0, 0)

/-- The initial `(min_distance, max_distance)` of the constructor in rounded arithmetic. -/
def initial_distances (fl : ℚ → ℚ) (pow : ℚ → ℚ → ℚ) (tree : ckdtree)
    (rect1 rect2 : Rectangle) (p : WithTop ℚ) : Except Error (ℚ × ℚ) :=
  if p = ((2 : ℚ) : WithTop ℚ) then
    sum_axes fl (fun i => interval_interval_2 fl tree rect1 rect2 i) rect1.m
  else
    match p with
    | none => rect_rect_p_inf fl tree rect1 rect2
    | some q => sum_axes fl (fun i => interval_interval_p fl pow tree rect1 rect2 i q) rect1.m

/-- The constructor of the tracker for the plain strategy in rounded arithmetic. -/
def construct (fl : ℚ → ℚ) (pow : ℚ → ℚ → ℚ) (_tree : ckdtree) (_rect1 _rect2 : Rectangle)
    (_p : WithTop ℚ) (eps : ℚ) (_upper_bound : WithTop ℚ) :
    Except Error RectRectDistanceTracker :=
  let rect1 := _rect1.copy
  let rect2 := _rect2.copy
  let stack_arr : List RR_stack_item := List.replicate 8 default
  if rect1.m ≠ rect2.m then
    .error .invalid_argument
  else
    let p := _p
    let upper_bound : WithTop ℚ :=
      if p = ((2 : ℚ) : WithTop ℚ) then (_upper_bound * _upper_bound).map fl
      else
        match p, _upper_bound with
        | some q, some u => ((pow u q : ℚ) : WithTop ℚ)
        | _, _ => _upper_bound
    let epsfac : ℚ :=
      if p = ((2 : ℚ) : WithTop ℚ) then
        let tmp := fl (1 + eps)
        fl (1 / fl (tmp * tmp))
      else if eps = 0 then 1
      else
        match p with
        | none => fl (1 / fl (1 + eps))
        | some q => fl (1 / pow (fl (1 + eps)) q)
    do
      let mm ← initial_distances fl pow _tree rect1 rect2 p
      pure
        { tree := _tree
          rect1 := rect1
          rect2 := rect2
          p := p
          epsfac := epsfac
          upper_bound := upper_bound
          min_distance := mm.1
          max_distance := mm.2
          stack_size := 0
          stack_max_size := 8
          stack_arr := stack_arr }

/-- The per-axis bounds that `push` subtracts and adds, in rounded arithmetic. -/
def axis_bounds (fl : ℚ → ℚ) (pow : ℚ → ℚ → ℚ) (tree : ckdtree) (rect1 rect2 : Rectangle)
    (split_dim : Nat) (q : ℚ) : Except Error (ℚ × ℚ) :=
  if q = 2 then interval_interval_2 fl tree rect1 rect2 split_dim
  else interval_interval_p fl pow tree rect1 rect2 split_dim q

/-- `RectRectDistanceTracker::push` for the plain strategy in rounded arithmetic. -/
def push (fl : ℚ → ℚ) (pow : ℚ → ℚ → ℚ) (t : RectRectDistanceTracker)
    (which direction : Int) (split_dim : Nat) (split_val : ℚ) :
    Except Error RectRectDistanceTracker := do
  let p := t.p
  let t := if t.stack_size = t.stack_max_size then t._resize_stack (t.stack_max_size * 2) else t
  if t.stack_size < 0 then throw Error.out_of_range
  let rect := if which = 1 then t.rect1 else t.rect2
  let min_along_dim ← rd rect.mins split_dim
  let max_along_dim ← rd rect.maxes split_dim
  let item : RR_stack_item :=
    { which := which
      split_dim := split_dim
      min_distance := t.min_distance
      max_distance := t.max_distance
      min_along_dim := min_along_dim
      max_along_dim := max_along_dim }
  let arr ← wr t.stack_arr t.stack_size.toNat item
  let t := { t with stack_arr := arr, stack_size := t.stack_size + 1 }
  let t ←
    match p with
    | some q => do
      let mm ← axis_bounds fl pow t.tree t.rect1 t.rect2 split_dim q
      pure { t with
        min_distance := fl (t.min_distance - mm.1)
        max_distance := fl (t.max_distance - mm.2) }
    | none => pure t
  let rect ←
    if direction = LESS then rect.set_maxes split_dim split_val
    else rect.set_mins split_dim split_val
  let t := if which = 1 then { t with rect1 := rect } else { t with rect2 := rect }
  match p with
  | some q => do
    let mm ← axis_bounds fl pow t.tree t.rect1 t.rect2 split_dim q
    pure { t with
      min_distance := fl (t.min_distance + mm.1)
      max_distance := fl (t.max_distance + mm.2) }
  | none => do
    let mm ← rect_rect_p_inf fl t.tree t.rect1 t.rect2
    pure { t with min_distance := mm.1, max_distance := mm.2 }

end Rounded

/-- The state invariant of a tracker: the storage of both rectangles covers the common
dimension, the frame storage has `stack_max_size > 0` entries of which `stack_size` are in
use, and every frame in use names an axis of the rectangles. -/
structure WF (S : Strategy) (t : RectRectDistanceTracker) : Prop where
  covers : Covers S t.tree t.rect1 t.rect2 t.rect1.m
  cap_pos : 0 < t.stack_max_size
  cap : t.stack_arr.length = t.stack_max_size.toNat
  size_nonneg : 0 ≤ t.stack_size
  size_le : t.stack_size ≤ t.stack_max_size
  frames : ∀ i f, i < t.stack_size.toNat → t.stack_arr[i]? = some f → f.split_dim < t.rect1.m

/-- The rectangle that `push` narrows. -/
def narrowed (rect : Rectangle) (direction : Int) (split_dim : Nat) (split_val : ℚ) :
    Rectangle :=
  if direction = LESS then { rect with maxes := rect.maxes.set split_dim split_val }
  else { rect with mins := rect.mins.set split_dim split_val }

/-- The state that a successful `push` returns, written without the checked accesses. -/
def pushed (pow : ℚ → ℚ → ℚ) (S : Strategy) (t : RectRectDistanceTracker)
    (which direction : Int) (split_dim : Nat) (split_val : ℚ) : RectRectDistanceTracker :=
  let t0 := if t.stack_size = t.stack_max_size then t._resize_stack (t.stack_max_size * 2) else t
  let rect := if which = 1 then t.rect1 else t.rect2
  let item : RR_stack_item :=
    { which := which
      split_dim := split_dim
      min_distance := t.min_distance
      max_distance := t.max_distance
      min_along_dim := coord rect.mins split_dim
      max_along_dim := coord rect.maxes split_dim }
  let rect1 := if which = 1 then narrowed rect direction split_dim split_val else t.rect1
  let rect2 := if which = 1 then t.rect2 else narrowed rect direction split_dim split_val
  let d : ℚ × ℚ :=
    match t.p with
    | some q =>
      (t.min_distance - (contrib pow q (gapPair S t.tree t.rect1 t.rect2 split_dim)).1
          + (contrib pow q (gapPair S t.tree rect1 rect2 split_dim)).1,
       t.max_distance - (contrib pow q (gapPair S t.tree t.rect1 t.rect2 split_dim)).2
          + (contrib pow q (gapPair S t.tree rect1 rect2 split_dim)).2)
    | none => infPair S t.tree rect1 rect2
  { tree := t.tree
    rect1 := rect1
    rect2 := rect2
    p := t.p
    epsfac := t.epsfac
    upper_bound := t.upper_bound
    min_distance := d.1
    max_distance := d.2
    stack_size := t.stack_size + 1
    stack_max_size := t0.stack_max_size
    stack_arr := t0.stack_arr.set t.stack_size.toNat item }

/-- The state that a successful `pop` returns, written without the checked accesses. -/
def popped (t : RectRectDistanceTracker) : RectRectDistanceTracker :=
  let item := t.stack_arr.getD (t.stack_size - 1).toNat default
  let restore (rect : Rectangle) : Rectangle :=
    { rect with
      mins := rect.mins.set item.split_dim item.min_along_dim
      maxes := rect.maxes.set item.split_dim item.max_along_dim }
  { t with
    stack_size := t.stack_size - 1
    min_distance := item.min_distance
    max_distance := item.max_distance
    rect1 := if item.which = 1 then restore t.rect1 else t.rect1
    rect2 := if item.which = 1 then t.rect2 else restore t.rect2 }

/-- Two states that agree on everything a later `push` or `pop` can observe: all fields but
the capacity, and the frames in use. -/
structure Sim (t t' : RectRectDistanceTracker) : Prop where
  tree : t.tree = t'.tree
  rect1 : t.rect1 = t'.rect1
  rect2 : t.rect2 = t'.rect2
  p : t.p = t'.p
  epsfac : t.epsfac = t'.epsfac
  upper_bound : t.upper_bound = t'.upper_bound
  min_distance : t.min_distance = t'.min_distance
  max_distance : t.max_distance = t'.max_distance
  stack_size : t.stack_size = t'.stack_size
  frames : ∀ i, i < t.stack_size.toNat → t.stack_arr[i]? = t'.stack_arr[i]?

/-- The arguments of one call of `push`. -/
structure PushArgs where
  which : Int
  direction : Int
  split_dim : Nat
  split_val : ℚ
  deriving DecidableEq, Repr

/-- A sequence of calls of `push`, first to last. -/
def push_all (pow : ℚ → ℚ → ℚ) (S : Strategy) :
    RectRectDistanceTracker → List PushArgs → Except Error RectRectDistanceTracker
  | t, [] => .ok t
  | t, a :: args => do
    let t' ← t.push pow S a.which a.direction a.split_dim a.split_val
    push_all pow S t' args

/-- A sequence of `n` calls of `pop`. -/
def pop_n : Nat → RectRectDistanceTracker →
    Except (Error × RectRectDistanceTracker) RectRectDistanceTracker
  | 0, t => .ok t
  | n + 1, t => do
    let t' ← t.pop
    pop_n n t'

/-- The frame that `push` records. -/
def frame_of (t : RectRectDistanceTracker) (which : Int) (split_dim : Nat) : RR_stack_item :=
  { which := which
    split_dim := split_dim
    min_distance := t.min_distance
    max_distance := t.max_distance
    min_along_dim := coord (if which = 1 then t.rect1 else t.rect2).mins split_dim
    max_along_dim := coord (if which = 1 then t.rect1 else t.rect2).maxes split_dim }

/-- A one-dimensional tracker over `[0, 1]` and `[2, 3]` with `p = 2` and an empty stack of
capacity 8. -/
def sample_tracker : RectRectDistanceTracker :=
  { tree := { m := 1, raw_boxsize_data := [10, 5] }
    rect1 := { m := 1, mins := [0], maxes := [1] }
    rect2 := { m := 1, mins := [2], maxes := [3] }
    p := ((2 : ℚ) : WithTop ℚ)
    epsfac := 1
    upper_bound := ⊤
    min_distance := 1
    max_distance := 9
    stack_size := 0
    stack_max_size := 8
    stack_arr := List.replicate 8 default }

/-- The tracker that a successful construction returns, written without the checked
accesses. -/
def constructed (pow : ℚ → ℚ → ℚ) (S : Strategy) (tree : ckdtree) (rect1 rect2 : Rectangle)
    (p : WithTop ℚ) (eps : ℚ) (upper_bound : WithTop ℚ) : RectRectDistanceTracker :=
  { tree := tree
    rect1 := rect1
    rect2 := rect2
    p := p
    epsfac :=
      if p = ((2 : ℚ) : WithTop ℚ) then 1 / ((1 + eps) * (1 + eps))
      else if eps = 0 then 1
      else
        match p with
        | none => 1 / (1 + eps)
        | some q => 1 / pow (1 + eps) q
    upper_bound :=
      if p = ((2 : ℚ) : WithTop ℚ) then upper_bound * upper_bound
      else
        match p, upper_bound with
        | some q, some u => ((pow u q : ℚ) : WithTop ℚ)
        | _, _ => upper_bound
    min_distance := (totalPair pow S tree rect1 rect2 p).1
    max_distance := (totalPair pow S tree rect1 rect2 p).2
    stack_size := 0
    stack_max_size := 8
    stack_arr := List.replicate 8 default }

/-- The true distance in the tracker's internal representation between the points `x` and `y`
of dimension `k`: the sum of `|x_i - y_i|^p` for a finite `p`, the largest `|x_i - y_i|` for
`p = infinity`. -/
def true_distance (pow : ℚ → ℚ → ℚ) (p : WithTop ℚ) (x y : List ℚ) (k : Nat) : ℚ :=
  match p with
  | none => (List.range k).foldl (fun r i => max r |coord x i - coord y i|) 0
  | some q => ∑ i in Finset.range k, pow |coord x i - coord y i| q

/-- The point `x` of dimension `m` lies in the rectangle `rect`. -/
def InRect (rect : Rectangle) (x : List ℚ) (m : Nat) : Prop :=
  x.length = m ∧ ∀ i, i < m → coord rect.mins i ≤ coord x i ∧ coord x i ≤ coord rect.maxes i

/-- The distance on a circle of circumference `full` that belongs to the raw coordinate
difference `d` (for `|d| ≤ full`): the shorter way round. -/
def wrapped (full d : ℚ) : ℚ := min |d| (full - |d|)

/-- The pair `r` is the exact range of the wrapped distance over the raw differences in
`[mn, mx]`: every wrapped distance lies in `[r.1, r.2]` and both ends are attained. -/
def EnclosesWrapped (mn mx full : ℚ) (r : ℚ × ℚ) : Prop :=
  (∀ d, mn ≤ d → d ≤ mx → r.1 ≤ wrapped full d ∧ wrapped full d ≤ r.2) ∧
  (∃ d, mn ≤ d ∧ d ≤ mx ∧ wrapped full d = r.1) ∧
  (∃ d, mn ≤ d ∧ d ≤ mx ∧ wrapped full d = r.2)

/-- Every axis of the rectangle has `mins ≤ maxes`. -/
def Rectangle.Valid (rect : Rectangle) : Prop :=
  ∀ i, i < rect.m → coord rect.mins i ≤ coord rect.maxes i

/-- The running totals are the bounds of the current rectangles. -/
def Balanced (pow : ℚ → ℚ → ℚ) (S : Strategy) (t : RectRectDistanceTracker) : Prop :=
  (t.min_distance, t.max_distance) = totalPair pow S t.tree t.rect1 t.rect2 t.p

/-- The property `P` holds of the state and of every state that the pending pops lead back
to; `n` is the number of frames on the stack. -/
def Unwinds (P : RectRectDistanceTracker → Prop) : Nat → RectRectDistanceTracker → Prop
  | 0, t => t.stack_size = 0 ∧ P t
  | n + 1, t => t.stack_size = (n : Int) + 1 ∧ P t ∧ Unwinds P n (popped t)

/-- The states that the tracker reaches: construction over rectangles whose storage covers
the common dimension, then any sequence of successful `push` and successful `pop`. -/
inductive Reached (pow : ℚ → ℚ → ℚ) (S : Strategy) : RectRectDistanceTracker → Prop
  | construct {tree : ckdtree} {rect1 rect2 : Rectangle} {m : Nat} {p : WithTop ℚ} {eps : ℚ}
      {upper_bound : WithTop ℚ} {t : RectRectDistanceTracker} :
      Covers S tree rect1 rect2 m →
      RectRectDistanceTracker.construct pow S tree rect1 rect2 p eps upper_bound = .ok t →
      Reached pow S t
  | push {t t' : RectRectDistanceTracker} {which direction : Int} {split_dim : Nat}
      {split_val : ℚ} :
      Reached pow S t →
      t.push pow S which direction split_dim split_val = .ok t' →
      Reached pow S t'
  | pop {t t' : RectRectDistanceTracker} :
      Reached pow S t → t.pop = .ok t' → Reached pow S t'

/-- The largest of the values `f 0, ..., f (m - 1)`, for `m ≥ 1`. -/
def max_over_axes (f : Nat → ℚ) (m : Nat) : ℚ :=
  (List.range' 1 (m - 1)).foldl (fun acc i => max acc (f i)) (f 0)

/-- A reached state of the periodic strategy: the tracker over `[0, 1]` and `[2, 3]` with
period 10 and `p = 3`, after `push(2, GREATER, 0, 5/2)`. -/
def sample_pushed : RectRectDistanceTracker :=
  pushed natPow .box
    (constructed natPow .box ⟨1, [10, 5]⟩ ⟨1, [0], [1]⟩ ⟨1, [2], [3]⟩ ((3 : ℚ) : WithTop ℚ) 0 ⊤)
    2 GREATER 0 (5 / 2)

/-- A reached state of the plain strategy whose stack is full: the tracker over `[0, 1]` and
`[2, 3]` with `p = 2` after 8 calls of `push(1, LESS, 0, 1/2)`, on a capacity of 8. -/
def sample_full : RectRectDistanceTracker :=
  (fun t => pushed natPow .plain t 1 LESS 0 (1 / 2))^[8]
    (constructed natPow .plain ⟨1, []⟩ ⟨1, [0], [1]⟩ ⟨1, [2], [3]⟩ ((2 : ℚ) : WithTop ℚ) 0 ⊤)

theorem natPow_laws : PowLaws natPow where
  sq x := by
    have h : Int.toNat ⌈(2 : ℚ)⌉ = 2 := by
      rw [show ((2 : ℚ)) = ((2 : ℤ) : ℚ) by norm_num, Int.ceil_intCast]; rfl
    simp only [natPow, h]; ring
  one x := by
    have h : Int.toNat ⌈(1 : ℚ)⌉ = 1 := by
      rw [show ((1 : ℚ)) = ((1 : ℤ) : ℚ) by norm_num, Int.ceil_intCast]; rfl
    simp only [natPow, h]; ring
  nonneg x p hx := pow_nonneg hx _
  mono x y p _ hx hxy := pow_le_pow_left₀ hx hxy _
  zero p hp := by
    have h : 0 < ⌈p⌉ := Int.ceil_pos.mpr hp
    have h2 : Int.toNat ⌈p⌉ ≠ 0 := by omega
    simp only [natPow]
    exact zero_pow h2

theorem ok_bind {ε α β : Type} (a : α) (f : α → Except ε β) :
    (Except.ok a >>= f) = f a := rfl

theorem rd_of_lt {a : List ℚ} {k : Nat} (h : k < a.length) : rd a k = .ok (coord a k) := by
  simp [rd, coord, List.getD, List.getElem?_eq_getElem h]

theorem rd_of_le {α : Type} {a : List α} {k : Nat} (h : a.length ≤ k) :
    rd a k = .error .out_of_range := by
  simp [rd, List.getElem?_eq_none h]

theorem wr_of_lt {α : Type} {a : List α} {k : Nat} (v : α) (h : k < a.length) :
    wr a k v = .ok (a.set k v) := by
  simp [wr, h]

theorem coord_set_self {a : List ℚ} {k : Nat} (v : ℚ) (h : k < a.length) :
    coord (a.set k v) k = v := by
  simp [coord, List.getD, h]

theorem coord_set_ne {a : List ℚ} {k j : Nat} (v : ℚ) (h : k ≠ j) :
    coord (a.set k v) j = coord a j := by
  simp [coord, List.getD, h]

theorem set_coord_self {a : List ℚ} {k : Nat} (h : k < a.length) :
    a.set k (coord a k) = a := by
  apply List.ext_getElem
  · simp
  · intro i h1 h2
    by_cases hik : k = i
    · subst hik; simp [coord, List.getD, List.getElem?_eq_getElem h]
    · simp [List.getElem_set_ne hik]

/-- A monadic fold all of whose steps succeed is the pure fold. -/
theorem foldlM_eq_foldl {σ : Type} (f : σ → Nat → Except Error σ) (g : σ → Nat → σ)
    (l : List Nat) (h : ∀ i ∈ l, ∀ acc, f acc i = .ok (g acc i)) (init : σ) :
    l.foldlM f init = .ok (l.foldl g init) := by
  induction l generalizing init with
  | nil => rfl
  | cons a l ih =>
    rw [List.foldlM_cons, h a (List.mem_cons_self a l), ok_bind, List.foldl_cons]
    exact ih (fun i hi => h i (List.mem_cons_of_mem a hi)) _

theorem axis_1d_eq {tree : ckdtree} {rect1 rect2 : Rectangle} {m k : Nat}
    (h : Covers .box tree rect1 rect2 m) (hk : k < m) :
    MinMaxDistBox.axis_1d tree rect1 rect2 k = .ok (gapPair .box tree rect1 rect2 k) := by
  have hb := h.box rfl
  have h1 : k < rect1.mins.length := by rw [h.mins1]; exact hk
  have h2 : k < rect1.maxes.length := by rw [h.maxes1]; exact hk
  have h3 : k < rect2.mins.length := by rw [h.mins2]; exact hk
  have h4 : k < rect2.maxes.length := by rw [h.maxes2]; exact hk
  have h5 : k < tree.raw_boxsize_data.length := by omega
  have h6 : k + rect1.m < tree.raw_boxsize_data.length := by rw [h.dim1]; omega
  simp only [MinMaxDistBox.axis_1d, rd_of_lt h1, rd_of_lt h2, rd_of_lt h3, rd_of_lt h4,
    rd_of_lt h5, rd_of_lt h6, ok_bind, gapPair]
  rfl

theorem interval_interval_2_eq {S : Strategy} {tree : ckdtree} {rect1 rect2 : Rectangle}
    {m k : Nat} (h : Covers S tree rect1 rect2 m) (hk : k < m) :
    S.interval_interval_2 tree rect1 rect2 k =
      .ok ((gapPair S tree rect1 rect2 k).1 * (gapPair S tree rect1 rect2 k).1,
           (gapPair S tree rect1 rect2 k).2 * (gapPair S tree rect1 rect2 k).2) := by
  cases S with
  | plain =>
    have h1 : k < rect1.mins.length := by rw [h.mins1]; exact hk
    have h2 : k < rect1.maxes.length := by rw [h.maxes1]; exact hk
    have h3 : k < rect2.mins.length := by rw [h.mins2]; exact hk
    have h4 : k < rect2.maxes.length := by rw [h.maxes2]; exact hk
    simp only [Strategy.interval_interval_2, MinMaxDist.interval_interval_2, rd_of_lt h1,
      rd_of_lt h2, rd_of_lt h3, rd_of_lt h4, ok_bind, gapPair]
    rfl
  | box =>
    simp only [Strategy.interval_interval_2, MinMaxDistBox.interval_interval_2,
      axis_1d_eq h hk, ok_bind]
    rfl

theorem interval_interval_p_eq (pow : ℚ → ℚ → ℚ) {S : Strategy} {tree : ckdtree}
    {rect1 rect2 : Rectangle} {m k : Nat} (q : ℚ) (h : Covers S tree rect1 rect2 m)
    (hk : k < m) :
    S.interval_interval_p pow tree rect1 rect2 k q =
      .ok (pow (gapPair S tree rect1 rect2 k).1 q, pow (gapPair S tree rect1 rect2 k).2 q) := by
  cases S with
  | plain =>
    have h1 : k < rect1.mins.length := by rw [h.mins1]; exact hk
    have h2 : k < rect1.maxes.length := by rw [h.maxes1]; exact hk
    have h3 : k < rect2.mins.length := by rw [h.mins2]; exact hk
    have h4 : k < rect2.maxes.length := by rw [h.maxes2]; exact hk
    simp only [Strategy.interval_interval_p, MinMaxDist.interval_interval_p, rd_of_lt h1,
      rd_of_lt h2, rd_of_lt h3, rd_of_lt h4, ok_bind, gapPair]
    rfl
  | box =>
    simp only [Strategy.interval_interval_p, MinMaxDistBox.interval_interval_p,
      axis_1d_eq h hk, ok_bind]
    rfl

theorem rect_rect_p_inf_eq {S : Strategy} {tree : ckdtree} {rect1 rect2 : Rectangle} {m : Nat}
    (h : Covers S tree rect1 rect2 m) (hm : S = .box → 0 < m) :
    S.rect_rect_p_inf tree rect1 rect2 = .ok (infPair S tree rect1 rect2) := by
  cases S with
  | plain =>
    have hlt : ∀ i ∈ List.range rect1.m, i < m := by
      intro i hi; rw [h.dim1] at hi; exact List.mem_range.mp hi
    simp only [Strategy.rect_rect_p_inf, MinMaxDist.rect_rect_p_inf, infPair]
    rw [foldlM_eq_foldl _
      (fun acc i => dmax acc (dmax (coord rect1.mins i - coord rect2.maxes i)
                                   (coord rect2.mins i - coord rect1.maxes i)))]
    · rw [ok_bind, foldlM_eq_foldl _
        (fun acc i => dmax acc (dmax (coord rect1.maxes i - coord rect2.mins i)
                                     (coord rect2.maxes i - coord rect1.mins i)))]
      · rfl
      · intro i hi acc
        have hk := hlt i hi
        have h1 : i < rect1.mins.length := by rw [h.mins1]; exact hk
        have h2 : i < rect1.maxes.length := by rw [h.maxes1]; exact hk
        have h3 : i < rect2.mins.length := by rw [h.mins2]; exact hk
        have h4 : i < rect2.maxes.length := by rw [h.maxes2]; exact hk
        simp only [rd_of_lt h1, rd_of_lt h2, rd_of_lt h3, rd_of_lt h4, ok_bind]
        rfl
    · intro i hi acc
      have hk := hlt i hi
      have h1 : i < rect1.mins.length := by rw [h.mins1]; exact hk
      have h2 : i < rect1.maxes.length := by rw [h.maxes1]; exact hk
      have h3 : i < rect2.mins.length := by rw [h.mins2]; exact hk
      have h4 : i < rect2.maxes.length := by rw [h.maxes2]; exact hk
      simp only [rd_of_lt h1, rd_of_lt h2, rd_of_lt h3, rd_of_lt h4, ok_bind]
      rfl
  | box =>
    have hm0 := hm rfl
    simp only [Strategy.rect_rect_p_inf, MinMaxDistBox.rect_rect_p_inf, infPair,
      axis_1d_eq h hm0, ok_bind]
    apply foldlM_eq_foldl
    intro i hi acc
    have hi2 : i < m := by
      have := List.mem_range'_1.mp hi
      rw [h.dim1] at this; omega
    simp only [axis_1d_eq h hi2, ok_bind]
    rfl

theorem sum_axes_eq (body : Nat → Except Error (ℚ × ℚ)) (g : Nat → ℚ × ℚ) (m : Nat)
    (h : ∀ i, i < m → body i = .ok (g i)) :
    sum_axes body m =
      .ok (∑ i in Finset.range m, (g i).1, ∑ i in Finset.range m, (g i).2) := by
  unfold sum_axes
  rw [foldlM_eq_foldl _ (fun acc i => (acc.1 + (g i).1, acc.2 + (g i).2))]
  · congr 1
    clear h
    induction m with
    | zero => rfl
    | succ n ih =>
      rw [List.range_succ, List.foldl_append, ih, Finset.sum_range_succ, Finset.sum_range_succ]
      rfl
  · intro i hi acc
    rw [h i (List.mem_range.mp hi), ok_bind]
    rfl

theorem initial_distances_eq (pow : ℚ → ℚ → ℚ) {S : Strategy} {tree : ckdtree}
    {rect1 rect2 : Rectangle} {m : Nat} (p : WithTop ℚ) (h : Covers S tree rect1 rect2 m)
    (hm : S = .box → p = ⊤ → 0 < m) :
    RectRectDistanceTracker.initial_distances pow S tree rect1 rect2 p =
      .ok (totalPair pow S tree rect1 rect2 p) := by
  unfold RectRectDistanceTracker.initial_distances totalPair
  cases p with
  | top =>
    have h2 : (⊤ : WithTop ℚ) ≠ ((2 : ℚ) : WithTop ℚ) := WithTop.top_ne_coe
    rw [if_neg h2]
    exact rect_rect_p_inf_eq h (fun hS => hm hS rfl)
  | coe q =>
    by_cases hq : q = 2
    · subst hq
      rw [if_pos rfl]
      rw [sum_axes_eq _ (fun i => contrib pow 2 (gapPair S tree rect1 rect2 i))]
      intro i hi
      rw [h.dim1] at hi
      rw [interval_interval_2_eq h hi]
      simp [contrib]
    · have h2 : ((q : ℚ) : WithTop ℚ) ≠ ((2 : ℚ) : WithTop ℚ) := by
        simpa using hq
      rw [if_neg h2]
      show sum_axes _ _ = _
      rw [sum_axes_eq _ (fun i => contrib pow q (gapPair S tree rect1 rect2 i))]
      intro i hi
      rw [h.dim1] at hi
      rw [interval_interval_p_eq pow q h hi]
      simp [contrib, hq]

theorem axis_bounds_eq (pow : ℚ → ℚ → ℚ) {S : Strategy} {tree : ckdtree}
    {rect1 rect2 : Rectangle} {m k : Nat} (q : ℚ) (h : Covers S tree rect1 rect2 m)
    (hk : k < m) :
    RectRectDistanceTracker.axis_bounds pow S tree rect1 rect2 k q =
      .ok (contrib pow q (gapPair S tree rect1 rect2 k)) := by
  unfold RectRectDistanceTracker.axis_bounds contrib
  by_cases hq : q = 2
  · rw [if_pos hq, if_pos hq]; exact interval_interval_2_eq h hk
  · rw [if_neg hq, if_neg hq]; exact interval_interval_p_eq pow q h hk

theorem covers_narrowed_left {S : Strategy} {tree : ckdtree} {rect1 rect2 : Rectangle}
    {m : Nat} (h : Covers S tree rect1 rect2 m) (direction : Int) (k : Nat) (v : ℚ) :
    Covers S tree (narrowed rect1 direction k v) rect2 m := by
  unfold narrowed
  split
  · exact ⟨h.mins1, by simp [h.maxes1], h.mins2, h.maxes2, h.dim1, h.dim2, h.box⟩
  · exact ⟨by simp [h.mins1], h.maxes1, h.mins2, h.maxes2, h.dim1, h.dim2, h.box⟩

theorem covers_narrowed_right {S : Strategy} {tree : ckdtree} {rect1 rect2 : Rectangle}
    {m : Nat} (h : Covers S tree rect1 rect2 m) (direction : Int) (k : Nat) (v : ℚ) :
    Covers S tree rect1 (narrowed rect2 direction k v) m := by
  unfold narrowed
  split
  · exact ⟨h.mins1, h.maxes1, h.mins2, by simp [h.maxes2], h.dim1, h.dim2, h.box⟩
  · exact ⟨h.mins1, h.maxes1, by simp [h.mins2], h.maxes2, h.dim1, h.dim2, h.box⟩

theorem set_maxes_eq (rect : Rectangle) {direction : Int} {k m : Nat} (v : ℚ)
    (h2 : rect.maxes.length = m) (hk : k < m) (hd : direction = LESS) :
    rect.set_maxes k v = .ok (narrowed rect direction k v) := by
  unfold narrowed Rectangle.set_maxes
  rw [if_pos hd, wr_of_lt v (by omega)]; rfl

theorem set_mins_eq (rect : Rectangle) {direction : Int} {k m : Nat} (v : ℚ)
    (h1 : rect.mins.length = m) (hk : k < m) (hd : ¬ direction = LESS) :
    rect.set_mins k v = .ok (narrowed rect direction k v) := by
  unfold narrowed Rectangle.set_mins
  rw [if_neg hd, wr_of_lt v (by omega)]; rfl

theorem push_eq_pushed (pow : ℚ → ℚ → ℚ) {S : Strategy} {t : RectRectDistanceTracker}
    (hwf : WF S t) (which direction : Int) {split_dim : Nat} (split_val : ℚ)
    (hk : split_dim < t.rect1.m) :
    t.push pow S which direction split_dim split_val =
      .ok (pushed pow S t which direction split_dim split_val) := by
  have hc := hwf.covers
  have hidx : ¬ ((if t.stack_size = t.stack_max_size then
      t._resize_stack (t.stack_max_size * 2) else t).stack_size < 0) := by
    have := hwf.size_nonneg
    split <;> simp [RectRectDistanceTracker._resize_stack] <;> omega
  have hkm1 : split_dim < t.rect1.mins.length := by rw [hc.mins1]; exact hk
  have hkM1 : split_dim < t.rect1.maxes.length := by rw [hc.maxes1]; exact hk
  have hkm2 : split_dim < t.rect2.mins.length := by rw [hc.mins2]; exact hk
  have hkM2 : split_dim < t.rect2.maxes.length := by rw [hc.maxes2]; exact hk
  have hm0 : S = .box → 0 < t.rect1.m := fun _ => by omega
  have hlen : t.stack_size.toNat <
      (if t.stack_size = t.stack_max_size then
        vector_resize t.stack_arr (t.stack_max_size * 2).toNat else t.stack_arr).length := by
    have h1 := hwf.size_nonneg
    have h2 := hwf.size_le
    have h3 := hwf.cap
    have h4 := hwf.cap_pos
    split
    · simp only [vector_resize, List.length_append, List.length_take, List.length_replicate]
      omega
    · omega
  have hcl := covers_narrowed_left hc direction split_dim split_val
  have hcr := covers_narrowed_right hc direction split_dim split_val
  have hD : (direction = LESS) = True ∨ (direction = LESS) = False := by
    by_cases h : direction = LESS <;> simp [h]
  have hW : (which = 1) = True ∨ (which = 1) = False := by
    by_cases h : which = 1 <;> simp [h]
  have hF : (t.stack_size = t.stack_max_size) = True ∨
      (t.stack_size = t.stack_max_size) = False := by
    by_cases h : t.stack_size = t.stack_max_size <;> simp [h]
  rcases hD with hd | hd <;> rcases hW with hw | hw <;> rcases hF with hfull | hfull <;>
    cases hp : t.p
  all_goals
    unfold RectRectDistanceTracker.push pushed
    simp only [hfull, hw, hd, hp, if_true, if_false, RectRectDistanceTracker._resize_stack]
      at hidx hlen ⊢
    simp only [if_neg hidx, rd_of_lt hkm1, rd_of_lt hkM1, rd_of_lt hkm2, rd_of_lt hkM2, ok_bind,
      pure_bind, wr_of_lt _ hlen]
    first
    | rw [set_maxes_eq t.rect1 split_val hc.maxes1 hk (of_eq_true hd)]
    | rw [set_maxes_eq t.rect2 split_val hc.maxes2 hk (of_eq_true hd)]
    | rw [set_mins_eq t.rect1 split_val hc.mins1 hk (of_eq_false hd)]
    | rw [set_mins_eq t.rect2 split_val hc.mins2 hk (of_eq_false hd)]
    simp only [ok_bind, axis_bounds_eq pow _ hc hk, axis_bounds_eq pow _ hcl hk,
      axis_bounds_eq pow _ hcr hk, rect_rect_p_inf_eq hcl hm0, rect_rect_p_inf_eq hcr hm0]
    rfl

theorem pop_eq_popped {S : Strategy} {t : RectRectDistanceTracker} (hwf : WF S t)
    (hpos : 0 < t.stack_size) : t.pop = .ok (popped t) := by
  have hc := hwf.covers
  have hn : ¬ (t.stack_size - 1 < 0) := by omega
  have hlen : (t.stack_size - 1).toNat < t.stack_arr.length := by
    have h1 := hwf.size_le
    have h2 := hwf.cap
    omega
  have hget : t.stack_arr[(t.stack_size - 1).toNat]? =
      some (t.stack_arr.getD (t.stack_size - 1).toNat default) := by
    rw [List.getD_eq_getElem?_getD, List.getElem?_eq_getElem hlen]; rfl
  have hdim : (t.stack_arr.getD (t.stack_size - 1).toNat default).split_dim < t.rect1.m :=
    hwf.frames _ _ (by omega) hget
  have h1 := hc.mins1
  have h2 := hc.maxes1
  have h3 := hc.mins2
  have h4 := hc.maxes2
  unfold RectRectDistanceTracker.pop popped
  simp only [if_neg hn, hget]
  split
  · rw [wr_of_lt _ (by omega), wr_of_lt _ (by omega)]
  · rw [wr_of_lt _ (by omega), wr_of_lt _ (by omega)]

theorem pop_of_empty (t : RectRectDistanceTracker) (h : t.stack_size ≤ 0) :
    t.pop = .error (.logic_error, { t with stack_size := t.stack_size - 1 }) := by
  have hn : t.stack_size - 1 < 0 := by omega
  unfold RectRectDistanceTracker.pop
  simp only [if_pos hn]

theorem vector_resize_length {α : Type} [Inhabited α] (a : List α) (N : Nat) :
    (vector_resize a N).length = N := by
  simp only [vector_resize, List.length_append, List.length_take, List.length_replicate]
  omega

theorem vector_resize_get {α : Type} [Inhabited α] {a : List α} {N i : Nat}
    (hi : i < a.length) (hN : a.length ≤ N) : (vector_resize a N)[i]? = a[i]? := by
  unfold vector_resize
  rw [List.take_of_length_le hN, List.getElem?_append_left hi]

/-- The frame storage after the capacity check of `push`. -/
theorem pushed_stack_arr (pow : ℚ → ℚ → ℚ) (S : Strategy) (t : RectRectDistanceTracker)
    (which direction : Int) (split_dim : Nat) (split_val : ℚ) :
    (pushed pow S t which direction split_dim split_val).stack_arr =
      (if t.stack_size = t.stack_max_size then
          vector_resize t.stack_arr (t.stack_max_size * 2).toNat
        else t.stack_arr).set t.stack_size.toNat
        { which := which
          split_dim := split_dim
          min_distance := t.min_distance
          max_distance := t.max_distance
          min_along_dim := coord (if which = 1 then t.rect1 else t.rect2).mins split_dim
          max_along_dim := coord (if which = 1 then t.rect1 else t.rect2).maxes split_dim } := by
  unfold pushed RectRectDistanceTracker._resize_stack
  split <;> rfl

theorem pushed_stack_max_size (pow : ℚ → ℚ → ℚ) (S : Strategy) (t : RectRectDistanceTracker)
    (which direction : Int) (split_dim : Nat) (split_val : ℚ) :
    (pushed pow S t which direction split_dim split_val).stack_max_size =
      if t.stack_size = t.stack_max_size then t.stack_max_size * 2 else t.stack_max_size := by
  unfold pushed RectRectDistanceTracker._resize_stack
  split <;> rfl

theorem pushed_frame_lt (pow : ℚ → ℚ → ℚ) {S : Strategy} {t : RectRectDistanceTracker}
    (hwf : WF S t) (which direction : Int) (split_dim : Nat) (split_val : ℚ) {i : Nat}
    (hi : i < t.stack_size.toNat) :
    (pushed pow S t which direction split_dim split_val).stack_arr[i]? = t.stack_arr[i]? := by
  have h1 := hwf.size_nonneg
  have h2 := hwf.size_le
  have h3 := hwf.cap
  rw [pushed_stack_arr, List.getElem?_set_ne (by omega)]
  split
  · exact vector_resize_get (by omega) (by omega)
  · rfl

theorem pushed_frame_top (pow : ℚ → ℚ → ℚ) {S : Strategy} {t : RectRectDistanceTracker}
    (hwf : WF S t) (which direction : Int) (split_dim : Nat) (split_val : ℚ) :
    (pushed pow S t which direction split_dim split_val).stack_arr[t.stack_size.toNat]? =
      some (frame_of t which split_dim) := by
  have h1 := hwf.size_nonneg
  have h2 := hwf.size_le
  have h3 := hwf.cap
  have h4 := hwf.cap_pos
  rw [pushed_stack_arr, List.getElem?_set_self]
  · rfl
  split
  · rw [vector_resize_length]; omega
  · omega

theorem pushed_stack_arr_length (pow : ℚ → ℚ → ℚ) {S : Strategy} {t : RectRectDistanceTracker}
    (hwf : WF S t) (which direction : Int) (split_dim : Nat) (split_val : ℚ) :
    (pushed pow S t which direction split_dim split_val).stack_arr.length =
      (pushed pow S t which direction split_dim split_val).stack_max_size.toNat := by
  have h3 := hwf.cap
  rw [pushed_stack_arr, pushed_stack_max_size, List.length_set]
  split
  · rw [vector_resize_length]
  · exact h3

theorem pushed_covers (pow : ℚ → ℚ → ℚ) {S : Strategy} {t : RectRectDistanceTracker}
    (hwf : WF S t) (which direction : Int) (split_dim : Nat) (split_val : ℚ) :
    Covers S t.tree (pushed pow S t which direction split_dim split_val).rect1
      (pushed pow S t which direction split_dim split_val).rect2 t.rect1.m := by
  have hc := hwf.covers
  unfold pushed
  by_cases hw : which = 1
  · simp only [hw, if_true]
    exact covers_narrowed_left hc direction split_dim split_val
  · simp only [hw, if_false]
    exact covers_narrowed_right hc direction split_dim split_val

theorem pushed_rect1_m (pow : ℚ → ℚ → ℚ) {S : Strategy} {t : RectRectDistanceTracker}
    (hwf : WF S t) (which direction : Int) (split_dim : Nat) (split_val : ℚ) :
    (pushed pow S t which direction split_dim split_val).rect1.m = t.rect1.m :=
  (pushed_covers pow hwf which direction split_dim split_val).dim1

/-- The state invariant survives `push`. -/
theorem wf_pushed (pow : ℚ → ℚ → ℚ) {S : Strategy} {t : RectRectDistanceTracker}
    (hwf : WF S t) (which direction : Int) {split_dim : Nat} (split_val : ℚ)
    (hk : split_dim < t.rect1.m) :
    WF S (pushed pow S t which direction split_dim split_val) := by
  have h1 := hwf.size_nonneg
  have h2 := hwf.size_le
  have h4 := hwf.cap_pos
  have hm := pushed_rect1_m pow hwf which direction split_dim split_val
  have hsz : (pushed pow S t which direction split_dim split_val).stack_size =
      t.stack_size + 1 := rfl
  have htree : (pushed pow S t which direction split_dim split_val).tree = t.tree := rfl
  refine ⟨?_, ?_, pushed_stack_arr_length pow hwf which direction split_dim split_val,
    ?_, ?_, ?_⟩
  · rw [hm, htree]; exact pushed_covers pow hwf which direction split_dim split_val
  · rw [pushed_stack_max_size]; split <;> omega
  · rw [hsz]; omega
  · rw [hsz, pushed_stack_max_size]; split <;> omega
  · intro i f hi hf
    rw [hm]
    rw [hsz] at hi
    by_cases hlt : i < t.stack_size.toNat
    · rw [pushed_frame_lt pow hwf which direction split_dim split_val hlt] at hf
      exact hwf.frames i f hlt hf
    · have hieq : i = t.stack_size.toNat := by omega
      rw [hieq, pushed_frame_top pow hwf] at hf
      cases hf
      exact hk

theorem popped_covers {S : Strategy} {t : RectRectDistanceTracker} (hwf : WF S t) :
    Covers S t.tree (popped t).rect1 (popped t).rect2 t.rect1.m := by
  have hc := hwf.covers
  unfold popped
  simp only
  split
  · exact ⟨by simp [hc.mins1], by simp [hc.maxes1], hc.mins2, hc.maxes2, hc.dim1, hc.dim2,
      hc.box⟩
  · exact ⟨hc.mins1, hc.maxes1, by simp [hc.mins2], by simp [hc.maxes2], hc.dim1, hc.dim2,
      hc.box⟩

/-- The state invariant survives a successful `pop`. -/
theorem wf_popped {S : Strategy} {t : RectRectDistanceTracker} (hwf : WF S t)
    (hpos : 0 < t.stack_size) : WF S (popped t) := by
  have h2 := hwf.size_le
  have hm : (popped t).rect1.m = t.rect1.m := (popped_covers hwf).dim1
  have hsz : (popped t).stack_size = t.stack_size - 1 := rfl
  have htree : (popped t).tree = t.tree := rfl
  have harr : (popped t).stack_arr = t.stack_arr := rfl
  have hmax : (popped t).stack_max_size = t.stack_max_size := rfl
  refine ⟨?_, ?_, ?_, ?_, ?_, ?_⟩
  · rw [hm, htree]; exact popped_covers hwf
  · rw [hmax]; exact hwf.cap_pos
  · rw [harr, hmax]; exact hwf.cap
  · rw [hsz]; omega
  · rw [hsz, hmax]; omega
  · intro i f hi hf
    rw [hm]
    rw [hsz] at hi
    rw [harr] at hf
    exact hwf.frames i f (by omega) hf

theorem Sim.refl (t : RectRectDistanceTracker) : Sim t t :=
  ⟨rfl, rfl, rfl, rfl, rfl, rfl, rfl, rfl, rfl, fun _ _ => rfl⟩

theorem Sim.symm {t t' : RectRectDistanceTracker} (h : Sim t t') : Sim t' t :=
  ⟨h.tree.symm, h.rect1.symm, h.rect2.symm, h.p.symm, h.epsfac.symm, h.upper_bound.symm,
    h.min_distance.symm, h.max_distance.symm, h.stack_size.symm,
    fun i hi => (h.frames i (by rw [h.stack_size]; exact hi)).symm⟩

theorem Sim.trans {t t' t'' : RectRectDistanceTracker} (h : Sim t t') (h' : Sim t' t'') :
    Sim t t'' :=
  ⟨h.tree.trans h'.tree, h.rect1.trans h'.rect1, h.rect2.trans h'.rect2, h.p.trans h'.p,
    h.epsfac.trans h'.epsfac, h.upper_bound.trans h'.upper_bound,
    h.min_distance.trans h'.min_distance, h.max_distance.trans h'.max_distance,
    h.stack_size.trans h'.stack_size,
    fun i hi => (h.frames i hi).trans (h'.frames i (by rw [← h.stack_size]; exact hi))⟩

/-- Writing the saved bounds back undoes the narrowing of `push`. -/
theorem restore_narrowed (rect : Rectangle) (direction : Int) {k : Nat} (v : ℚ)
    (h1 : k < rect.mins.length) (h2 : k < rect.maxes.length) :
    ({ narrowed rect direction k v with
        mins := (narrowed rect direction k v).mins.set k (coord rect.mins k)
        maxes := (narrowed rect direction k v).maxes.set k (coord rect.maxes k) } : Rectangle)
      = rect := by
  unfold narrowed
  split
  · simp only [List.set_set, set_coord_self h1, set_coord_self h2]
  · simp only [List.set_set, set_coord_self h1, set_coord_self h2]

/-- `pop` right after `push` gives back every observable field. -/
theorem sim_popped_pushed (pow : ℚ → ℚ → ℚ) {S : Strategy} {t : RectRectDistanceTracker}
    (hwf : WF S t) (which direction : Int) {split_dim : Nat} (split_val : ℚ)
    (hk : split_dim < t.rect1.m) :
    Sim (popped (pushed pow S t which direction split_dim split_val)) t := by
  have hc := hwf.covers
  have h1 := hwf.size_nonneg
  have hkm1 : split_dim < t.rect1.mins.length := by rw [hc.mins1]; exact hk
  have hkM1 : split_dim < t.rect1.maxes.length := by rw [hc.maxes1]; exact hk
  have hkm2 : split_dim < t.rect2.mins.length := by rw [hc.mins2]; exact hk
  have hkM2 : split_dim < t.rect2.maxes.length := by rw [hc.maxes2]; exact hk
  have htop := pushed_frame_top pow hwf which direction split_dim split_val
  have hsz : (pushed pow S t which direction split_dim split_val).stack_size =
      t.stack_size + 1 := rfl
  have hidx : ((pushed pow S t which direction split_dim split_val).stack_size - 1).toNat =
      t.stack_size.toNat := by rw [hsz]; omega
  have hitem : (pushed pow S t which direction split_dim split_val).stack_arr.getD
      ((pushed pow S t which direction split_dim split_val).stack_size - 1).toNat default =
      frame_of t which split_dim := by
    rw [hidx, List.getD_eq_getElem?_getD, htop]; rfl
  refine ⟨rfl, ?_, ?_, rfl, rfl, rfl, ?_, ?_, ?_, ?_⟩
  · show (popped _).rect1 = _
    unfold popped
    simp only [hitem]
    by_cases hw : which = 1
    · simp only [hw, if_true, pushed, frame_of]
      exact restore_narrowed t.rect1 direction split_val hkm1 hkM1
    · simp only [hw, if_false, pushed, frame_of]
  · show (popped _).rect2 = _
    unfold popped
    simp only [hitem]
    by_cases hw : which = 1
    · simp only [hw, if_true, pushed, frame_of]
    · simp only [hw, if_false, pushed, frame_of]
      exact restore_narrowed t.rect2 direction split_val hkm2 hkM2
  · show (popped _).min_distance = _
    unfold popped
    simp only [hitem, frame_of]
  · show (popped _).max_distance = _
    unfold popped
    simp only [hitem, frame_of]
  · show (pushed pow S t which direction split_dim split_val).stack_size - 1 = _
    rw [hsz]; omega
  · intro i hi
    have hi' : i < t.stack_size.toNat := by
      have : (popped (pushed pow S t which direction split_dim split_val)).stack_size =
          t.stack_size + 1 - 1 := rfl
      rw [this] at hi; omega
    exact pushed_frame_lt pow hwf which direction split_dim split_val hi'

/-- `pop` takes states that agree on the observable fields to states that agree on them. -/
theorem sim_popped {t t' : RectRectDistanceTracker} (h : Sim t t') (hpos : 0 < t.stack_size) :
    Sim (popped t) (popped t') := by
  have hs := h.stack_size
  have hitem : t.stack_arr.getD (t.stack_size - 1).toNat default =
      t'.stack_arr.getD (t'.stack_size - 1).toNat default := by
    rw [List.getD_eq_getElem?_getD, List.getD_eq_getElem?_getD, ← hs,
      h.frames _ (by omega)]
  unfold popped
  refine ⟨h.tree, ?_, ?_, h.p, h.epsfac, h.upper_bound, ?_, ?_, ?_, ?_⟩
  · simp only [hitem, h.rect1]
  · simp only [hitem, h.rect2]
  · simp only [hitem]
  · simp only [hitem]
  · simp only [hs]
  · intro i hi
    simp only at hi
    exact h.frames i (by omega)

theorem wf_sample_tracker (S : Strategy) : WF S sample_tracker := by
  refine ⟨⟨rfl, rfl, rfl, rfl, rfl, rfl, fun _ => by decide⟩, by decide, rfl, by decide,
    by decide, ?_⟩
  intro i f hi
  simp [sample_tracker] at hi

theorem pop_n_succ (n : Nat) (t : RectRectDistanceTracker) :
    pop_n (n + 1) t = pop_n n t >>= RectRectDistanceTracker.pop := by
  induction n generalizing t with
  | zero =>
    show (t.pop >>= fun t' => Except.ok t') = (Except.ok t >>= RectRectDistanceTracker.pop)
    rw [ok_bind]
    cases t.pop <;> rfl
  | succ n ih =>
    show (t.pop >>= fun t' => pop_n (n + 1) t') =
      ((t.pop >>= fun t' => pop_n n t') >>= RectRectDistanceTracker.pop)
    rw [bind_assoc]
    congr 1
    funext t'
    exact ih t'

/-- A run of pushes succeeds, and the same number of pops afterwards leads back to a state that
agrees with the first one on all observable fields. -/
theorem push_all_pop_n (pow : ℚ → ℚ → ℚ) (S : Strategy) (args : List PushArgs) :
    ∀ t : RectRectDistanceTracker, WF S t → (∀ a ∈ args, a.split_dim < t.rect1.m) →
      ∃ t1 t2, push_all pow S t args = .ok t1 ∧ WF S t1 ∧
        t1.stack_size = t.stack_size + args.length ∧
        pop_n args.length t1 = .ok t2 ∧ Sim t2 t ∧ WF S t2 := by
  induction args with
  | nil =>
    intro t hwf _
    exact ⟨t, t, rfl, hwf, by simp, rfl, Sim.refl t, hwf⟩
  | cons a args ih =>
    intro t hwf hargs
    have hk : a.split_dim < t.rect1.m := hargs a (List.mem_cons_self a args)
    have hpush := push_eq_pushed pow hwf a.which a.direction a.split_val hk
    have hwf1 := wf_pushed pow hwf a.which a.direction a.split_val hk
    have hm := pushed_rect1_m pow hwf a.which a.direction a.split_dim a.split_val
    obtain ⟨t1, t2, h1, hwt1, hsz, h2, hsim, hwt2⟩ :=
      ih (pushed pow S t a.which a.direction a.split_dim a.split_val) hwf1
        (fun b hb => by rw [hm]; exact hargs b (List.mem_cons_of_mem a hb))
    have hsz0 : (pushed pow S t a.which a.direction a.split_dim a.split_val).stack_size =
        t.stack_size + 1 := rfl
    have hpos : 0 < t2.stack_size := by
      have := hwf.size_nonneg
      rw [hsim.stack_size, hsz0]; omega
    refine ⟨t1, popped t2, ?_, hwt1, ?_, ?_, ?_, wf_popped hwt2 hpos⟩
    · show (t.push pow S a.which a.direction a.split_dim a.split_val >>=
        fun t' => push_all pow S t' args) = _
      rw [hpush, ok_bind]; exact h1
    · rw [hsz, hsz0, List.length_cons]; push_cast; ring
    · rw [List.length_cons, pop_n_succ, h2, ok_bind]
      exact pop_eq_popped hwt2 hpos
    · exact (sim_popped hsim hpos).trans
        (sim_popped_pushed pow hwf a.which a.direction a.split_val hk)

/-- C1. Push/pop round trip: in every tracker state (either strategy, any `p`, infinity
included), for every `which`, `direction`, split value and every split dimension in range,
`push` succeeds and records the old bounds in the frame on top, the `pop` that follows
succeeds, and it leaves `min_distance`, `max_distance`, both rectangles and `stack_size`
exactly as they were before the `push`. -/
theorem push_pop_round_trip (pow : ℚ → ℚ → ℚ) (S : Strategy) (t : RectRectDistanceTracker)
    (which direction : Int) (split_dim : Nat) (split_val : ℚ)
    (hwf : WF S t) (hk : split_dim < t.rect1.m) :
    ∃ t1 t2 item,
      t.push pow S which direction split_dim split_val = .ok t1 ∧
      t1.stack_arr[t.stack_size.toNat]? = some item ∧
      item.min_distance = t.min_distance ∧ item.max_distance = t.max_distance ∧
      t1.pop = .ok t2 ∧
      t2.min_distance = t.min_distance ∧ t2.max_distance = t.max_distance ∧
      t2.rect1 = t.rect1 ∧ t2.rect2 = t.rect2 ∧ t2.stack_size = t.stack_size := by
  have hsim := sim_popped_pushed pow hwf which direction split_val hk
  have hwf1 := wf_pushed pow hwf which direction split_val hk
  have hpos : 0 < (pushed pow S t which direction split_dim split_val).stack_size := by
    have := hwf.size_nonneg
    show 0 < t.stack_size + 1
    omega
  exact ⟨pushed pow S t which direction split_dim split_val, popped _,
    frame_of t which split_dim,
    push_eq_pushed pow hwf which direction split_val hk,
    pushed_frame_top pow hwf which direction split_dim split_val, rfl, rfl,
    pop_eq_popped hwf1 hpos, hsim.min_distance, hsim.max_distance, hsim.rect1, hsim.rect2,
    hsim.stack_size⟩

/-- Witness of C1: a `push` of rectangle 1 along axis 0 on the sample tracker, then `pop`. -/
theorem push_pop_round_trip_witness :
    ∃ t1 t2 item,
      sample_tracker.push natPow .plain 1 LESS 0 (1 / 2) = .ok t1 ∧
      t1.stack_arr[sample_tracker.stack_size.toNat]? = some item ∧
      item.min_distance = sample_tracker.min_distance ∧
      item.max_distance = sample_tracker.max_distance ∧
      t1.pop = .ok t2 ∧
      t2.min_distance = sample_tracker.min_distance ∧
      t2.max_distance = sample_tracker.max_distance ∧
      t2.rect1 = sample_tracker.rect1 ∧ t2.rect2 = sample_tracker.rect2 ∧
      t2.stack_size = sample_tracker.stack_size :=
  push_pop_round_trip natPow .plain sample_tracker 1 LESS 0 (1 / 2)
    (wf_sample_tracker .plain) (by decide)

/-- C2. Nested round trip: in every tracker state, for every list of `N` push arguments with
split dimensions in range (any `which`, `direction`, split value, repetitions allowed), the
`N` pushes succeed, the `N` pops that follow succeed, and they leave `min_distance`,
`max_distance`, both rectangles and `stack_size` as before the sequence.  This holds for
every `N`; when `stack_size + N` exceeds the capacity the storage has grown in between. -/
theorem nested_round_trip (pow : ℚ → ℚ → ℚ) (S : Strategy) (t : RectRectDistanceTracker)
    (args : List PushArgs) (hwf : WF S t) (hargs : ∀ a ∈ args, a.split_dim < t.rect1.m) :
    ∃ t1 t2,
      push_all pow S t args = .ok t1 ∧
      t1.stack_size = t.stack_size + args.length ∧
      (t.stack_max_size < t.stack_size + args.length → t.stack_max_size < t1.stack_max_size) ∧
      pop_n args.length t1 = .ok t2 ∧
      t2.min_distance = t.min_distance ∧ t2.max_distance = t.max_distance ∧
      t2.rect1 = t.rect1 ∧ t2.rect2 = t.rect2 ∧ t2.stack_size = t.stack_size := by
  obtain ⟨t1, t2, h1, hwt1, hsz, h2, hsim, _⟩ := push_all_pop_n pow S args t hwf hargs
  refine ⟨t1, t2, h1, hsz, ?_, h2, hsim.min_distance, hsim.max_distance, hsim.rect1,
    hsim.rect2, hsim.stack_size⟩
  intro hlt
  have := hwt1.size_le
  omega

/-- Witness of C2: nine pushes on the sample tracker, one more than its capacity of 8. -/
theorem nested_round_trip_witness :
    ∃ t1 t2,
      push_all natPow .box sample_tracker (List.replicate 9 ⟨2, GREATER, 0, 5 / 2⟩) = .ok t1 ∧
      t1.stack_size = sample_tracker.stack_size +
        (List.replicate 9 (⟨2, GREATER, 0, 5 / 2⟩ : PushArgs)).length ∧
      (sample_tracker.stack_max_size < sample_tracker.stack_size +
          (List.replicate 9 (⟨2, GREATER, 0, 5 / 2⟩ : PushArgs)).length →
        sample_tracker.stack_max_size < t1.stack_max_size) ∧
      pop_n (List.replicate 9 (⟨2, GREATER, 0, 5 / 2⟩ : PushArgs)).length t1 = .ok t2 ∧
      t2.min_distance = sample_tracker.min_distance ∧
      t2.max_distance = sample_tracker.max_distance ∧
      t2.rect1 = sample_tracker.rect1 ∧ t2.rect2 = sample_tracker.rect2 ∧
      t2.stack_size = sample_tracker.stack_size :=
  nested_round_trip natPow .box sample_tracker (List.replicate 9 ⟨2, GREATER, 0, 5 / 2⟩)
    (wf_sample_tracker .box)
    (fun a ha => by rw [List.eq_of_mem_replicate ha]; decide)

theorem construct_eq (pow : ℚ → ℚ → ℚ) {S : Strategy} {tree : ckdtree}
    {rect1 rect2 : Rectangle} {m : Nat} (p : WithTop ℚ) (eps : ℚ) (upper_bound : WithTop ℚ)
    (h : Covers S tree rect1 rect2 m) (hm : S = .box → p = ⊤ → 0 < m) :
    RectRectDistanceTracker.construct pow S tree rect1 rect2 p eps upper_bound =
      .ok (constructed pow S tree rect1 rect2 p eps upper_bound) := by
  have hdim : ¬ (rect1.copy.m ≠ rect2.copy.m) := by
    show ¬ (rect1.m ≠ rect2.m)
    rw [h.dim1, h.dim2]; simp
  have hinit : RectRectDistanceTracker.initial_distances pow S tree rect1.copy rect2.copy p =
      .ok (totalPair pow S tree rect1 rect2 p) := initial_distances_eq pow p h hm
  unfold RectRectDistanceTracker.construct
  simp only [if_neg hdim, hinit, ok_bind]
  rfl

theorem construct_mismatch (pow : ℚ → ℚ → ℚ) (S : Strategy) (tree : ckdtree)
    {rect1 rect2 : Rectangle} (p : WithTop ℚ) (eps : ℚ) (upper_bound : WithTop ℚ)
    (h : rect1.m ≠ rect2.m) :
    RectRectDistanceTracker.construct pow S tree rect1 rect2 p eps upper_bound =
      .error .invalid_argument := by
  have hdim : rect1.copy.m ≠ rect2.copy.m := h
  unfold RectRectDistanceTracker.construct
  simp only [if_pos hdim]

theorem wf_constructed (pow : ℚ → ℚ → ℚ) {S : Strategy} {tree : ckdtree}
    {rect1 rect2 : Rectangle} {m : Nat} (p : WithTop ℚ) (eps : ℚ) (upper_bound : WithTop ℚ)
    (h : Covers S tree rect1 rect2 m) :
    WF S (constructed pow S tree rect1 rect2 p eps upper_bound) := by
  refine ⟨?_, ?_, rfl, ?_, ?_, ?_⟩
  · show Covers S tree rect1 rect2 rect1.m
    rw [h.dim1]; exact h
  · show (0 : Int) < 8
    decide
  · show (0 : Int) ≤ 0
    decide
  · show (0 : Int) ≤ 8
    decide
  · intro i f hi
    have hi0 : i < (0 : Int).toNat := hi
    simp at hi0

/-! ## Soundness of the bounds -/

theorem contrib_eq_pow {pow : ℚ → ℚ → ℚ} (hpow : PowLaws pow) (q : ℚ) (g : ℚ × ℚ) :
    contrib pow q g = (pow g.1 q, pow g.2 q) := by
  unfold contrib
  split
  · next h => subst h; rw [hpow.sq, hpow.sq]
  · rfl

theorem plain_gap_bounds {a1 a2 b1 b2 x y : ℚ} (hx1 : a1 ≤ x) (hx2 : x ≤ a2) (hy1 : b1 ≤ y)
    (hy2 : y ≤ b2) :
    0 ≤ dmax 0 (dmax (a1 - b2) (b1 - a2)) ∧
    dmax 0 (dmax (a1 - b2) (b1 - a2)) ≤ |x - y| ∧
    |x - y| ≤ dmax (a2 - b1) (b2 - a1) := by
  unfold dmax
  refine ⟨le_max_left _ _, ?_, ?_⟩
  · apply max_le (abs_nonneg _)
    apply max_le
    · exact le_trans (by linarith) (le_abs_self (x - y))
    · have := neg_le_abs (x - y); linarith
  · apply abs_le.mpr
    constructor
    · have := le_max_right (a2 - b1) (b2 - a1); linarith
    · have := le_max_left (a2 - b1) (b2 - a1); linarith

theorem foldl_max_mono (f g : Nat → ℚ) (l : List Nat) (h : ∀ i ∈ l, f i ≤ g i) :
    ∀ a b : ℚ, a ≤ b →
      l.foldl (fun r i => max r (f i)) a ≤ l.foldl (fun r i => max r (g i)) b := by
  induction l with
  | nil => intro a b hab; exact hab
  | cons i l ih =>
    intro a b hab
    rw [List.foldl_cons, List.foldl_cons]
    exact ih (fun j hj => h j (List.mem_cons_of_mem i hj)) _ _
      (max_le_max hab (h i (List.mem_cons_self i l)))

/-- The per-axis gap bounds of the plain strategy enclose `|x_i - y_i|`. -/
theorem plain_axis_sound {rect1 rect2 : Rectangle} {x y : List ℚ} {m i : Nat}
    (tree : ckdtree) (hx : InRect rect1 x m) (hy : InRect rect2 y m) (hi : i < m) :
    0 ≤ (gapPair .plain tree rect1 rect2 i).1 ∧
    (gapPair .plain tree rect1 rect2 i).1 ≤ |coord x i - coord y i| ∧
    |coord x i - coord y i| ≤ (gapPair .plain tree rect1 rect2 i).2 :=
  plain_gap_bounds (hx.2 i hi).1 (hx.2 i hi).2 (hy.2 i hi).1 (hy.2 i hi).2

/-- C3. Soundness of the bounds of a fresh tracker (plain strategy, exact arithmetic): for
rectangles of equal dimension `m`, `x` in `rect1` and `y` in `rect2` (so `mins ≤ maxes`
on every axis), construction succeeds and `min_distance ≤ D ≤ max_distance`, where `D` is
the sum of `|x_i - y_i|^p` for a finite `p ≥ 1` (the fast path `p = 2` included) and the
largest `|x_i - y_i|` for `p = infinity`. -/
theorem tracker_bounds_sound (pow : ℚ → ℚ → ℚ) (hpow : PowLaws pow) (tree : ckdtree)
    (rect1 rect2 : Rectangle) (m : Nat) (p : WithTop ℚ) (eps : ℚ) (upper_bound : WithTop ℚ)
    (x y : List ℚ) (hc : Covers .plain tree rect1 rect2 m)
    (hx : InRect rect1 x m) (hy : InRect rect2 y m)
    (hp : ∀ q : ℚ, p = (q : WithTop ℚ) → 1 ≤ q) :
    ∃ t, RectRectDistanceTracker.construct pow .plain tree rect1 rect2 p eps upper_bound
        = .ok t ∧
      t.min_distance ≤ true_distance pow p x y m ∧
      true_distance pow p x y m ≤ t.max_distance := by
  refine ⟨_, construct_eq pow p eps upper_bound hc (fun h => by cases h), ?_, ?_⟩
  · show (totalPair pow .plain tree rect1 rect2 p).1 ≤ _
    cases p with
    | top =>
      show (infPair .plain tree rect1 rect2).1 ≤ _
      unfold infPair true_distance
      simp only [hc.dim1, dmax]
      apply foldl_max_mono _ _ _ _ 0 0 le_rfl
      intro i hi
      have h := plain_axis_sound tree hx hy (List.mem_range.mp hi)
      exact le_trans (le_max_right _ _) h.2.1
    | coe q =>
      have hq : 0 < q := lt_of_lt_of_le one_pos (hp q rfl)
      show ∑ i in Finset.range rect1.m, (contrib pow q (gapPair .plain tree rect1 rect2 i)).1
        ≤ ∑ i in Finset.range m, pow |coord x i - coord y i| q
      rw [hc.dim1]
      apply Finset.sum_le_sum
      intro i hi
      have h := plain_axis_sound tree hx hy (Finset.mem_range.mp hi)
      rw [contrib_eq_pow hpow]
      exact hpow.mono _ _ q hq h.1 h.2.1
  · show _ ≤ (totalPair pow .plain tree rect1 rect2 p).2
    cases p with
    | top =>
      show _ ≤ (infPair .plain tree rect1 rect2).2
      unfold infPair true_distance
      simp only [hc.dim1, dmax]
      apply foldl_max_mono _ _ _ _ 0 0 le_rfl
      intro i hi
      exact (plain_axis_sound tree hx hy (List.mem_range.mp hi)).2.2
    | coe q =>
      have hq : 0 < q := lt_of_lt_of_le one_pos (hp q rfl)
      show ∑ i in Finset.range m, pow |coord x i - coord y i| q
        ≤ ∑ i in Finset.range rect1.m, (contrib pow q (gapPair .plain tree rect1 rect2 i)).2
      rw [hc.dim1]
      apply Finset.sum_le_sum
      intro i hi
      have h := plain_axis_sound tree hx hy (Finset.mem_range.mp hi)
      rw [contrib_eq_pow hpow]
      exact hpow.mono _ _ q hq (abs_nonneg _) h.2.2

/-- Witness of C3: the intervals `[0, 1]` and `[2, 3]`, the points `1/2` and `5/2`, `p = 3`. -/
theorem tracker_bounds_sound_witness :
    ∃ t, RectRectDistanceTracker.construct natPow .plain ⟨1, []⟩ ⟨1, [0], [1]⟩ ⟨1, [2], [3]⟩
          ((3 : ℚ) : WithTop ℚ) 0 ⊤ = .ok t ∧
      t.min_distance ≤ true_distance natPow ((3 : ℚ) : WithTop ℚ) [1 / 2] [5 / 2] 1 ∧
      true_distance natPow ((3 : ℚ) : WithTop ℚ) [1 / 2] [5 / 2] 1 ≤ t.max_distance :=
  tracker_bounds_sound natPow natPow_laws ⟨1, []⟩ ⟨1, [0], [1]⟩ ⟨1, [2], [3]⟩ 1
    ((3 : ℚ) : WithTop ℚ) 0 ⊤ [1 / 2] [5 / 2]
    ⟨rfl, rfl, rfl, rfl, rfl, rfl, fun h => by cases h⟩
    ⟨rfl, fun i hi => by
      obtain rfl : i = 0 := by omega
      norm_num [coord]⟩
    ⟨rfl, fun i hi => by
      obtain rfl : i = 0 := by omega
      norm_num [coord]⟩
    (fun q h => by
      have h3 : (3 : ℚ) = q := WithTop.coe_injective h
      rw [← h3]; norm_num)

/-! ## The periodic per-axis primitive -/

theorem interval_1d_nonneg {mn mx : ℚ} (full half : ℚ) (h0 : 0 ≤ mn) (hle : mn ≤ mx) :
    MinMaxDistBox._interval_interval_1d mn mx full half =
      if mx < half then (mn, mx)
      else if half < mn then (full - mx, full - mn)
      else (min mn (full - mx), half) := by
  have h1 : mx ≤ 0 ∨ mn ≥ 0 := Or.inr h0
  simp only [MinMaxDistBox._interval_interval_1d, if_pos h1, dabs, dmin,
    abs_of_nonneg h0, abs_of_nonneg (le_trans h0 hle), gt_iff_lt, if_neg (not_lt.mpr hle)]

theorem interval_1d_nonpos {mn mx : ℚ} (full half : ℚ) (h0 : mx ≤ 0) (hle : mn ≤ mx) :
    MinMaxDistBox._interval_interval_1d mn mx full half =
      if -mn < half then (-mx, -mn)
      else if half < -mx then (full + mn, full + mx)
      else (min (-mx) (full + mn), half) := by
  have h1 : mx ≤ 0 ∨ mn ≥ 0 := Or.inl h0
  have hmn : mn ≤ 0 := le_trans hle h0
  rcases eq_or_lt_of_le hle with heq | hlt
  · subst heq
    simp only [MinMaxDistBox._interval_interval_1d, if_pos h1, dabs, dmin,
      abs_of_nonpos hmn, gt_iff_lt, sub_neg_eq_add, if_neg (lt_irrefl (-mn))]
  · simp only [MinMaxDistBox._interval_interval_1d, if_pos h1, dabs, dmin,
      abs_of_nonpos hmn, abs_of_nonpos h0, gt_iff_lt, sub_neg_eq_add,
      if_pos (neg_lt_neg hlt)]

theorem interval_1d_through {mn mx : ℚ} (full half : ℚ) (h1 : mn < 0) (h2 : 0 < mx) :
    MinMaxDistBox._interval_interval_1d mn mx full half =
      (0, min (max (-mn) mx) half) := by
  have h : ¬ (mx ≤ 0 ∨ mn ≥ 0) := by
    intro h; rcases h with h | h <;> linarith
  simp only [MinMaxDistBox._interval_interval_1d, if_neg h, gt_iff_lt]
  congr 1
  by_cases ha : mx < -mn
  · rw [if_pos ha, max_eq_left (le_of_lt ha)]
    by_cases hb : half < -mn
    · rw [if_pos hb, min_eq_right (le_of_lt hb)]
    · rw [if_neg hb, min_eq_left (not_lt.mp hb)]
  · rw [if_neg ha, max_eq_right (not_lt.mp ha)]
    by_cases hb : half < mx
    · rw [if_pos hb, min_eq_right (le_of_lt hb)]
    · rw [if_neg hb, min_eq_left (not_lt.mp hb)]

theorem wrapped_of_nonneg {full d : ℚ} (h : 0 ≤ d) : wrapped full d = min d (full - d) := by
  unfold wrapped; rw [abs_of_nonneg h]

theorem wrapped_neg (full d : ℚ) : wrapped full (-d) = wrapped full d := by
  unfold wrapped; rw [abs_neg]

theorem wrapped_low {full half d : ℚ} (hfull : full = 2 * half) (h0 : 0 ≤ d) (h : d ≤ half) :
    wrapped full d = d := by
  rw [wrapped_of_nonneg h0]; exact min_eq_left (by linarith)

theorem wrapped_high {full half d : ℚ} (hfull : full = 2 * half) (h0 : 0 ≤ d) (h : half ≤ d) :
    wrapped full d = full - d := by
  rw [wrapped_of_nonneg h0]; exact min_eq_right (by linarith)

theorem interval_1d_flip {mn mx : ℚ} (full half : ℚ) (h0 : mx ≤ 0) (hle : mn ≤ mx) :
    MinMaxDistBox._interval_interval_1d mn mx full half =
      MinMaxDistBox._interval_interval_1d (-mx) (-mn) full half := by
  rw [interval_1d_nonpos full half h0 hle,
    interval_1d_nonneg full half (by linarith : (0 : ℚ) ≤ -mx) (by linarith : -mx ≤ -mn)]
  simp only [sub_neg_eq_add]

theorem encloses_nonneg {mn mx full half : ℚ} (hhalf : 0 < half) (hfull : full = 2 * half)
    (h0 : 0 ≤ mn) (hle : mn ≤ mx) :
    EnclosesWrapped mn mx full (MinMaxDistBox._interval_interval_1d mn mx full half) := by
  rw [interval_1d_nonneg full half h0 hle]
  by_cases h1 : mx < half
  · rw [if_pos h1]
    refine ⟨fun d hd1 hd2 => ?_, ⟨mn, le_rfl, hle, ?_⟩, ⟨mx, hle, le_rfl, ?_⟩⟩
    · rw [wrapped_low hfull (by linarith) (by linarith)]; exact ⟨hd1, hd2⟩
    · exact wrapped_low hfull h0 (by linarith)
    · exact wrapped_low hfull (by linarith) (by linarith)
  · rw [if_neg h1]
    have h1' : half ≤ mx := not_lt.mp h1
    by_cases h2 : half < mn
    · rw [if_pos h2]
      refine ⟨fun d hd1 hd2 => ?_, ⟨mx, hle, le_rfl, ?_⟩, ⟨mn, le_rfl, hle, ?_⟩⟩
      · rw [wrapped_high hfull (by linarith) (by linarith)]
        exact ⟨by simp only; linarith, by simp only; linarith⟩
      · exact wrapped_high hfull (by linarith) h1'
      · exact wrapped_high hfull h0 (by linarith)
    · rw [if_neg h2]
      have h2' : mn ≤ half := not_lt.mp h2
      refine ⟨fun d hd1 hd2 => ?_, ?_, ⟨half, h2', h1', ?_⟩⟩
      · have hd0 : 0 ≤ d := by linarith
        rcases le_total d half with hd | hd
        · rw [wrapped_low hfull hd0 hd]
          exact ⟨le_trans (min_le_left _ _) hd1, hd⟩
        · rw [wrapped_high hfull hd0 hd]
          exact ⟨le_trans (min_le_right _ _) (by linarith), by simp only; linarith⟩
      · rcases le_total mn (full - mx) with h3 | h3
        · exact ⟨mn, le_rfl, hle, by
            rw [wrapped_low hfull h0 h2']; exact (min_eq_left h3).symm⟩
        · exact ⟨mx, hle, le_rfl, by
            rw [wrapped_high hfull (by linarith) h1']; exact (min_eq_right h3).symm⟩
      · exact wrapped_low hfull (le_of_lt hhalf) le_rfl

theorem encloses_nonpos {mn mx full half : ℚ} (hhalf : 0 < half) (hfull : full = 2 * half)
    (h0 : mx ≤ 0) (hle : mn ≤ mx) :
    EnclosesWrapped mn mx full (MinMaxDistBox._interval_interval_1d mn mx full half) := by
  rw [interval_1d_flip full half h0 hle]
  obtain ⟨ha, ⟨d1, hb1, hb2, hb3⟩, ⟨d2, hc1, hc2, hc3⟩⟩ :=
    encloses_nonneg hhalf hfull (by linarith : (0 : ℚ) ≤ -mx) (by linarith : -mx ≤ -mn)
  refine ⟨fun d hd1 hd2 => ?_, ⟨-d1, by linarith, by linarith, ?_⟩,
    ⟨-d2, by linarith, by linarith, ?_⟩⟩
  · rw [← wrapped_neg]; exact ha (-d) (by linarith) (by linarith)
  · rw [wrapped_neg]; exact hb3
  · rw [wrapped_neg]; exact hc3

theorem encloses_through {mn mx full half : ℚ} (hhalf : 0 < half) (hfull : full = 2 * half)
    (h1 : mn < 0) (h2 : 0 < mx) (hb1 : |mn| ≤ full) (hb2 : |mx| ≤ full) :
    EnclosesWrapped mn mx full (MinMaxDistBox._interval_interval_1d mn mx full half) := by
  rw [interval_1d_through full half h1 h2]
  rw [abs_of_neg h1] at hb1
  rw [abs_of_pos h2] at hb2
  have hw0 : wrapped full 0 = 0 := by
    unfold wrapped; rw [abs_zero]; exact min_eq_left (by linarith)
  refine ⟨fun d hd1 hd2 => ⟨?_, ?_⟩, ⟨0, le_of_lt h1, le_of_lt h2, hw0⟩, ?_⟩
  · have hd : |d| ≤ full := abs_le.mpr ⟨by linarith, by linarith⟩
    exact le_min (abs_nonneg d) (by simp only; linarith)
  · show wrapped full d ≤ min (max (-mn) mx) half
    apply le_min
    · apply le_trans (min_le_left _ _)
      apply abs_le.mpr
      constructor
      · have := le_max_left (-mn) mx; linarith
      · have := le_max_right (-mn) mx; linarith
    · unfold wrapped
      rcases le_total |d| half with h | h
      · exact le_trans (min_le_left _ _) h
      · exact le_trans (min_le_right _ _) (by linarith)
  · show ∃ d, mn ≤ d ∧ d ≤ mx ∧ wrapped full d = min (max (-mn) mx) half
    rcases le_total (max (-mn) mx) half with hc | hc
    · rw [min_eq_left hc]
      rcases le_total (-mn) mx with h | h
      · rw [max_eq_right h] at hc ⊢
        exact ⟨mx, by linarith, le_rfl, wrapped_low hfull (le_of_lt h2) hc⟩
      · rw [max_eq_left h] at hc ⊢
        exact ⟨mn, le_rfl, by linarith, by
          rw [← wrapped_neg]; exact wrapped_low hfull (by linarith) hc⟩
    · rw [min_eq_right hc]
      rcases le_max_iff.mp hc with h | h
      · exact ⟨-half, by linarith, by linarith, by
          rw [wrapped_neg]; exact wrapped_low hfull (le_of_lt hhalf) le_rfl⟩
      · exact ⟨half, by linarith, h, wrapped_low hfull (le_of_lt hhalf) le_rfl⟩

theorem interval_1d_abs {mn mx : ℚ} (full half : ℚ) (h : mx ≤ 0 ∨ 0 ≤ mn) (hle : mn ≤ mx) :
    MinMaxDistBox._interval_interval_1d mn mx full half =
      MinMaxDistBox._interval_interval_1d (min |mn| |mx|) (max |mn| |mx|) full half := by
  rcases h with h | h
  · have hmn : mn ≤ 0 := le_trans hle h
    rw [abs_of_nonpos hmn, abs_of_nonpos h, min_eq_right (by linarith),
      max_eq_left (by linarith)]
    exact interval_1d_flip full half h hle
  · have hmx : 0 ≤ mx := le_trans h hle
    rw [abs_of_nonneg h, abs_of_nonneg hmx, min_eq_left hle, max_eq_right hle]

theorem interval_1d_cases {a b full half : ℚ} (hfull : full = 2 * half) (h0 : 0 ≤ a)
    (hle : a ≤ b) :
    (b ≤ half → MinMaxDistBox._interval_interval_1d a b full half = (a, b)) ∧
    (half ≤ a → MinMaxDistBox._interval_interval_1d a b full half = (full - b, full - a)) ∧
    (a ≤ half → half ≤ b →
      MinMaxDistBox._interval_interval_1d a b full half = (min a (full - b), half)) := by
  rw [interval_1d_nonneg full half h0 hle]
  refine ⟨fun hb => ?_, fun ha => ?_, fun ha hb => ?_⟩
  · rcases lt_or_eq_of_le hb with hlt | heq
    · rw [if_pos hlt]
    · have h1 : ¬ b < half := by rw [heq]; exact lt_irrefl _
      have h2 : ¬ half < a := not_lt.mpr (by linarith)
      rw [if_neg h1, if_neg h2, min_eq_left (by linarith), heq]
  · have h1 : ¬ b < half := not_lt.mpr (by linarith)
    rw [if_neg h1]
    rcases lt_or_eq_of_le ha with hlt | heq
    · rw [if_pos hlt]
    · have h2 : ¬ half < a := by rw [← heq]; exact lt_irrefl _
      rw [if_neg h2, min_eq_right (by linarith)]
      congr 1
      linarith
  · rw [if_neg (not_lt.mpr hb), if_neg (not_lt.mpr ha)]

/-- C5. Soundness of the periodic per-axis primitive (exact arithmetic): for `half > 0`,
`full = 2 * half` and a raw interval `min_raw ≤ max_raw` with `|min_raw|, |max_raw| ≤ full`,
the pair `(realmin, realmax)` that `_interval_interval_1d` returns encloses the wrapped distance
`min(|d|, full - |d|)` of every raw difference `d` in the interval, and both ends are attained.
The case split is the one of the specification: away from zero, with the absolute values
ordered as `a ≤ b`, the bounds are `(a, b)` when both are at most `half`, `(full - b,
full - a)` when both are at least `half`, and `(min(a, full - b), half)` when they straddle
`half`; across zero they are `(0, min(max(-min_raw, max_raw), half))`. -/
theorem interval_1d_sound (min_raw max_raw full half : ℚ) (hhalf : 0 < half)
    (hfull : full = 2 * half) (hle : min_raw ≤ max_raw) (hb1 : |min_raw| ≤ full)
    (hb2 : |max_raw| ≤ full) :
    (∀ d, min_raw ≤ d → d ≤ max_raw →
      (MinMaxDistBox._interval_interval_1d min_raw max_raw full half).1 ≤ wrapped full d ∧
      wrapped full d ≤ (MinMaxDistBox._interval_interval_1d min_raw max_raw full half).2) ∧
    (∃ d, min_raw ≤ d ∧ d ≤ max_raw ∧
      wrapped full d = (MinMaxDistBox._interval_interval_1d min_raw max_raw full half).1) ∧
    (∃ d, min_raw ≤ d ∧ d ≤ max_raw ∧
      wrapped full d = (MinMaxDistBox._interval_interval_1d min_raw max_raw full half).2) ∧
    ((max_raw ≤ 0 ∨ 0 ≤ min_raw) → max |min_raw| |max_raw| ≤ half →
      MinMaxDistBox._interval_interval_1d min_raw max_raw full half =
        (min |min_raw| |max_raw|, max |min_raw| |max_raw|)) ∧
    ((max_raw ≤ 0 ∨ 0 ≤ min_raw) → half ≤ min |min_raw| |max_raw| →
      MinMaxDistBox._interval_interval_1d min_raw max_raw full half =
        (full - max |min_raw| |max_raw|, full - min |min_raw| |max_raw|)) ∧
    ((max_raw ≤ 0 ∨ 0 ≤ min_raw) → min |min_raw| |max_raw| ≤ half →
        half ≤ max |min_raw| |max_raw| →
      MinMaxDistBox._interval_interval_1d min_raw max_raw full half =
        (min (min |min_raw| |max_raw|) (full - max |min_raw| |max_raw|), half)) ∧
    (min_raw < 0 → 0 < max_raw →
      MinMaxDistBox._interval_interval_1d min_raw max_raw full half =
        (0, min (max (-min_raw) max_raw) half)) := by
  have henc : EnclosesWrapped min_raw max_raw full
      (MinMaxDistBox._interval_interval_1d min_raw max_raw full half) := by
    rcases le_or_lt 0 min_raw with h | h
    · exact encloses_nonneg hhalf hfull h hle
    · rcases le_or_lt max_raw 0 with h' | h'
      · exact encloses_nonpos hhalf hfull h' hle
      · exact encloses_through hhalf hfull h h' hb1 hb2
  have hcases : ∀ _ : max_raw ≤ 0 ∨ 0 ≤ min_raw, _ :=
    fun h => @interval_1d_cases (min |min_raw| |max_raw|) (max |min_raw| |max_raw|) full half
      hfull (le_min (abs_nonneg min_raw) (abs_nonneg max_raw))
      (le_trans (min_le_left |min_raw| |max_raw|) (le_max_left |min_raw| |max_raw|))
  refine ⟨henc.1, henc.2.1, henc.2.2, fun h hb => ?_, fun h ha => ?_, fun h ha hb => ?_,
    fun h1 h2 => interval_1d_through full half h1 h2⟩
  · rw [interval_1d_abs full half h hle]; exact (hcases h).1 hb
  · rw [interval_1d_abs full half h hle]; exact (hcases h).2.1 ha
  · rw [interval_1d_abs full half h hle]; exact (hcases h).2.2 ha hb

/-- Witness of C5: period 10 and the raw interval `[-19/2, -8]`. -/
theorem interval_1d_sound_witness :
    (∀ d, (-19 / 2 : ℚ) ≤ d → d ≤ -8 →
      (MinMaxDistBox._interval_interval_1d (-19 / 2) (-8) 10 5).1 ≤ wrapped 10 d ∧
      wrapped 10 d ≤ (MinMaxDistBox._interval_interval_1d (-19 / 2) (-8) 10 5).2) ∧
    (∃ d, (-19 / 2 : ℚ) ≤ d ∧ d ≤ -8 ∧
      wrapped 10 d = (MinMaxDistBox._interval_interval_1d (-19 / 2) (-8) 10 5).1) ∧
    (∃ d, (-19 / 2 : ℚ) ≤ d ∧ d ≤ -8 ∧
      wrapped 10 d = (MinMaxDistBox._interval_interval_1d (-19 / 2) (-8) 10 5).2) ∧
    (((-8 : ℚ) ≤ 0 ∨ (0 : ℚ) ≤ -19 / 2) → max |(-19 / 2 : ℚ)| |(-8 : ℚ)| ≤ 5 →
      MinMaxDistBox._interval_interval_1d (-19 / 2) (-8) 10 5 =
        (min |(-19 / 2 : ℚ)| |(-8 : ℚ)|, max |(-19 / 2 : ℚ)| |(-8 : ℚ)|)) ∧
    (((-8 : ℚ) ≤ 0 ∨ (0 : ℚ) ≤ -19 / 2) → 5 ≤ min |(-19 / 2 : ℚ)| |(-8 : ℚ)| →
      MinMaxDistBox._interval_interval_1d (-19 / 2) (-8) 10 5 =
        (10 - max |(-19 / 2 : ℚ)| |(-8 : ℚ)|, 10 - min |(-19 / 2 : ℚ)| |(-8 : ℚ)|)) ∧
    (((-8 : ℚ) ≤ 0 ∨ (0 : ℚ) ≤ -19 / 2) → min |(-19 / 2 : ℚ)| |(-8 : ℚ)| ≤ 5 →
        5 ≤ max |(-19 / 2 : ℚ)| |(-8 : ℚ)| →
      MinMaxDistBox._interval_interval_1d (-19 / 2) (-8) 10 5 =
        (min (min |(-19 / 2 : ℚ)| |(-8 : ℚ)|) (10 - max |(-19 / 2 : ℚ)| |(-8 : ℚ)|), 5)) ∧
    ((-19 / 2 : ℚ) < 0 → (0 : ℚ) < -8 →
      MinMaxDistBox._interval_interval_1d (-19 / 2) (-8) 10 5 =
        (0, min (max (-(-19 / 2)) (-8)) 5)) :=
  interval_1d_sound (-19 / 2) (-8) 10 5 (by norm_num) (by norm_num) (by norm_num)
    (by rw [abs_of_neg (by norm_num)]; norm_num) (by rw [abs_of_neg (by norm_num)]; norm_num)

/-- C6. Periodic bounds never exceed the half period: for `half > 0`, `full = 2 * half` and
every raw interval `min_raw ≤ max_raw`, `_interval_interval_1d` returns
`realmin ≤ realmax ≤ half`; for `full = 10`, `half = 5` and the rectangles `[0, 1]` and
`[9, 9.5]` (`min_raw = -9.5`, `max_raw = -8`) it returns `(0.5, 2)`. -/
theorem interval_1d_le_half :
    (∀ min_raw max_raw full half : ℚ, 0 < half → full = 2 * half → min_raw ≤ max_raw →
      (MinMaxDistBox._interval_interval_1d min_raw max_raw full half).1 ≤
        (MinMaxDistBox._interval_interval_1d min_raw max_raw full half).2 ∧
      (MinMaxDistBox._interval_interval_1d min_raw max_raw full half).2 ≤ half) ∧
    MinMaxDistBox._interval_interval_1d (0 - 19 / 2) (1 - 9) 10 5 = (1 / 2, 2) := by
  constructor
  · intro mn mx full half hhalf hfull hle
    have key : ∀ a b : ℚ, 0 ≤ a → a ≤ b →
        (MinMaxDistBox._interval_interval_1d a b full half).1 ≤
          (MinMaxDistBox._interval_interval_1d a b full half).2 ∧
        (MinMaxDistBox._interval_interval_1d a b full half).2 ≤ half := by
      intro a b h0 hab
      rw [interval_1d_nonneg full half h0 hab]
      by_cases h1 : b < half
      · rw [if_pos h1]; exact ⟨hab, le_of_lt h1⟩
      · rw [if_neg h1]
        by_cases h2 : half < a
        · rw [if_pos h2]
          exact ⟨by simp only; linarith, by simp only; linarith⟩
        · rw [if_neg h2]
          exact ⟨le_trans (min_le_left _ _) (not_lt.mp h2), le_rfl⟩
    rcases le_or_lt 0 mn with h | h
    · exact key mn mx h hle
    · rcases le_or_lt mx 0 with h' | h'
      · rw [interval_1d_flip full half h' hle]
        exact key (-mx) (-mn) (by linarith) (by linarith)
      · rw [interval_1d_through full half h h']
        exact ⟨le_min (le_trans (le_of_lt h') (le_max_right _ _)) (le_of_lt hhalf),
          min_le_right _ _⟩
  · rw [interval_1d_nonpos 10 5 (by norm_num) (by norm_num)]
    norm_num

/-- Witness of C6: the general bound at period 10 and the raw interval `[-19/2, -8]`. -/
theorem interval_1d_le_half_witness :
    (MinMaxDistBox._interval_interval_1d (-19 / 2) (-8) 10 5).1 ≤
      (MinMaxDistBox._interval_interval_1d (-19 / 2) (-8) 10 5).2 ∧
    (MinMaxDistBox._interval_interval_1d (-19 / 2) (-8) 10 5).2 ≤ 5 :=
  interval_1d_le_half.1 (-19 / 2) (-8) 10 5 (by norm_num) (by norm_num) (by norm_num)

/-! ## Point-to-point distance -/

theorem foldl_step_ge (f : ℚ → Nat → ℚ) (hf : ∀ r i, r ≤ f r i) (idx : List Nat) :
    ∀ r0 : ℚ, r0 ≤ idx.foldl f r0 := by
  induction idx with
  | nil => intro r0; exact le_rfl
  | cons i idx ih => intro r0; exact le_trans (hf r0 i) (ih (f r0 i))

/-- The early-exit loop returns a partial result that is exact unless it exceeds the bound. -/
theorem distance_loop_spec (step : ℚ → ℚ → ℚ → ℚ) (x y : List ℚ) (upperbound : WithTop ℚ)
    (hstep : ∀ r a b, r ≤ step r a b) (idx : List Nat)
    (hidx : ∀ i ∈ idx, i < x.length ∧ i < y.length) :
    ∀ r0 : ℚ, ∃ r, distance_loop step x y upperbound idx r0 = .ok r ∧
      r ≤ idx.foldl (fun r i => step r (coord x i) (coord y i)) r0 ∧
      (((idx.foldl (fun r i => step r (coord x i) (coord y i)) r0 : ℚ) : WithTop ℚ)
          ≤ upperbound →
        r = idx.foldl (fun r i => step r (coord x i) (coord y i)) r0) ∧
      (upperbound < ((idx.foldl (fun r i => step r (coord x i) (coord y i)) r0 : ℚ)
          : WithTop ℚ) → upperbound < (r : WithTop ℚ)) := by
  induction idx with
  | nil =>
    intro r0
    exact ⟨r0, rfl, le_rfl, fun _ => rfl, fun h => h⟩
  | cons i idx ih =>
    intro r0
    have hi := hidx i (List.mem_cons_self i idx)
    have hmono := foldl_step_ge (fun r i => step r (coord x i) (coord y i))
      (fun r i => hstep r _ _) idx (step r0 (coord x i) (coord y i))
    unfold distance_loop
    simp only [rd_of_lt hi.1, rd_of_lt hi.2, ok_bind, List.foldl_cons]
    by_cases hgt : upperbound < ((step r0 (coord x i) (coord y i) : ℚ) : WithTop ℚ)
    · rw [if_pos hgt]
      refine ⟨_, rfl, hmono, fun hle => ?_, fun _ => hgt⟩
      have h1 : ((step r0 (coord x i) (coord y i) : ℚ) : WithTop ℚ) ≤
          ((idx.foldl (fun r i => step r (coord x i) (coord y i))
            (step r0 (coord x i) (coord y i)) : ℚ) : WithTop ℚ) :=
        WithTop.coe_le_coe.mpr hmono
      exact absurd (lt_of_lt_of_le hgt (le_trans h1 hle)) (lt_irrefl _)
    · rw [if_neg hgt]
      exact ih (fun j hj => hidx j (List.mem_cons_of_mem i hj)) _

theorem foldl_add_eq_sum (f : Nat → ℚ) (k : Nat) :
    (List.range k).foldl (fun r i => r + f i) 0 = ∑ i in Finset.range k, f i := by
  induction k with
  | zero => rfl
  | succ n ih =>
    rw [List.range_succ, List.foldl_append, ih, Finset.sum_range_succ]
    rfl

/-- C7. Truncation contract of `distance_p` (plain strategy, exact arithmetic): for `k`-vectors
`x`, `y`, every upper bound and every `p`, with `D` the true value (the sum of
`|x_i - y_i|^p`, or the largest `|x_i - y_i|` for `p = infinity`), the call returns some `r`
with `r ≤ D`, `r = D` whenever `D ≤ upper_bound` (so always for an infinite bound) and
`r > upper_bound` whenever `D > upper_bound`; for `p = 2` it returns the squared Euclidean
distance, which is `D`. -/
theorem distance_p_contract (pow : ℚ → ℚ → ℚ) (hpow : PowLaws pow) (tree : ckdtree)
    (x y : List ℚ) (p : WithTop ℚ) (k : Nat) (upperbound : WithTop ℚ)
    (hx : k ≤ x.length) (hy : k ≤ y.length) :
    ∃ r, MinMaxDist.distance_p pow tree x y p k upperbound = .ok r ∧
      r ≤ true_distance pow p x y k ∧
      (((true_distance pow p x y k : ℚ) : WithTop ℚ) ≤ upperbound →
        r = true_distance pow p x y k) ∧
      (upperbound < ((true_distance pow p x y k : ℚ) : WithTop ℚ) →
        upperbound < (r : WithTop ℚ)) ∧
      (p = ((2 : ℚ) : WithTop ℚ) →
        r = ∑ i in Finset.range k, (coord x i - coord y i) * (coord x i - coord y i) ∧
        r = true_distance pow p x y k) := by
  have hidx : ∀ i ∈ List.range k, i < x.length ∧ i < y.length := by
    intro i hi
    have := List.mem_range.mp hi
    exact ⟨by omega, by omega⟩
  unfold MinMaxDist.distance_p
  by_cases h2 : p = ((2 : ℚ) : WithTop ℚ)
  · rw [if_pos h2]
    have hsq : sqeuclidean_distance_double x y k =
        .ok (∑ i in Finset.range k, (coord x i - coord y i) * (coord x i - coord y i)) := by
      unfold sqeuclidean_distance_double
      rw [foldlM_eq_foldl _
        (fun r i => r + (coord x i - coord y i) * (coord x i - coord y i))]
      · rw [foldl_add_eq_sum]
      · intro i hi acc
        simp only [rd_of_lt (hidx i hi).1, rd_of_lt (hidx i hi).2, ok_bind]
        rfl
    have hD : true_distance pow p x y k =
        ∑ i in Finset.range k, (coord x i - coord y i) * (coord x i - coord y i) := by
      rw [h2]
      show ∑ i in Finset.range k, pow |coord x i - coord y i| 2 = _
      apply Finset.sum_congr rfl
      intro i _
      rw [hpow.sq, abs_mul_abs_self]
    rw [hD]
    exact ⟨_, hsq, le_rfl, fun _ => rfl, fun h => h, fun _ => ⟨rfl, rfl⟩⟩
  · rw [if_neg h2]
    cases p with
    | top =>
      obtain ⟨r, h1, h3, h4, h5⟩ := distance_loop_spec
        (fun r xi yi => dmax r (dabs (xi - yi))) x y upperbound
        (fun r a b => le_max_left _ _) (List.range k) hidx 0
      exact ⟨r, h1, h3, h4, h5, fun h => absurd h h2⟩
    | coe q =>
      by_cases h1 : q = 1
      · obtain ⟨r, h3, h4, h5, h6⟩ := distance_loop_spec
          (fun r xi yi => r + dabs (xi - yi)) x y upperbound
          (fun r a b => le_add_of_nonneg_right (abs_nonneg _)) (List.range k) hidx 0
        have hD : true_distance pow ((q : ℚ) : WithTop ℚ) x y k =
            (List.range k).foldl (fun r i => r + dabs (coord x i - coord y i)) 0 := by
          rw [foldl_add_eq_sum, h1]
          show ∑ i in Finset.range k, pow |coord x i - coord y i| 1 = _
          apply Finset.sum_congr rfl
          intro i _
          rw [hpow.one]; rfl
        rw [hD]
        show ∃ r, (if q = 1 then _ else _) = Except.ok r ∧ _
        rw [if_pos h1]
        exact ⟨r, h3, h4, h5, h6, fun h => absurd h h2⟩
      · obtain ⟨r, h3, h4, h5, h6⟩ := distance_loop_spec
          (fun r xi yi => r + pow (dabs (xi - yi)) q) x y upperbound
          (fun r a b => le_add_of_nonneg_right (hpow.nonneg _ _ (abs_nonneg _)))
          (List.range k) hidx 0
        have hD : true_distance pow ((q : ℚ) : WithTop ℚ) x y k =
            (List.range k).foldl (fun r i => r + pow (dabs (coord x i - coord y i)) q) 0 := by
          rw [foldl_add_eq_sum]
          rfl
        rw [hD]
        show ∃ r, (if q = 1 then _ else _) = Except.ok r ∧ _
        rw [if_neg h1]
        exact ⟨r, h3, h4, h5, h6, fun h => absurd h h2⟩

/-- Witness of C7: the points `(0, 0)` and `(6, 8)` with `p = 1` and upper bound 4. -/
theorem distance_p_contract_witness :
    ∃ r, MinMaxDist.distance_p natPow ⟨2, []⟩ [0, 0] [6, 8] ((1 : ℚ) : WithTop ℚ) 2
        ((4 : ℚ) : WithTop ℚ) = .ok r ∧
      r ≤ true_distance natPow ((1 : ℚ) : WithTop ℚ) [0, 0] [6, 8] 2 ∧
      (((true_distance natPow ((1 : ℚ) : WithTop ℚ) [0, 0] [6, 8] 2 : ℚ) : WithTop ℚ)
          ≤ ((4 : ℚ) : WithTop ℚ) →
        r = true_distance natPow ((1 : ℚ) : WithTop ℚ) [0, 0] [6, 8] 2) ∧
      (((4 : ℚ) : WithTop ℚ) <
          ((true_distance natPow ((1 : ℚ) : WithTop ℚ) [0, 0] [6, 8] 2 : ℚ) : WithTop ℚ) →
        ((4 : ℚ) : WithTop ℚ) < (r : WithTop ℚ)) ∧
      (((1 : ℚ) : WithTop ℚ) = ((2 : ℚ) : WithTop ℚ) →
        r = ∑ i in Finset.range 2, (coord [0, 0] i - coord [6, 8] i) *
            (coord [0, 0] i - coord [6, 8] i) ∧
        r = true_distance natPow ((1 : ℚ) : WithTop ℚ) [0, 0] [6, 8] 2) :=
  distance_p_contract natPow natPow_laws ⟨2, []⟩ [0, 0] [6, 8] ((1 : ℚ) : WithTop ℚ) 2
    ((4 : ℚ) : WithTop ℚ) (by decide) (by decide)

/-! ## The fast path `p = 2`, construction and `pop` -/

/-- In exact arithmetic, where `pow x 2` is `x * x`, `interval_interval_2` returns what
`interval_interval_p` returns for `p = 2` (the same pair, or the same failure when `k` is out
of range), for both strategies: both read the same per-axis gap values, one multiplies
`tmp * tmp`, the other raises to the power 2.  Whether the two agree in floating point is the
question whether the library `pow(x, 2.0)` rounds as `x * x` does; see
`rounded_interval_2_eq_p_iff`. -/
theorem interval_interval_2_eq_p (pow : ℚ → ℚ → ℚ) (hsq : ∀ x, pow x 2 = x * x)
    (S : Strategy) (tree : ckdtree) (rect1 rect2 : Rectangle) (k : Nat) :
    S.interval_interval_2 tree rect1 rect2 k = S.interval_interval_p pow tree rect1 rect2 k 2 := by
  cases S with
  | plain =>
    simp only [Strategy.interval_interval_2, Strategy.interval_interval_p,
      MinMaxDist.interval_interval_2, MinMaxDist.interval_interval_p, hsq]
  | box =>
    simp only [Strategy.interval_interval_2, Strategy.interval_interval_p,
      MinMaxDistBox.interval_interval_2, MinMaxDistBox.interval_interval_p, hsq]

/-- An instance of `interval_interval_2_eq_p`: the periodic strategy on `[0, 1]` and
`[9, 19/2]` with period 10. -/
theorem interval_interval_2_eq_p_witness :
    Strategy.box.interval_interval_2 ⟨1, [10, 5]⟩ ⟨1, [0], [1]⟩ ⟨1, [9], [19 / 2]⟩ 0 =
      Strategy.box.interval_interval_p natPow ⟨1, [10, 5]⟩ ⟨1, [0], [1]⟩ ⟨1, [9], [19 / 2]⟩ 0 2 :=
  interval_interval_2_eq_p natPow natPow_laws.sq .box ⟨1, [10, 5]⟩ ⟨1, [0], [1]⟩
    ⟨1, [9], [19 / 2]⟩ 0

/-- C9, at the failing input: the periodic strategy, two empty rectangles (dimensions agree,
`0 = 0`) and `p = infinity`.  Construction does not succeed: `MinMaxDistBox::rect_rect_p_inf`
reads axis `0` before its loop, outside the empty storage. -/
theorem construct_empty_box_inf :
    RectRectDistanceTracker.construct natPow .box ⟨0, []⟩ Rectangle.empty Rectangle.empty
      ⊤ 0 ⊤ = .error .out_of_range := by
  decide!

/-- C10. `pop` fails with the logic error exactly when the stack is empty (`stack_size = 0`);
on a tracker with `stack_size > 0` it succeeds and decreases `stack_size` by exactly one.  The
tracker is in a state that satisfies the invariant `WF` of construction, `push` and successful
`pop`. -/
theorem pop_contract (S : Strategy) (t : RectRectDistanceTracker) (hwf : WF S t) :
    ((∃ t', t.pop = .error (.logic_error, t')) ↔ t.stack_size = 0) ∧
    (0 < t.stack_size → ∃ t', t.pop = .ok t' ∧ t'.stack_size = t.stack_size - 1) := by
  have h0 := hwf.size_nonneg
  refine ⟨⟨fun ⟨t', h⟩ => ?_, fun h => ⟨_, pop_of_empty t (le_of_eq h)⟩⟩,
    fun hpos => ⟨popped t, pop_eq_popped hwf hpos, rfl⟩⟩
  by_contra hne
  have hpos : 0 < t.stack_size := lt_of_le_of_ne h0 (Ne.symm hne)
  rw [pop_eq_popped hwf hpos] at h
  cases h

/-- Witness of C10: the sample tracker after one `push`, with one frame on the stack. -/
theorem pop_contract_witness :
    ((∃ t', (pushed natPow .plain sample_tracker 1 LESS 0 (1 / 2)).pop =
        .error (.logic_error, t')) ↔
      (pushed natPow .plain sample_tracker 1 LESS 0 (1 / 2)).stack_size = 0) ∧
    (∃ t', (pushed natPow .plain sample_tracker 1 LESS 0 (1 / 2)).pop = .ok t' ∧
      t'.stack_size = (pushed natPow .plain sample_tracker 1 LESS 0 (1 / 2)).stack_size - 1) :=
  ⟨(pop_contract .plain (pushed natPow .plain sample_tracker 1 LESS 0 (1 / 2))
      (wf_pushed natPow (wf_sample_tracker .plain) 1 LESS (1 / 2) (by decide))).1,
   (pop_contract .plain (pushed natPow .plain sample_tracker 1 LESS 0 (1 / 2))
      (wf_pushed natPow (wf_sample_tracker .plain) 1 LESS (1 / 2) (by decide))).2
      (by show (0 : Int) < 0 + 1; decide)⟩

/-! ## `min_distance ≤ max_distance` -/

theorem plain_gap_le {a1 a2 b1 b2 : ℚ} (ha : a1 ≤ a2) (hb : b1 ≤ b2) :
    0 ≤ dmax 0 (dmax (a1 - b2) (b1 - a2)) ∧
    dmax 0 (dmax (a1 - b2) (b1 - a2)) ≤ dmax (a2 - b1) (b2 - a1) := by
  unfold dmax
  refine ⟨le_max_left _ _, ?_⟩
  apply max_le
  · rcases le_total (a2 - b1) (b2 - a1) with h | h
    · rw [max_eq_right h]; linarith
    · rw [max_eq_left h]; linarith
  · apply max_le
    · exact le_trans (by linarith) (le_max_left _ _)
    · exact le_trans (by linarith) (le_max_right _ _)

theorem narrowed_m (rect : Rectangle) (direction : Int) (k : Nat) (v : ℚ) :
    (narrowed rect direction k v).m = rect.m := by
  unfold narrowed; split <;> rfl

theorem narrowed_coord_ne (rect : Rectangle) (direction : Int) {k i : Nat} (v : ℚ)
    (h : k ≠ i) :
    coord (narrowed rect direction k v).mins i = coord rect.mins i ∧
    coord (narrowed rect direction k v).maxes i = coord rect.maxes i := by
  unfold narrowed
  split
  · exact ⟨rfl, coord_set_ne v h⟩
  · exact ⟨coord_set_ne v h, rfl⟩

theorem gapPair_congr (S : Strategy) (tree : ckdtree) {r1 r2 r1' r2' : Rectangle} {i : Nat}
    (hm : r1'.m = r1.m) (h1 : coord r1'.mins i = coord r1.mins i)
    (h2 : coord r1'.maxes i = coord r1.maxes i) (h3 : coord r2'.mins i = coord r2.mins i)
    (h4 : coord r2'.maxes i = coord r2.maxes i) :
    gapPair S tree r1' r2' i = gapPair S tree r1 r2 i := by
  unfold gapPair
  rw [h1, h2, h3, h4, hm]

theorem sum_replace (f f' : Nat → ℚ) {m k : Nat} (hk : k < m)
    (h : ∀ i, i ≠ k → f' i = f i) :
    ∑ i in Finset.range m, f' i = ∑ i in Finset.range m, f i - f k + f' k := by
  have hmem : k ∈ Finset.range m := Finset.mem_range.mpr hk
  rw [← Finset.add_sum_erase _ f' hmem, ← Finset.add_sum_erase _ f hmem]
  have : ∑ x in (Finset.range m).erase k, f' x = ∑ x in (Finset.range m).erase k, f x :=
    Finset.sum_congr rfl (fun i hi => h i (Finset.ne_of_mem_erase hi))
  rw [this]; ring

theorem pushed_rects (pow : ℚ → ℚ → ℚ) (S : Strategy) (t : RectRectDistanceTracker)
    (which direction : Int) (split_dim : Nat) (split_val : ℚ) :
    (pushed pow S t which direction split_dim split_val).rect1 =
      (if which = 1 then narrowed t.rect1 direction split_dim split_val else t.rect1) ∧
    (pushed pow S t which direction split_dim split_val).rect2 =
      (if which = 1 then t.rect2 else narrowed t.rect2 direction split_dim split_val) := by
  unfold pushed
  by_cases hw : which = 1
  · simp only [hw, if_true, and_self]
  · simp only [hw, if_false, and_self]

/-- Away from the split dimension `push` leaves the per-axis bounds alone. -/
theorem gapPair_pushed_ne (pow : ℚ → ℚ → ℚ) (S : Strategy) (t : RectRectDistanceTracker)
    (which direction : Int) {split_dim i : Nat} (split_val : ℚ) (h : i ≠ split_dim) :
    gapPair S t.tree (pushed pow S t which direction split_dim split_val).rect1
        (pushed pow S t which direction split_dim split_val).rect2 i =
      gapPair S t.tree t.rect1 t.rect2 i := by
  obtain ⟨h1, h2⟩ := pushed_rects pow S t which direction split_dim split_val
  rw [h1, h2]
  by_cases hw : which = 1
  · simp only [hw, if_true]
    exact gapPair_congr S t.tree (narrowed_m _ _ _ _)
      (narrowed_coord_ne t.rect1 direction split_val (Ne.symm h)).1
      (narrowed_coord_ne t.rect1 direction split_val (Ne.symm h)).2 rfl rfl
  · simp only [hw, if_false]
    exact gapPair_congr S t.tree rfl rfl rfl
      (narrowed_coord_ne t.rect2 direction split_val (Ne.symm h)).1
      (narrowed_coord_ne t.rect2 direction split_val (Ne.symm h)).2

/-- The incremental update of `push` keeps the totals equal to the bounds of the current
rectangles. -/
theorem balanced_pushed (pow : ℚ → ℚ → ℚ) {S : Strategy} {t : RectRectDistanceTracker}
    (hwf : WF S t) (hb : Balanced pow S t) (which direction : Int) {split_dim : Nat}
    (split_val : ℚ) (hk : split_dim < t.rect1.m) :
    Balanced pow S (pushed pow S t which direction split_dim split_val) := by
  have hm := pushed_rect1_m pow hwf which direction split_dim split_val
  unfold Balanced at hb ⊢
  show _ = totalPair pow S t.tree _ _ t.p
  cases hp : t.p with
  | top =>
    unfold pushed
    simp only [hp]
    by_cases hw : which = 1
    · simp only [hw, if_true]; rfl
    · simp only [hw, if_false]; rfl
  | coe q =>
    rw [hp] at hb
    have hmin : t.min_distance =
        ∑ i in Finset.range t.rect1.m, (contrib pow q (gapPair S t.tree t.rect1 t.rect2 i)).1 :=
      congrArg Prod.fst hb
    have hmax : t.max_distance =
        ∑ i in Finset.range t.rect1.m, (contrib pow q (gapPair S t.tree t.rect1 t.rect2 i)).2 :=
      congrArg Prod.snd hb
    have hne : ∀ i, i ≠ split_dim →
        contrib pow q (gapPair S t.tree
          (pushed pow S t which direction split_dim split_val).rect1
          (pushed pow S t which direction split_dim split_val).rect2 i) =
        contrib pow q (gapPair S t.tree t.rect1 t.rect2 i) := by
      intro i hi
      rw [gapPair_pushed_ne pow S t which direction split_val hi]
    show _ = (∑ i in Finset.range (pushed pow S t which direction split_dim split_val).rect1.m,
        (contrib pow q (gapPair S t.tree _ _ i)).1,
      ∑ i in Finset.range (pushed pow S t which direction split_dim split_val).rect1.m,
        (contrib pow q (gapPair S t.tree _ _ i)).2)
    rw [hm,
      sum_replace (fun i => (contrib pow q (gapPair S t.tree t.rect1 t.rect2 i)).1) _ hk
        (fun i hi => congrArg Prod.fst (hne i hi)),
      sum_replace (fun i => (contrib pow q (gapPair S t.tree t.rect1 t.rect2 i)).2) _ hk
        (fun i hi => congrArg Prod.snd (hne i hi)),
      ← hmin, ← hmax]
    unfold pushed
    simp only [hp]

/-- A valid split value leaves the narrowed rectangle valid and inside the old one. -/
theorem narrowed_shrinks (rect : Rectangle) (direction : Int) {k : Nat} {v : ℚ} (i : Nat)
    (hkm : k < rect.mins.length) (hkM : k < rect.maxes.length)
    (h1 : coord rect.mins k ≤ v) (h2 : v ≤ coord rect.maxes k)
    (hv : coord rect.mins i ≤ coord rect.maxes i) :
    coord rect.mins i ≤ coord (narrowed rect direction k v).mins i ∧
    coord (narrowed rect direction k v).mins i ≤ coord (narrowed rect direction k v).maxes i ∧
    coord (narrowed rect direction k v).maxes i ≤ coord rect.maxes i := by
  by_cases hik : k = i
  · subst hik
    unfold narrowed
    split
    · simp only [coord_set_self v hkM]
      exact ⟨le_rfl, h1, h2⟩
    · simp only [coord_set_self v hkm]
      exact ⟨h1, h2, le_rfl⟩
  · obtain ⟨e1, e2⟩ := narrowed_coord_ne rect direction v hik
    rw [e1, e2]
    exact ⟨le_rfl, hv, le_rfl⟩

theorem balanced_sim (pow : ℚ → ℚ → ℚ) (S : Strategy) {t t' : RectRectDistanceTracker}
    (h : Sim t t') (hb : Balanced pow S t) : Balanced pow S t' := by
  unfold Balanced at hb ⊢
  rw [← h.tree, ← h.rect1, ← h.rect2, ← h.p, ← h.min_distance, ← h.max_distance]
  exact hb

theorem unwinds_size {P : RectRectDistanceTracker → Prop} {n : Nat}
    {t : RectRectDistanceTracker} (h : Unwinds P n t) : t.stack_size = (n : Int) := by
  cases n with
  | zero => exact h.1
  | succ n => rw [h.1]; push_cast; rfl

theorem unwinds_now {P : RectRectDistanceTracker → Prop} {n : Nat}
    {t : RectRectDistanceTracker} (h : Unwinds P n t) : P t := by
  cases n with
  | zero => exact h.2
  | succ n => exact h.2.1

theorem unwinds_sim {P : RectRectDistanceTracker → Prop}
    (hP : ∀ t t', Sim t t' → P t → P t') (n : Nat) :
    ∀ t t', Sim t t' → Unwinds P n t → Unwinds P n t' := by
  induction n with
  | zero =>
    intro t t' hsim h
    exact ⟨by rw [← hsim.stack_size]; exact h.1, hP t t' hsim h.2⟩
  | succ n ih =>
    intro t t' hsim h
    have hpos : 0 < t.stack_size := by rw [h.1]; omega
    exact ⟨by rw [← hsim.stack_size]; exact h.1, hP t t' hsim h.2.1,
      ih _ _ (sim_popped hsim hpos) h.2.2⟩

theorem unwinds_pushed (pow : ℚ → ℚ → ℚ) {S : Strategy} {P : RectRectDistanceTracker → Prop}
    (hP : ∀ t t', Sim t t' → P t → P t') {n : Nat} {t : RectRectDistanceTracker}
    (hwf : WF S t) (h : Unwinds P n t) (which direction : Int) {split_dim : Nat}
    (split_val : ℚ) (hk : split_dim < t.rect1.m)
    (hnew : P (pushed pow S t which direction split_dim split_val)) :
    Unwinds P (n + 1) (pushed pow S t which direction split_dim split_val) := by
  refine ⟨?_, hnew, ?_⟩
  · show t.stack_size + 1 = (n : Int) + 1
    rw [unwinds_size h]
  · exact unwinds_sim hP n _ _
      (sim_popped_pushed pow hwf which direction split_val hk).symm h

theorem construct_box_inf_zero (pow : ℚ → ℚ → ℚ) {tree : ckdtree} {rect1 rect2 : Rectangle}
    (eps : ℚ) (upper_bound : WithTop ℚ) (h : Covers .box tree rect1 rect2 0) :
    RectRectDistanceTracker.construct pow .box tree rect1 rect2 ⊤ eps upper_bound =
      .error .out_of_range := by
  have hdim : ¬ (rect1.copy.m ≠ rect2.copy.m) := by
    show ¬ (rect1.m ≠ rect2.m)
    rw [h.dim1, h.dim2]; simp
  have h2 : (⊤ : WithTop ℚ) ≠ ((2 : ℚ) : WithTop ℚ) := WithTop.top_ne_coe
  have hrd : rd rect1.copy.mins 0 = .error .out_of_range :=
    rd_of_le (by show rect1.mins.length ≤ 0; rw [h.mins1])
  have hinit : RectRectDistanceTracker.initial_distances pow .box tree rect1.copy rect2.copy ⊤
      = .error .out_of_range := by
    unfold RectRectDistanceTracker.initial_distances
    rw [if_neg h2]
    show MinMaxDistBox.rect_rect_p_inf tree rect1.copy rect2.copy = _
    unfold MinMaxDistBox.rect_rect_p_inf MinMaxDistBox.axis_1d
    rw [hrd]
    rfl
  unfold RectRectDistanceTracker.construct
  simp only [if_neg hdim, hinit]
  rfl

/-- C11, at the failing input: the periodic strategy with period 10 on both axes, `rect1 =
[0, 1] × [0, 1]` and `rect2 = [3, 4] × [0, 1]`.  The per-axis wrapped bounds are `(2, 4)` and
`(0, 1)`, so the largest per-axis minimum is 2, yet `MinMaxDistBox::rect_rect_p_inf` returns
the minimum 0 (it combines the per-axis minima with `dmin`); the maximum 4 is the largest
per-axis maximum. -/
theorem box_rect_rect_p_inf_min :
    gapPair .box ⟨2, [10, 10, 5, 5]⟩ ⟨2, [0, 0], [1, 1]⟩ ⟨2, [3, 0], [4, 1]⟩ 0 = (2, 4) ∧
    gapPair .box ⟨2, [10, 10, 5, 5]⟩ ⟨2, [0, 0], [1, 1]⟩ ⟨2, [3, 0], [4, 1]⟩ 1 = (0, 1) ∧
    Strategy.box.rect_rect_p_inf ⟨2, [10, 10, 5, 5]⟩ ⟨2, [0, 0], [1, 1]⟩ ⟨2, [3, 0], [4, 1]⟩ =
      .ok (0, 4) ∧
    max_over_axes
      (fun i => (gapPair .box ⟨2, [10, 10, 5, 5]⟩ ⟨2, [0, 0], [1, 1]⟩ ⟨2, [3, 0], [4, 1]⟩ i).1)
      2 = 2 ∧
    max_over_axes
      (fun i => (gapPair .box ⟨2, [10, 10, 5, 5]⟩ ⟨2, [0, 0], [1, 1]⟩ ⟨2, [3, 0], [4, 1]⟩ i).2)
      2 = 4 := by
  decide!

theorem covers_empty (S : Strategy) (tree : ckdtree) :
    Covers S tree Rectangle.empty Rectangle.empty 0 :=
  ⟨rfl, rfl, rfl, rfl, rfl, rfl, fun _ => Nat.zero_le _⟩

theorem totalPair_empty (pow : ℚ → ℚ → ℚ) (S : Strategy) (tree : ckdtree) (p : WithTop ℚ)
    (h : S = .box → p ≠ ⊤) :
    totalPair pow S tree Rectangle.empty Rectangle.empty p = (0, 0) := by
  cases p with
  | top =>
    cases S with
    | plain => rfl
    | box => exact absurd rfl (h rfl)
  | coe q => rfl

/-- C12, with the failing input.  For two zero-dimension rectangles construction succeeds with
`min_distance = max_distance = 0` under the plain strategy for every `p` and under the
periodic strategy for every finite `p`, and both `distance_p` return 0 for `k = 0`.  Under the
periodic strategy with `p = infinity` construction does not succeed:
`MinMaxDistBox::rect_rect_p_inf` reads axis 0 of the empty storage. -/
theorem degenerate_rectangles :
    (∀ (pow : ℚ → ℚ → ℚ) (tree : ckdtree) (p : WithTop ℚ) (eps : ℚ) (ub : WithTop ℚ),
      ∃ t, RectRectDistanceTracker.construct pow .plain tree Rectangle.empty Rectangle.empty
          p eps ub = .ok t ∧ t.min_distance = 0 ∧ t.max_distance = 0) ∧
    (∀ (pow : ℚ → ℚ → ℚ) (tree : ckdtree) (q : ℚ) (eps : ℚ) (ub : WithTop ℚ),
      ∃ t, RectRectDistanceTracker.construct pow .box tree Rectangle.empty Rectangle.empty
          ((q : ℚ) : WithTop ℚ) eps ub = .ok t ∧ t.min_distance = 0 ∧ t.max_distance = 0) ∧
    (∀ (pow : ℚ → ℚ → ℚ) (tree : ckdtree) (eps : ℚ) (ub : WithTop ℚ),
      RectRectDistanceTracker.construct pow .box tree Rectangle.empty Rectangle.empty
          ⊤ eps ub = .error .out_of_range) ∧
    (∀ (pow : ℚ → ℚ → ℚ) (tree : ckdtree) (x y : List ℚ) (p ub : WithTop ℚ),
      MinMaxDist.distance_p pow tree x y p 0 ub = .ok 0) ∧
    (∀ (pow : ℚ → ℚ → ℚ) (wrap_distance : ℚ → ℚ → ℚ → ℚ) (tree : ckdtree) (x y : List ℚ)
        (p ub : WithTop ℚ),
      MinMaxDistBox.distance_p pow wrap_distance tree x y p 0 ub = .ok 0) := by
  refine ⟨fun pow tree p eps ub => ?_, fun pow tree q eps ub => ?_, fun pow tree eps ub => ?_,
    fun pow tree x y p ub => ?_, fun pow wrap_distance tree x y p ub => rfl⟩
  · refine ⟨_, construct_eq pow p eps ub (covers_empty .plain tree) (fun h => by cases h),
      ?_, ?_⟩
    · show (totalPair pow .plain tree Rectangle.empty Rectangle.empty p).1 = 0
      rw [totalPair_empty pow .plain tree p (fun h => by cases h)]
    · show (totalPair pow .plain tree Rectangle.empty Rectangle.empty p).2 = 0
      rw [totalPair_empty pow .plain tree p (fun h => by cases h)]
  · refine ⟨_, construct_eq pow ((q : ℚ) : WithTop ℚ) eps ub (covers_empty .box tree)
      (fun _ h => absurd h WithTop.coe_ne_top), ?_, ?_⟩
    · show (totalPair pow .box tree Rectangle.empty Rectangle.empty ((q : ℚ) : WithTop ℚ)).1 = 0
      rw [totalPair_empty pow .box tree _ (fun _ => WithTop.coe_ne_top)]
    · show (totalPair pow .box tree Rectangle.empty Rectangle.empty ((q : ℚ) : WithTop ℚ)).2 = 0
      rw [totalPair_empty pow .box tree _ (fun _ => WithTop.coe_ne_top)]
  · exact construct_box_inf_zero pow eps ub (covers_empty .box tree)
  · unfold MinMaxDist.distance_p
    split
    · rfl
    · cases p with
      | top => rfl
      | coe q =>
        show (if q = 1 then _ else _) = Except.ok 0
        split <;> rfl

/-! ## Tightness of the plain per-axis rule -/

/-- The gap rule on two intervals: the lower value is the least and the upper value the
greatest distance between a point of `[a1, a2]` and a point of `[b1, b2]`. -/
theorem plain_gap_tight {a1 a2 b1 b2 : ℚ} (ha : a1 ≤ a2) (hb : b1 ≤ b2) :
    (∃ x y, a1 ≤ x ∧ x ≤ a2 ∧ b1 ≤ y ∧ y ≤ b2 ∧
      |x - y| = dmax 0 (dmax (a1 - b2) (b1 - a2))) ∧
    (∃ x y, a1 ≤ x ∧ x ≤ a2 ∧ b1 ≤ y ∧ y ≤ b2 ∧
      |x - y| = dmax (a2 - b1) (b2 - a1)) ∧
    ((a1 ≤ b2 ∧ b1 ≤ a2) → dmax 0 (dmax (a1 - b2) (b1 - a2)) = 0) ∧
    (¬ (a1 ≤ b2 ∧ b1 ≤ a2) →
      dmax 0 (dmax (a1 - b2) (b1 - a2)) = max (a1 - b2) (b1 - a2) ∧
      0 < dmax 0 (dmax (a1 - b2) (b1 - a2))) := by
  unfold dmax
  have hover : (a1 ≤ b2 ∧ b1 ≤ a2) → max 0 (max (a1 - b2) (b1 - a2)) = 0 := by
    intro h
    exact max_eq_left (max_le (by linarith [h.1]) (by linarith [h.2]))
  have hgap : ¬ (a1 ≤ b2 ∧ b1 ≤ a2) →
      max 0 (max (a1 - b2) (b1 - a2)) = max (a1 - b2) (b1 - a2) ∧
      0 < max 0 (max (a1 - b2) (b1 - a2)) := by
    intro h
    have hpos : 0 < max (a1 - b2) (b1 - a2) := by
      by_cases h1 : a1 ≤ b2
      · have h2 : ¬ b1 ≤ a2 := fun h2 => h ⟨h1, h2⟩
        exact lt_of_lt_of_le (by linarith [not_le.mp h2]) (le_max_right _ _)
      · exact lt_of_lt_of_le (by linarith [not_le.mp h1]) (le_max_left _ _)
    rw [max_eq_right (le_of_lt hpos)]
    exact ⟨rfl, hpos⟩
  refine ⟨?_, ?_, hover, hgap⟩
  · by_cases h : a1 ≤ b2 ∧ b1 ≤ a2
    · rw [hover h]
      refine ⟨max a1 b1, max a1 b1, le_max_left _ _, max_le ha h.2, le_max_right _ _,
        max_le h.1 hb, ?_⟩
      rw [sub_self, abs_zero]
    · rw [(hgap h).1]
      by_cases h1 : a1 ≤ b2
      · have h2 : a2 < b1 := not_le.mp (fun h2 => h ⟨h1, h2⟩)
        refine ⟨a2, b1, ha, le_rfl, le_rfl, hb, ?_⟩
        rw [abs_of_nonpos (by linarith), max_eq_right (by linarith)]
        ring
      · have h1' : b2 < a1 := not_le.mp h1
        refine ⟨a1, b2, le_rfl, ha, hb, le_rfl, ?_⟩
        rw [abs_of_nonneg (by linarith), max_eq_left (by linarith)]
  · rcases le_total (b2 - a1) (a2 - b1) with h | h
    · refine ⟨a2, b1, ha, le_rfl, le_rfl, hb, ?_⟩
      rw [max_eq_left h, abs_of_nonneg (by linarith)]
    · refine ⟨a1, b2, le_rfl, ha, hb, le_rfl, ?_⟩
      rw [max_eq_right h, abs_of_nonpos (by linarith)]
      ring

/-- C13. Tightness of the plain per-axis rule (exact arithmetic): for axis `k` of two
rectangles with `a1 ≤ a2` and `b1 ≤ b2` there and a finite `p ≥ 1`, the plain
`interval_interval_p` returns `(g^p, G^p)`, where `g` is the least and `G` the greatest value
of `|x - y|` over `x` in `[a1, a2]` and `y` in `[b1, b2]` (both attained); `g` and `g^p` are 0
when the intervals overlap, and otherwise `g` is the gap `max(a1 - b2, b1 - a2) > 0` and
`g^p > 0`.  For `[0, 1]` and `[2, 3]` with `p = 2` it returns `(1, 9)`. -/
theorem plain_interval_tight (pow : ℚ → ℚ → ℚ) (hpow : PowLaws pow)
    (hpos : ∀ x q, 0 < x → 0 < pow x q) (tree : ckdtree) (rect1 rect2 : Rectangle) (k : Nat)
    (p : ℚ) (hp : 1 ≤ p)
    (h1 : k < rect1.mins.length) (h2 : k < rect1.maxes.length)
    (h3 : k < rect2.mins.length) (h4 : k < rect2.maxes.length)
    (hv1 : coord rect1.mins k ≤ coord rect1.maxes k)
    (hv2 : coord rect2.mins k ≤ coord rect2.maxes k) :
    (∃ g G : ℚ,
      MinMaxDist.interval_interval_p pow tree rect1 rect2 k p = .ok (pow g p, pow G p) ∧
      (∀ x y, coord rect1.mins k ≤ x → x ≤ coord rect1.maxes k →
        coord rect2.mins k ≤ y → y ≤ coord rect2.maxes k → g ≤ |x - y| ∧ |x - y| ≤ G) ∧
      (∃ x y, coord rect1.mins k ≤ x ∧ x ≤ coord rect1.maxes k ∧
        coord rect2.mins k ≤ y ∧ y ≤ coord rect2.maxes k ∧ |x - y| = g) ∧
      (∃ x y, coord rect1.mins k ≤ x ∧ x ≤ coord rect1.maxes k ∧
        coord rect2.mins k ≤ y ∧ y ≤ coord rect2.maxes k ∧ |x - y| = G) ∧
      ((coord rect1.mins k ≤ coord rect2.maxes k ∧ coord rect2.mins k ≤ coord rect1.maxes k) →
        g = 0 ∧ pow g p = 0) ∧
      (¬ (coord rect1.mins k ≤ coord rect2.maxes k ∧
          coord rect2.mins k ≤ coord rect1.maxes k) →
        g = max (coord rect1.mins k - coord rect2.maxes k)
              (coord rect2.mins k - coord rect1.maxes k) ∧
        0 < g ∧ 0 < pow g p)) ∧
    MinMaxDist.interval_interval_p pow tree ⟨1, [0], [1]⟩ ⟨1, [2], [3]⟩ 0 2 = .ok (1, 9) := by
  have hq : 0 < p := lt_of_lt_of_le one_pos hp
  obtain ⟨hmin, hmax, hover, hgap⟩ := plain_gap_tight hv1 hv2
  constructor
  · refine ⟨dmax 0 (dmax (coord rect1.mins k - coord rect2.maxes k)
        (coord rect2.mins k - coord rect1.maxes k)),
      dmax (coord rect1.maxes k - coord rect2.mins k)
        (coord rect2.maxes k - coord rect1.mins k), ?_, ?_, hmin, hmax, ?_, ?_⟩
    · simp only [MinMaxDist.interval_interval_p, rd_of_lt h1, rd_of_lt h2, rd_of_lt h3,
        rd_of_lt h4, ok_bind]
      rfl
    · intro x y hx1 hx2 hy1 hy2
      exact (plain_gap_bounds hx1 hx2 hy1 hy2).2
    · intro h
      rw [hover h]
      exact ⟨rfl, hpow.zero p hq⟩
    · intro h
      exact ⟨(hgap h).1, (hgap h).2, hpos _ p (hgap h).2⟩
  · have e1 : dmax 0 (dmax ((0 : ℚ) - 3) (2 - 1)) = 1 := by
      unfold dmax; norm_num
    have e2 : dmax ((1 : ℚ) - 2) (3 - 0) = 3 := by
      unfold dmax; norm_num
    have r1 : rd ([0] : List ℚ) 0 = .ok 0 := rfl
    have r2 : rd ([1] : List ℚ) 0 = .ok 1 := rfl
    have r3 : rd ([2] : List ℚ) 0 = .ok 2 := rfl
    have r4 : rd ([3] : List ℚ) 0 = .ok 3 := rfl
    simp only [MinMaxDist.interval_interval_p, r1, r2, r3, r4, ok_bind, e1, e2, hpow.sq]
    norm_num
    rfl

/-- Witness of C13: axis 0 of `[0, 1]` and `[2, 3]` with `p = 3`. -/
theorem plain_interval_tight_witness :
    ∃ g G : ℚ,
      MinMaxDist.interval_interval_p natPow ⟨1, []⟩ ⟨1, [0], [1]⟩ ⟨1, [2], [3]⟩ 0 3 =
        .ok (natPow g 3, natPow G 3) ∧
      (∀ x y, coord [0] 0 ≤ x → x ≤ coord [1] 0 → coord [2] 0 ≤ y → y ≤ coord [3] 0 →
        g ≤ |x - y| ∧ |x - y| ≤ G) ∧
      (∃ x y, coord [0] 0 ≤ x ∧ x ≤ coord [1] 0 ∧ coord [2] 0 ≤ y ∧ y ≤ coord [3] 0 ∧
        |x - y| = g) ∧
      (∃ x y, coord [0] 0 ≤ x ∧ x ≤ coord [1] 0 ∧ coord [2] 0 ≤ y ∧ y ≤ coord [3] 0 ∧
        |x - y| = G) ∧
      ((coord [0] 0 ≤ coord [3] 0 ∧ coord [2] 0 ≤ coord [1] 0) → g = 0 ∧ natPow g 3 = 0) ∧
      (¬ (coord [0] 0 ≤ coord [3] 0 ∧ coord [2] 0 ≤ coord [1] 0) →
        g = max (coord [0] 0 - coord [3] 0) (coord [2] 0 - coord [1] 0) ∧
        0 < g ∧ 0 < natPow g 3) :=
  (plain_interval_tight natPow natPow_laws (fun _ _ hx => pow_pos hx _) ⟨1, []⟩
    ⟨1, [0], [1]⟩ ⟨1, [2], [3]⟩ 0 3 (by norm_num) (by decide) (by decide) (by decide)
    (by decide) (by norm_num [coord]) (by norm_num [coord])).1

/-! ## The constants fixed at construction -/

theorem coe_two_ne (q : ℚ) (h : q ≠ 2) : ((q : ℚ) : WithTop ℚ) ≠ ((2 : ℚ) : WithTop ℚ) :=
  fun e => h (WithTop.coe_injective e)

theorem constructed_epsfac (pow : ℚ → ℚ → ℚ) (S : Strategy) (tree : ckdtree)
    (rect1 rect2 : Rectangle) (p : WithTop ℚ) (eps : ℚ) (upper_bound : WithTop ℚ) :
    (constructed pow S tree rect1 rect2 p eps upper_bound).epsfac =
      (if p = ((2 : ℚ) : WithTop ℚ) then 1 / ((1 + eps) * (1 + eps))
       else if eps = 0 then 1
       else
        match p with
        | none => 1 / (1 + eps)
        | some q => 1 / pow (1 + eps) q) := rfl

theorem constructed_upper_bound (pow : ℚ → ℚ → ℚ) (S : Strategy) (tree : ckdtree)
    (rect1 rect2 : Rectangle) (p : WithTop ℚ) (eps : ℚ) (upper_bound : WithTop ℚ) :
    (constructed pow S tree rect1 rect2 p eps upper_bound).upper_bound =
      (if p = ((2 : ℚ) : WithTop ℚ) then upper_bound * upper_bound
       else
        match p, upper_bound with
        | some q, some u => ((pow u q : ℚ) : WithTop ℚ)
        | _, _ => upper_bound) := rfl

/-- C14. The `epsfac` of a constructed tracker is `1 / (1 + eps)^p` for every finite `p` (for
`p = 2` computed as `1 / ((1 + eps) * (1 + eps))`), `1 / (1 + eps)` for `p = infinity`, and 1
whenever `eps = 0`.  Exact arithmetic, with `pow x 2 = x * x` and `pow 1 q = 1`. -/
theorem epsfac_formula (pow : ℚ → ℚ → ℚ) (hsq : ∀ x, pow x 2 = x * x)
    (hone : ∀ q, pow 1 q = 1) (S : Strategy) (tree : ckdtree) (rect1 rect2 : Rectangle)
    (m : Nat) (p : WithTop ℚ) (eps : ℚ) (upper_bound : WithTop ℚ)
    (hc : Covers S tree rect1 rect2 m) (hm : S = .box → p = ⊤ → 0 < m) :
    ∃ t, RectRectDistanceTracker.construct pow S tree rect1 rect2 p eps upper_bound = .ok t ∧
      (∀ q : ℚ, p = (q : WithTop ℚ) → t.epsfac = 1 / pow (1 + eps) q) ∧
      (p = ((2 : ℚ) : WithTop ℚ) → t.epsfac = 1 / ((1 + eps) * (1 + eps))) ∧
      (p = ⊤ → t.epsfac = 1 / (1 + eps)) ∧
      (eps = 0 → t.epsfac = 1) := by
  have hE := constructed_epsfac pow S tree rect1 rect2 p eps upper_bound
  refine ⟨_, construct_eq pow p eps upper_bound hc hm, ?_, ?_, ?_, ?_⟩
  · intro q hq
    subst hq
    rw [hE]
    by_cases h2 : q = 2
    · subst h2
      rw [if_pos rfl, hsq]
    · rw [if_neg (coe_two_ne q h2)]
      by_cases he : eps = 0
      · rw [if_pos he, he, add_zero, hone, div_one]
      · rw [if_neg he]
  · intro h2
    rw [hE, if_pos h2]
  · intro ht
    subst ht
    rw [hE, if_neg WithTop.top_ne_coe]
    by_cases he : eps = 0
    · rw [if_pos he, he, add_zero, div_one]
    · rw [if_neg he]
  · intro he
    rw [hE]
    by_cases h2 : p = ((2 : ℚ) : WithTop ℚ)
    · rw [if_pos h2, he]; norm_num
    · rw [if_neg h2, if_pos he]

/-- Witness of C14: `p = 2` and `eps = 1/10` give `1 / (11/10)^2`. -/
theorem epsfac_formula_witness :
    ∃ t, RectRectDistanceTracker.construct natPow .plain ⟨1, []⟩ ⟨1, [0], [1]⟩ ⟨1, [2], [3]⟩
        ((2 : ℚ) : WithTop ℚ) (1 / 10) ⊤ = .ok t ∧
      (∀ q : ℚ, ((2 : ℚ) : WithTop ℚ) = (q : WithTop ℚ) →
        t.epsfac = 1 / natPow (1 + 1 / 10) q) ∧
      (((2 : ℚ) : WithTop ℚ) = ((2 : ℚ) : WithTop ℚ) →
        t.epsfac = 1 / ((1 + 1 / 10) * (1 + 1 / 10))) ∧
      (((2 : ℚ) : WithTop ℚ) = ⊤ → t.epsfac = 1 / (1 + 1 / 10)) ∧
      ((1 / 10 : ℚ) = 0 → t.epsfac = 1) :=
  epsfac_formula natPow natPow_laws.sq (fun _ => one_pow _) .plain ⟨1, []⟩ ⟨1, [0], [1]⟩
    ⟨1, [2], [3]⟩ 1 ((2 : ℚ) : WithTop ℚ) (1 / 10) ⊤
    ⟨rfl, rfl, rfl, rfl, rfl, rfl, fun h => by cases h⟩ (fun h => by cases h)

/-- C15. A constructed tracker stores the upper bound as its `p`-th power: for finite `p` and
a finite `_upper_bound` it is `_upper_bound^p` (for `p = 2` computed as `_upper_bound *
_upper_bound`), and it is `_upper_bound` unchanged when `p = infinity` or when
`_upper_bound` is infinite.  Exact arithmetic, with `pow x 2 = x * x`. -/
theorem upper_bound_formula (pow : ℚ → ℚ → ℚ) (hsq : ∀ x, pow x 2 = x * x)
    (S : Strategy) (tree : ckdtree) (rect1 rect2 : Rectangle)
    (m : Nat) (p : WithTop ℚ) (eps : ℚ) (_upper_bound : WithTop ℚ)
    (hc : Covers S tree rect1 rect2 m) (hm : S = .box → p = ⊤ → 0 < m) :
    ∃ t, RectRectDistanceTracker.construct pow S tree rect1 rect2 p eps _upper_bound = .ok t ∧
      (∀ q u : ℚ, p = (q : WithTop ℚ) → _upper_bound = (u : WithTop ℚ) →
        t.upper_bound = ((pow u q : ℚ) : WithTop ℚ)) ∧
      (∀ u : ℚ, p = ((2 : ℚ) : WithTop ℚ) → _upper_bound = (u : WithTop ℚ) →
        t.upper_bound = ((u * u : ℚ) : WithTop ℚ)) ∧
      (p = ⊤ → t.upper_bound = _upper_bound) ∧
      (_upper_bound = ⊤ → t.upper_bound = _upper_bound) := by
  have hE := constructed_upper_bound pow S tree rect1 rect2 p eps _upper_bound
  refine ⟨_, construct_eq pow p eps _upper_bound hc hm, ?_, ?_, ?_, ?_⟩
  · intro q u hq hu
    subst hq; subst hu
    rw [hE]
    by_cases h2 : q = 2
    · subst h2
      rw [if_pos rfl, hsq, WithTop.coe_mul]
    · rw [if_neg (coe_two_ne q h2)]
  · intro u h2 hu
    subst hu
    rw [hE, if_pos h2, WithTop.coe_mul]
  · intro ht
    subst ht
    rw [hE, if_neg WithTop.top_ne_coe]
  · intro hu
    subst hu
    rw [hE]
    by_cases h2 : p = ((2 : ℚ) : WithTop ℚ)
    · rw [if_pos h2, WithTop.top_mul_top]
    · rw [if_neg h2]
      cases p <;> rfl

/-- Witness of C15: `p = 3` and `_upper_bound = 2` give `2^3`. -/
theorem upper_bound_formula_witness :
    ∃ t, RectRectDistanceTracker.construct natPow .plain ⟨1, []⟩ ⟨1, [0], [1]⟩ ⟨1, [2], [3]⟩
        ((3 : ℚ) : WithTop ℚ) 0 ((2 : ℚ) : WithTop ℚ) = .ok t ∧
      (∀ q u : ℚ, ((3 : ℚ) : WithTop ℚ) = (q : WithTop ℚ) →
        ((2 : ℚ) : WithTop ℚ) = (u : WithTop ℚ) →
        t.upper_bound = ((natPow u q : ℚ) : WithTop ℚ)) ∧
      (∀ u : ℚ, ((3 : ℚ) : WithTop ℚ) = ((2 : ℚ) : WithTop ℚ) →
        ((2 : ℚ) : WithTop ℚ) = (u : WithTop ℚ) →
        t.upper_bound = ((u * u : ℚ) : WithTop ℚ)) ∧
      (((3 : ℚ) : WithTop ℚ) = ⊤ → t.upper_bound = ((2 : ℚ) : WithTop ℚ)) ∧
      (((2 : ℚ) : WithTop ℚ) = ⊤ → t.upper_bound = ((2 : ℚ) : WithTop ℚ)) :=
  upper_bound_formula natPow natPow_laws.sq .plain ⟨1, []⟩ ⟨1, [0], [1]⟩ ⟨1, [2], [3]⟩ 1
    ((3 : ℚ) : WithTop ℚ) 0 ((2 : ℚ) : WithTop ℚ)
    ⟨rfl, rfl, rfl, rfl, rfl, rfl, fun h => by cases h⟩ (fun h => by cases h)

/-! ## The frame of `push` -/

/-- C16. Frame of `push`: with the split dimension in range, `push` succeeds and changes one
coordinate bound only.  With `direction = LESS` it writes `split_val` to `maxes[split_dim]`
of the selected rectangle (`rect1` if `which = 1`, otherwise `rect2`), with any other direction
to `mins[split_dim]`; all other entries of that rectangle and the whole other rectangle are
unchanged, as are `p`, `epsfac` and `upper_bound`; `stack_size` grows by one and the new top
frame holds `which`, `split_dim`, the old `mins[split_dim]` and `maxes[split_dim]` of the
selected rectangle and the old `min_distance` and `max_distance`. -/
theorem push_frame (pow : ℚ → ℚ → ℚ) (S : Strategy) (t : RectRectDistanceTracker)
    (which direction : Int) (split_dim : Nat) (split_val : ℚ)
    (hwf : WF S t) (hk : split_dim < t.rect1.m) :
    ∃ t', t.push pow S which direction split_dim split_val = .ok t' ∧
      (which = 1 → direction = LESS →
        t'.rect1 = { t.rect1 with maxes := t.rect1.maxes.set split_dim split_val } ∧
        t'.rect2 = t.rect2) ∧
      (which = 1 → direction ≠ LESS →
        t'.rect1 = { t.rect1 with mins := t.rect1.mins.set split_dim split_val } ∧
        t'.rect2 = t.rect2) ∧
      (which ≠ 1 → direction = LESS →
        t'.rect1 = t.rect1 ∧
        t'.rect2 = { t.rect2 with maxes := t.rect2.maxes.set split_dim split_val }) ∧
      (which ≠ 1 → direction ≠ LESS →
        t'.rect1 = t.rect1 ∧
        t'.rect2 = { t.rect2 with mins := t.rect2.mins.set split_dim split_val }) ∧
      t'.tree = t.tree ∧ t'.p = t.p ∧ t'.epsfac = t.epsfac ∧
      t'.upper_bound = t.upper_bound ∧
      t'.stack_size = t.stack_size + 1 ∧
      t'.stack_arr[t.stack_size.toNat]? = some
        { which := which
          split_dim := split_dim
          min_along_dim := coord (if which = 1 then t.rect1 else t.rect2).mins split_dim
          max_along_dim := coord (if which = 1 then t.rect1 else t.rect2).maxes split_dim
          min_distance := t.min_distance
          max_distance := t.max_distance } := by
  obtain ⟨e1, e2⟩ := pushed_rects pow S t which direction split_dim split_val
  refine ⟨_, push_eq_pushed pow hwf which direction split_val hk, ?_, ?_, ?_, ?_, rfl, rfl, rfl,
    rfl, rfl, pushed_frame_top pow hwf which direction split_dim split_val⟩
  · intro hw hd
    rw [e1, e2, if_pos hw, if_pos hw]
    unfold narrowed
    rw [if_pos hd]
    exact ⟨rfl, rfl⟩
  · intro hw hd
    rw [e1, e2, if_pos hw, if_pos hw]
    unfold narrowed
    rw [if_neg hd]
    exact ⟨rfl, rfl⟩
  · intro hw hd
    rw [e1, e2, if_neg hw, if_neg hw]
    unfold narrowed
    rw [if_pos hd]
    exact ⟨rfl, rfl⟩
  · intro hw hd
    rw [e1, e2, if_neg hw, if_neg hw]
    unfold narrowed
    rw [if_neg hd]
    exact ⟨rfl, rfl⟩

/-- Witness of C16: `push(2, GREATER, 0, 5/2)` on the sample tracker. -/
theorem push_frame_witness :
    ∃ t', sample_tracker.push natPow .plain 2 GREATER 0 (5 / 2) = .ok t' ∧
      ((2 : Int) = 1 → GREATER = LESS →
        t'.rect1 = { sample_tracker.rect1 with
          maxes := sample_tracker.rect1.maxes.set 0 (5 / 2) } ∧
        t'.rect2 = sample_tracker.rect2) ∧
      ((2 : Int) = 1 → GREATER ≠ LESS →
        t'.rect1 = { sample_tracker.rect1 with
          mins := sample_tracker.rect1.mins.set 0 (5 / 2) } ∧
        t'.rect2 = sample_tracker.rect2) ∧
      ((2 : Int) ≠ 1 → GREATER = LESS →
        t'.rect1 = sample_tracker.rect1 ∧
        t'.rect2 = { sample_tracker.rect2 with
          maxes := sample_tracker.rect2.maxes.set 0 (5 / 2) }) ∧
      ((2 : Int) ≠ 1 → GREATER ≠ LESS →
        t'.rect1 = sample_tracker.rect1 ∧
        t'.rect2 = { sample_tracker.rect2 with
          mins := sample_tracker.rect2.mins.set 0 (5 / 2) }) ∧
      t'.tree = sample_tracker.tree ∧ t'.p = sample_tracker.p ∧
      t'.epsfac = sample_tracker.epsfac ∧
      t'.upper_bound = sample_tracker.upper_bound ∧
      t'.stack_size = sample_tracker.stack_size + 1 ∧
      t'.stack_arr[sample_tracker.stack_size.toNat]? = some
        { which := 2
          split_dim := 0
          min_along_dim :=
            coord (if (2 : Int) = 1 then sample_tracker.rect1 else sample_tracker.rect2).mins 0
          max_along_dim :=
            coord (if (2 : Int) = 1 then sample_tracker.rect1 else sample_tracker.rect2).maxes 0
          min_distance := sample_tracker.min_distance
          max_distance := sample_tracker.max_distance } :=
  push_frame natPow .plain sample_tracker 2 GREATER 0 (5 / 2) (wf_sample_tracker .plain)
    (by decide)

/-! ## Reachable states: totals and capacity -/

theorem error_bind {ε α β : Type} (e : ε) (f : α → Except ε β) :
    (Except.error e >>= f) = Except.error e := rfl

/-- A `push` that succeeds had its split dimension in range. -/
theorem push_ok_in_range (pow : ℚ → ℚ → ℚ) {S : Strategy} {t t' : RectRectDistanceTracker}
    (hwf : WF S t) {which direction : Int} {split_dim : Nat} {split_val : ℚ}
    (h : t.push pow S which direction split_dim split_val = .ok t') :
    split_dim < t.rect1.m := by
  by_contra hlt
  have hc := hwf.covers
  have hge : t.rect1.m ≤ split_dim := not_lt.mp hlt
  have h1 : rd t.rect1.mins split_dim = .error .out_of_range :=
    rd_of_le (by rw [hc.mins1]; exact hge)
  have h2 : rd t.rect2.mins split_dim = .error .out_of_range :=
    rd_of_le (by rw [hc.mins2]; exact hge)
  have hW : (which = 1) = True ∨ (which = 1) = False := by
    by_cases h : which = 1 <;> simp [h]
  have hF : (t.stack_size = t.stack_max_size) = True ∨
      (t.stack_size = t.stack_max_size) = False := by
    by_cases h : t.stack_size = t.stack_max_size <;> simp [h]
  unfold RectRectDistanceTracker.push at h
  rcases hW with hw | hw <;> rcases hF with hf | hf <;>
    simp only [hw, hf, if_true, if_false, RectRectDistanceTracker._resize_stack, h1, h2,
      error_bind] at h <;>
    split at h <;> cases h

theorem totals_sim (pow : ℚ → ℚ → ℚ) (S : Strategy) :
    ∀ t t', Sim t t' →
      (Balanced pow S t ∧ (S = .box → t.p = ⊤ → 0 < t.rect1.m)) →
      (Balanced pow S t' ∧ (S = .box → t'.p = ⊤ → 0 < t'.rect1.m)) :=
  fun _ _ hsim h => ⟨balanced_sim pow S hsim h.1, by
    rw [← hsim.p, ← hsim.rect1]; exact h.2⟩

/-- Every state reached by construction, `push` and successful `pop` satisfies the state
invariant, has a capacity of the form `8 * 2^j`, and holds totals equal to the bounds of its
rectangles, as do the states below it on the stack. -/
theorem reached_inv (pow : ℚ → ℚ → ℚ) (S : Strategy) (t : RectRectDistanceTracker)
    (h : Reached pow S t) :
    WF S t ∧ (∃ j : Nat, t.stack_max_size = 8 * 2 ^ j) ∧
    ∃ n, Unwinds
      (fun t => Balanced pow S t ∧ (S = .box → t.p = ⊤ → 0 < t.rect1.m)) n t := by
  induction h with
  | @construct tree rect1 rect2 m p eps upper_bound t hc hcon =>
    by_cases hz : S = .box ∧ p = ⊤ ∧ m = 0
    · obtain ⟨hS, hpt, hm0⟩ := hz
      subst hS; subst hpt; subst hm0
      rw [construct_box_inf_zero pow eps upper_bound hc] at hcon
      cases hcon
    · have hm : S = .box → p = ⊤ → 0 < m := by
        intro hS hpt
        by_contra hlt
        exact hz ⟨hS, hpt, by omega⟩
      rw [construct_eq pow p eps upper_bound hc hm] at hcon
      have ht := Except.ok.inj hcon
      subst ht
      refine ⟨wf_constructed pow p eps upper_bound hc, ⟨0, rfl⟩, 0, rfl, rfl, ?_⟩
      intro hS hpt
      show 0 < rect1.m
      rw [hc.dim1]; exact hm hS hpt
  | @push t t' which direction split_dim split_val _ hpush ih =>
    obtain ⟨hwf, ⟨j, hj⟩, n, hu⟩ := ih
    have hk := push_ok_in_range pow hwf hpush
    rw [push_eq_pushed pow hwf which direction split_val hk] at hpush
    have ht := Except.ok.inj hpush
    subst ht
    have hnow := unwinds_now hu
    refine ⟨wf_pushed pow hwf which direction split_val hk, ?_, n + 1,
      unwinds_pushed pow (totals_sim pow S) hwf hu which direction split_val hk
        ⟨balanced_pushed pow hwf hnow.1 which direction split_val hk, ?_⟩⟩
    · rw [pushed_stack_max_size]
      split
      · exact ⟨j + 1, by rw [hj, pow_succ]; ring⟩
      · exact ⟨j, hj⟩
    · rw [pushed_rect1_m pow hwf]
      exact hnow.2
  | @pop t t' _ hpop ih =>
    obtain ⟨hwf, hj, n, hu⟩ := ih
    have hpos : 0 < t.stack_size := by
      by_contra hle
      rw [pop_of_empty t (not_lt.mp hle)] at hpop
      cases hpop
    rw [pop_eq_popped hwf hpos] at hpop
    have ht := Except.ok.inj hpop
    subst ht
    cases n with
    | zero =>
      have := unwinds_size hu
      rw [this] at hpos
      exact absurd hpos (by decide)
    | succ n => exact ⟨wf_popped hwf hpos, hj, n, hu.2.2⟩

/-- C17. Incremental update equals recomputation (exact arithmetic): for both strategies and
every `p`, in every state reached from construction by `push` and successful `pop`,
`min_distance` and `max_distance` are what the initial computation of the constructor
returns for the current `rect1` and `rect2` (the sum over all axes of the per-axis bounds for
a finite `p`, `rect_rect_p_inf` for `p = infinity`), and a tracker constructed afresh from the
current rectangles holds the same two values. -/
theorem incremental_eq_fresh (pow : ℚ → ℚ → ℚ) (S : Strategy) (t : RectRectDistanceTracker)
    (eps : ℚ) (upper_bound : WithTop ℚ) (h : Reached pow S t) :
    RectRectDistanceTracker.initial_distances pow S t.tree t.rect1 t.rect2 t.p =
      .ok (t.min_distance, t.max_distance) ∧
    ∃ t2, RectRectDistanceTracker.construct pow S t.tree t.rect1 t.rect2 t.p eps upper_bound
        = .ok t2 ∧
      t2.min_distance = t.min_distance ∧ t2.max_distance = t.max_distance := by
  obtain ⟨hwf, _, n, hu⟩ := reached_inv pow S t h
  obtain ⟨hb, hdim⟩ := unwinds_now hu
  unfold Balanced at hb
  refine ⟨?_, _, construct_eq pow t.p eps upper_bound hwf.covers hdim, ?_, ?_⟩
  · rw [initial_distances_eq pow t.p hwf.covers hdim, hb]
  · show (totalPair pow S t.tree t.rect1 t.rect2 t.p).1 = _
    rw [← hb]
  · show (totalPair pow S t.tree t.rect1 t.rect2 t.p).2 = _
    rw [← hb]

/-- C18. Stack capacity invariant: in every state reached from construction by `push` and
successful `pop`, `0 ≤ stack_size ≤ stack_max_size`, `stack_max_size` is the length of the
frame storage and has the form `8 * 2^j`.  Every `push` with the split dimension in range
succeeds; it doubles `stack_max_size` (and the storage) when `stack_size = stack_max_size`
on entry and leaves it unchanged otherwise, so it never decreases, and it writes its frame
at an index inside the storage.  Every `pop` with `stack_size > 0` succeeds, leaves
`stack_max_size` and the storage unchanged and reads its frame at an index inside the
storage. -/
theorem stack_capacity_invariant (pow : ℚ → ℚ → ℚ) (S : Strategy)
    (t : RectRectDistanceTracker) (h : Reached pow S t) :
    0 ≤ t.stack_size ∧ t.stack_size ≤ t.stack_max_size ∧
    t.stack_arr.length = t.stack_max_size.toNat ∧
    (∃ j : Nat, t.stack_max_size = 8 * 2 ^ j) ∧
    (∀ (which direction : Int) (split_dim : Nat) (split_val : ℚ),
      split_dim < t.rect1.m →
      ∃ t', t.push pow S which direction split_dim split_val = .ok t' ∧
        (t.stack_size = t.stack_max_size →
          t'.stack_max_size = t.stack_max_size * 2 ∧ t.stack_max_size < t'.stack_max_size ∧
          t'.stack_arr.length = 2 * t.stack_arr.length) ∧
        (t.stack_size ≠ t.stack_max_size →
          t'.stack_max_size = t.stack_max_size ∧
          t'.stack_arr.length = t.stack_arr.length) ∧
        t.stack_max_size ≤ t'.stack_max_size ∧
        t'.stack_arr.length = t'.stack_max_size.toNat ∧
        t.stack_size.toNat < t'.stack_arr.length ∧
        t'.stack_size = t.stack_size + 1) ∧
    (0 < t.stack_size →
      ∃ t', t.pop = .ok t' ∧
        t'.stack_max_size = t.stack_max_size ∧ t'.stack_arr = t.stack_arr ∧
        0 ≤ t.stack_size - 1 ∧ (t.stack_size - 1).toNat < t.stack_arr.length ∧
        t'.stack_size = t.stack_size - 1) := by
  obtain ⟨hwf, hj, _⟩ := reached_inv pow S t h
  have h0 := hwf.size_nonneg
  have h1 := hwf.size_le
  have h2 := hwf.cap
  have h3 := hwf.cap_pos
  refine ⟨h0, h1, h2, hj, ?_, ?_⟩
  · intro which direction split_dim split_val hk
    have hwf' := wf_pushed pow hwf which direction split_val hk
    have hmax := pushed_stack_max_size pow S t which direction split_dim split_val
    have hsz : (pushed pow S t which direction split_dim split_val).stack_size =
        t.stack_size + 1 := rfl
    have hle := hwf'.size_le
    have hcap := hwf'.cap
    rw [hsz] at hle
    refine ⟨_, push_eq_pushed pow hwf which direction split_val hk, ?_, ?_, ?_, hcap, ?_, hsz⟩
    · intro hfull
      rw [if_pos hfull] at hmax
      refine ⟨hmax, by rw [hmax]; omega, ?_⟩
      rw [hcap, hmax, h2]; omega
    · intro hfull
      rw [if_neg hfull] at hmax
      refine ⟨hmax, ?_⟩
      rw [hcap, hmax, h2]
    · rw [hmax]; split <;> omega
    · rw [hcap]; omega
  · intro hpos
    exact ⟨popped t, pop_eq_popped hwf hpos, rfl, rfl, by omega, by omega, rfl⟩

theorem reached_sample_pushed : Reached natPow .box sample_pushed :=
  Reached.push
    (Reached.construct
      (⟨rfl, rfl, rfl, rfl, rfl, rfl, fun _ => by decide⟩ :
        Covers .box ⟨1, [10, 5]⟩ ⟨1, [0], [1]⟩ ⟨1, [2], [3]⟩ 1)
      (construct_eq natPow ((3 : ℚ) : WithTop ℚ) 0 ⊤
        (⟨rfl, rfl, rfl, rfl, rfl, rfl, fun _ => by decide⟩ :
          Covers .box ⟨1, [10, 5]⟩ ⟨1, [0], [1]⟩ ⟨1, [2], [3]⟩ 1)
        (fun _ h => absurd h WithTop.coe_ne_top)))
    (push_eq_pushed natPow
      (wf_constructed natPow ((3 : ℚ) : WithTop ℚ) 0 ⊤
        (⟨rfl, rfl, rfl, rfl, rfl, rfl, fun _ => by decide⟩ :
          Covers .box ⟨1, [10, 5]⟩ ⟨1, [0], [1]⟩ ⟨1, [2], [3]⟩ 1))
      2 GREATER (5 / 2) (by decide))

/-- Witness of C17: the reached state `sample_pushed`. -/
theorem incremental_eq_fresh_witness :
    RectRectDistanceTracker.initial_distances natPow .box sample_pushed.tree
        sample_pushed.rect1 sample_pushed.rect2 sample_pushed.p =
      .ok (sample_pushed.min_distance, sample_pushed.max_distance) ∧
    ∃ t2, RectRectDistanceTracker.construct natPow .box sample_pushed.tree sample_pushed.rect1
        sample_pushed.rect2 sample_pushed.p 0 ⊤ = .ok t2 ∧
      t2.min_distance = sample_pushed.min_distance ∧
      t2.max_distance = sample_pushed.max_distance :=
  incremental_eq_fresh natPow .box sample_pushed 0 ⊤ reached_sample_pushed

theorem reached_pushed (pow : ℚ → ℚ → ℚ) {S : Strategy} {t : RectRectDistanceTracker}
    (h : Reached pow S t) (which direction : Int) {split_dim : Nat} (split_val : ℚ)
    (hk : split_dim < t.rect1.m) :
    Reached pow S (pushed pow S t which direction split_dim split_val) :=
  Reached.push h (push_eq_pushed pow (reached_inv pow S t h).1 which direction split_val hk)

theorem reached_sample_full : Reached natPow .plain sample_full ∧ sample_full.rect1.m = 1 := by
  have key : ∀ n : Nat,
      Reached natPow .plain
        ((fun t => pushed natPow .plain t 1 LESS 0 (1 / 2))^[n]
          (constructed natPow .plain ⟨1, []⟩ ⟨1, [0], [1]⟩ ⟨1, [2], [3]⟩
            ((2 : ℚ) : WithTop ℚ) 0 ⊤)) ∧
      ((fun t => pushed natPow .plain t 1 LESS 0 (1 / 2))^[n]
          (constructed natPow .plain ⟨1, []⟩ ⟨1, [0], [1]⟩ ⟨1, [2], [3]⟩
            ((2 : ℚ) : WithTop ℚ) 0 ⊤)).rect1.m = 1 := by
    intro n
    induction n with
    | zero =>
      exact ⟨Reached.construct
        (⟨rfl, rfl, rfl, rfl, rfl, rfl, fun h => by cases h⟩ :
          Covers .plain ⟨1, []⟩ ⟨1, [0], [1]⟩ ⟨1, [2], [3]⟩ 1)
        (construct_eq natPow ((2 : ℚ) : WithTop ℚ) 0 ⊤
          (⟨rfl, rfl, rfl, rfl, rfl, rfl, fun h => by cases h⟩ :
            Covers .plain ⟨1, []⟩ ⟨1, [0], [1]⟩ ⟨1, [2], [3]⟩ 1)
          (fun h => by cases h)), rfl⟩
    | succ n ih =>
      rw [Function.iterate_succ_apply']
      have hk : 0 < ((fun t => pushed natPow .plain t 1 LESS 0 (1 / 2))^[n]
          (constructed natPow .plain ⟨1, []⟩ ⟨1, [0], [1]⟩ ⟨1, [2], [3]⟩
            ((2 : ℚ) : WithTop ℚ) 0 ⊤)).rect1.m := by rw [ih.2]; decide
      exact ⟨reached_pushed natPow ih.1 1 LESS (1 / 2) hk,
        (pushed_rect1_m natPow (reached_inv natPow .plain _ ih.1).1 1 LESS 0 (1 / 2)).trans
          ih.2⟩
  exact key 8

/-- Witness of C18: the tracker `sample_full`, whose 8 frames fill its capacity of 8; the
next `push` succeeds and doubles the capacity to 16, and `pop` succeeds. -/
theorem stack_capacity_invariant_witness :
    sample_full.stack_size = 8 ∧ sample_full.stack_max_size = 8 ∧
    sample_full.stack_arr.length = 8 ∧
    (∃ t', sample_full.push natPow .plain 2 GREATER 0 (5 / 2) = .ok t' ∧
      t'.stack_max_size = 16 ∧ t'.stack_arr.length = 16 ∧ t'.stack_size = 9) ∧
    (∃ t', sample_full.pop = .ok t' ∧ t'.stack_max_size = 8 ∧ t'.stack_size = 7) := by
  have hs : sample_full.stack_size = 8 := by decide!
  have hm : sample_full.stack_max_size = 8 := by decide!
  obtain ⟨_, _, hlen, _, hpush, hpop⟩ :=
    stack_capacity_invariant natPow .plain sample_full reached_sample_full.1
  obtain ⟨t1, e1, hfull, _, _, _, _, hsz⟩ :=
    hpush 2 GREATER 0 (5 / 2) (by rw [reached_sample_full.2]; decide)
  obtain ⟨hd, _, hl⟩ := hfull (by rw [hs, hm])
  obtain ⟨t2, e2, hm2, _, _, _, hs2⟩ := hpop (by rw [hs]; decide)
  rw [hm] at hlen hd hm2
  rw [hs] at hsz hs2
  rw [hlen] at hl
  exact ⟨hs, hm, hlen, ⟨t1, e1, hd, hl, hsz⟩, ⟨t2, e2, hm2, hs2⟩⟩

/-! ## A failed `pop` -/

/-- C19, as amended.  When `pop` is called with `stack_size = 0` it raises the logic error and
leaves every field as before the call except `stack_size`, which is left at `-1`; a `push` on
the tracker left behind then addresses frame `-1`, outside the frame storage. -/
theorem failed_pop_state (pow : ℚ → ℚ → ℚ) (S : Strategy) (t : RectRectDistanceTracker)
    (which direction : Int) (split_dim : Nat) (split_val : ℚ)
    (h0 : t.stack_size = 0) (hcap : 0 < t.stack_max_size) :
    t.pop = .error (.logic_error, { t with stack_size := -1 }) ∧
    ({ t with stack_size := -1 } : RectRectDistanceTracker).push pow S which direction
      split_dim split_val = .error .out_of_range := by
  constructor
  · rw [pop_of_empty t (le_of_eq h0), h0]
    rfl
  · have hne : ¬ ((-1 : Int) = t.stack_max_size) := by omega
    unfold RectRectDistanceTracker.push
    simp only [if_neg hne]
    rfl

/-- Witness of C19 as amended: the sample tracker, whose stack is empty. -/
theorem failed_pop_state_witness :
    sample_tracker.pop = .error (.logic_error, { sample_tracker with stack_size := -1 }) ∧
    ({ sample_tracker with stack_size := -1 } : RectRectDistanceTracker).push natPow .plain
      1 LESS 0 (1 / 2) = .error .out_of_range :=
  failed_pop_state natPow .plain sample_tracker 1 LESS 0 (1 / 2) rfl (by decide)

/-- C19 as stated fails: on the sample tracker, whose stack is empty, the failed `pop` leaves
`stack_size = -1` instead of 0, and the `push` that succeeds on the tracker before the failed
`pop` fails on the tracker left behind. -/
theorem failed_pop_not_atomic :
    sample_tracker.stack_size = 0 ∧
    sample_tracker.pop = .error (.logic_error, { sample_tracker with stack_size := -1 }) ∧
    ({ sample_tracker with stack_size := -1 } : RectRectDistanceTracker).stack_size ≠ 0 ∧
    sample_tracker.push natPow .plain 1 LESS 0 (1 / 2) =
      .ok (pushed natPow .plain sample_tracker 1 LESS 0 (1 / 2)) ∧
    ({ sample_tracker with stack_size := -1 } : RectRectDistanceTracker).push natPow .plain
      1 LESS 0 (1 / 2) = .error .out_of_range := by
  decide!

/-! ## Narrowing tightens the bounds -/

/-- Shrinking either interval raises the least distance and lowers the greatest. -/
theorem plain_gap_mono {a1 a2 b1 b2 a1' a2' b1' b2' : ℚ} (h1 : a1 ≤ a1') (h2 : a2' ≤ a2)
    (h3 : b1 ≤ b1') (h4 : b2' ≤ b2) :
    dmax (a1 - b2) (b1 - a2) ≤ dmax (a1' - b2') (b1' - a2') ∧
    dmax (a2' - b1') (b2' - a1') ≤ dmax (a2 - b1) (b2 - a1) := by
  unfold dmax
  exact ⟨max_le_max (by linarith) (by linarith), max_le_max (by linarith) (by linarith)⟩

/-- On every axis the rectangles after a `push` with a valid split value are valid and lie
inside the rectangles before it. -/
theorem pushed_shrinks (pow : ℚ → ℚ → ℚ) {S : Strategy} {t : RectRectDistanceTracker}
    (hwf : WF S t) (hv1 : t.rect1.Valid) (hv2 : t.rect2.Valid) (which direction : Int)
    {split_dim : Nat} {split_val : ℚ} (hk : split_dim < t.rect1.m)
    (h1 : coord (if which = 1 then t.rect1 else t.rect2).mins split_dim ≤ split_val)
    (h2 : split_val ≤ coord (if which = 1 then t.rect1 else t.rect2).maxes split_dim)
    {i : Nat} (hi : i < t.rect1.m) :
    (coord t.rect1.mins i ≤
        coord (pushed pow S t which direction split_dim split_val).rect1.mins i ∧
      coord (pushed pow S t which direction split_dim split_val).rect1.mins i ≤
        coord (pushed pow S t which direction split_dim split_val).rect1.maxes i ∧
      coord (pushed pow S t which direction split_dim split_val).rect1.maxes i ≤
        coord t.rect1.maxes i) ∧
    (coord t.rect2.mins i ≤
        coord (pushed pow S t which direction split_dim split_val).rect2.mins i ∧
      coord (pushed pow S t which direction split_dim split_val).rect2.mins i ≤
        coord (pushed pow S t which direction split_dim split_val).rect2.maxes i ∧
      coord (pushed pow S t which direction split_dim split_val).rect2.maxes i ≤
        coord t.rect2.maxes i) := by
  have hc := hwf.covers
  have hkm1 : split_dim < t.rect1.mins.length := by rw [hc.mins1]; exact hk
  have hkM1 : split_dim < t.rect1.maxes.length := by rw [hc.maxes1]; exact hk
  have hkm2 : split_dim < t.rect2.mins.length := by rw [hc.mins2]; exact hk
  have hkM2 : split_dim < t.rect2.maxes.length := by rw [hc.maxes2]; exact hk
  have hi2 : i < t.rect2.m := by rw [hc.dim2]; exact hi
  obtain ⟨e1, e2⟩ := pushed_rects pow S t which direction split_dim split_val
  rw [e1, e2]
  by_cases hw : which = 1
  · simp only [if_pos hw] at h1 h2 ⊢
    exact ⟨narrowed_shrinks t.rect1 direction i hkm1 hkM1 h1 h2 (hv1 i hi),
      le_rfl, hv2 i hi2, le_rfl⟩
  · simp only [if_neg hw] at h1 h2 ⊢
    exact ⟨⟨le_rfl, hv1 i hi, le_rfl⟩,
      narrowed_shrinks t.rect2 direction i hkm2 hkM2 h1 h2 (hv2 i hi2)⟩

/-- C20. Narrowing only tightens the bounds (plain strategy, exact arithmetic): in a state
whose totals are the bounds of its rectangles (a fresh tracker in particular), with
`mins ≤ maxes` on every axis, a `push` whose split value lies in `[mins[split_dim],
maxes[split_dim]]` of the selected rectangle succeeds and gives `min_distance' ≥
min_distance` and `max_distance' ≤ max_distance`, for a finite `p ≥ 1` and for
`p = infinity`. -/
theorem push_tightens (pow : ℚ → ℚ → ℚ) (hpow : PowLaws pow) (t : RectRectDistanceTracker)
    (which direction : Int) (split_dim : Nat) (split_val : ℚ)
    (hwf : WF .plain t) (hb : Balanced pow .plain t)
    (hv1 : t.rect1.Valid) (hv2 : t.rect2.Valid)
    (hp : ∀ q : ℚ, t.p = (q : WithTop ℚ) → 1 ≤ q)
    (hk : split_dim < t.rect1.m)
    (h1 : coord (if which = 1 then t.rect1 else t.rect2).mins split_dim ≤ split_val)
    (h2 : split_val ≤ coord (if which = 1 then t.rect1 else t.rect2).maxes split_dim) :
    ∃ t', t.push pow .plain which direction split_dim split_val = .ok t' ∧
      t.min_distance ≤ t'.min_distance ∧ t'.max_distance ≤ t.max_distance := by
  have hb' := balanced_pushed pow hwf hb which direction split_val hk
  have hm := pushed_rect1_m pow hwf which direction split_dim split_val
  have hsh := fun i (hi : i < t.rect1.m) =>
    pushed_shrinks pow hwf hv1 hv2 which direction hk h1 h2 hi
  unfold Balanced at hb hb'
  have hmin : t.min_distance = (totalPair pow .plain t.tree t.rect1 t.rect2 t.p).1 :=
    congrArg Prod.fst hb
  have hmax : t.max_distance = (totalPair pow .plain t.tree t.rect1 t.rect2 t.p).2 :=
    congrArg Prod.snd hb
  have hmin' := congrArg Prod.fst hb'
  have hmax' := congrArg Prod.snd hb'
  simp only at hmin' hmax'
  refine ⟨_, push_eq_pushed pow hwf which direction split_val hk, ?_, ?_⟩
  · rw [hmin, hmin']
    show _ ≤ (totalPair pow .plain t.tree _ _ t.p).1
    cases hpq : t.p with
    | top =>
      show (infPair .plain t.tree t.rect1 t.rect2).1 ≤ (infPair .plain t.tree _ _).1
      unfold infPair
      simp only [hm]
      apply foldl_max_mono _ _ _ _ 0 0 le_rfl
      intro i hi
      obtain ⟨⟨a1, _, a2⟩, b1, _, b2⟩ := hsh i (List.mem_range.mp hi)
      exact (plain_gap_mono a1 a2 b1 b2).1
    | coe q =>
      have hq : 0 < q := lt_of_lt_of_le one_pos (hp q hpq)
      show ∑ i in Finset.range t.rect1.m, (contrib pow q (gapPair .plain t.tree _ _ i)).1 ≤
        ∑ i in Finset.range (pushed pow .plain t which direction split_dim split_val).rect1.m,
          (contrib pow q (gapPair .plain t.tree _ _ i)).1
      rw [hm]
      apply Finset.sum_le_sum
      intro i hi
      obtain ⟨⟨a1, _, a2⟩, b1, _, b2⟩ := hsh i (Finset.mem_range.mp hi)
      rw [contrib_eq_pow hpow, contrib_eq_pow hpow]
      apply hpow.mono _ _ q hq (le_max_left _ _)
      exact max_le_max le_rfl (plain_gap_mono a1 a2 b1 b2).1
  · rw [hmax, hmax']
    show (totalPair pow .plain t.tree _ _ t.p).2 ≤ _
    cases hpq : t.p with
    | top =>
      show (infPair .plain t.tree _ _).2 ≤ (infPair .plain t.tree t.rect1 t.rect2).2
      unfold infPair
      simp only [hm]
      apply foldl_max_mono _ _ _ _ 0 0 le_rfl
      intro i hi
      obtain ⟨⟨a1, _, a2⟩, b1, _, b2⟩ := hsh i (List.mem_range.mp hi)
      exact (plain_gap_mono a1 a2 b1 b2).2
    | coe q =>
      have hq : 0 < q := lt_of_lt_of_le one_pos (hp q hpq)
      show ∑ i in Finset.range (pushed pow .plain t which direction split_dim split_val).rect1.m,
          (contrib pow q (gapPair .plain t.tree _ _ i)).2 ≤
        ∑ i in Finset.range t.rect1.m, (contrib pow q (gapPair .plain t.tree _ _ i)).2
      rw [hm]
      apply Finset.sum_le_sum
      intro i hi
      obtain ⟨⟨a1, v1, a2⟩, b1, v2, b2⟩ := hsh i (Finset.mem_range.mp hi)
      rw [contrib_eq_pow hpow, contrib_eq_pow hpow]
      have hle := plain_gap_le v1 v2
      exact hpow.mono _ _ q hq (le_trans hle.1 hle.2) (plain_gap_mono a1 a2 b1 b2).2

/-- Witness of C20: the fresh tracker over `[0, 1]` and `[2, 3]` with `p = 3`, narrowed by
`push(1, LESS, 0, 1/2)`. -/
theorem push_tightens_witness :
    ∃ t', (constructed natPow .plain ⟨1, []⟩ ⟨1, [0], [1]⟩ ⟨1, [2], [3]⟩
          ((3 : ℚ) : WithTop ℚ) 0 ⊤).push natPow .plain 1 LESS 0 (1 / 2) = .ok t' ∧
      (constructed natPow .plain ⟨1, []⟩ ⟨1, [0], [1]⟩ ⟨1, [2], [3]⟩
          ((3 : ℚ) : WithTop ℚ) 0 ⊤).min_distance ≤ t'.min_distance ∧
      t'.max_distance ≤
        (constructed natPow .plain ⟨1, []⟩ ⟨1, [0], [1]⟩ ⟨1, [2], [3]⟩
          ((3 : ℚ) : WithTop ℚ) 0 ⊤).max_distance :=
  push_tightens natPow natPow_laws
    (constructed natPow .plain ⟨1, []⟩ ⟨1, [0], [1]⟩ ⟨1, [2], [3]⟩ ((3 : ℚ) : WithTop ℚ) 0 ⊤)
    1 LESS 0 (1 / 2)
    (wf_constructed natPow ((3 : ℚ) : WithTop ℚ) 0 ⊤
      (⟨rfl, rfl, rfl, rfl, rfl, rfl, fun h => by cases h⟩ :
        Covers .plain ⟨1, []⟩ ⟨1, [0], [1]⟩ ⟨1, [2], [3]⟩ 1))
    rfl
    (fun i hi => by
      obtain rfl : i = 0 := Nat.lt_one_iff.mp hi
      show coord [0] 0 ≤ coord [1] 0
      norm_num [coord])
    (fun i hi => by
      obtain rfl : i = 0 := Nat.lt_one_iff.mp hi
      show coord [2] 0 ≤ coord [3] 0
      norm_num [coord])
    (fun q h => by
      have h3 : (3 : ℚ) = q := WithTop.coe_injective h
      rw [← h3]; norm_num)
    (by decide)
    (by show coord [0] 0 ≤ (1 / 2 : ℚ); norm_num [coord])
    (by show (1 / 2 : ℚ) ≤ coord [1] 0; norm_num [coord])

/-! ## Where the Chebyshev bounds are the largest per-axis bounds -/

theorem foldl_max_clip (f : Nat → ℚ) (l : List Nat) :
    ∀ a : ℚ, 0 ≤ a →
      l.foldl (fun acc i => max acc (f i)) a = l.foldl (fun acc i => max acc (max 0 (f i))) a := by
  induction l with
  | nil => intro a _; rfl
  | cons i l ih =>
    intro a ha
    rw [List.foldl_cons, List.foldl_cons]
    have h : max a (max 0 (f i)) = max a (f i) := by
      rw [← max_assoc, max_eq_left ha]
    rw [h]
    exact ih _ (le_trans ha (le_max_left _ _))

theorem foldl_pair_snd (g : Nat → ℚ × ℚ) (l : List Nat) :
    ∀ acc : ℚ × ℚ,
      (l.foldl (fun acc k => (dmin (g k).1 acc.1, dmax (g k).2 acc.2)) acc).2 =
        l.foldl (fun acc i => max acc (g i).2) acc.2 := by
  induction l with
  | nil => intro acc; rfl
  | cons i l ih =>
    intro acc
    rw [List.foldl_cons, List.foldl_cons, ih]
    simp only [dmax, max_comm]

theorem foldl_pair_fst (g : Nat → ℚ × ℚ) (l : List Nat) :
    ∀ acc : ℚ × ℚ,
      (l.foldl (fun acc k => (dmin (g k).1 acc.1, dmax (g k).2 acc.2)) acc).1 =
        l.foldl (fun acc i => min acc (g i).1) acc.1 := by
  induction l with
  | nil => intro acc; rfl
  | cons i l ih =>
    intro acc
    rw [List.foldl_cons, List.foldl_cons, ih]
    simp only [dmin, min_comm]

/-- The plain Chebyshev bounds are the largest per-axis gap bounds, for valid rectangles of
dimension at least 1. -/
theorem plain_inf_eq_max_over_axes (tree : ckdtree) {rect1 rect2 : Rectangle}
    (hm : 0 < rect1.m) (h0 : coord rect1.mins 0 ≤ coord rect1.maxes 0)
    (h0' : coord rect2.mins 0 ≤ coord rect2.maxes 0) :
    infPair .plain tree rect1 rect2 =
      (max_over_axes (fun i => (gapPair .plain tree rect1 rect2 i).1) rect1.m,
       max_over_axes (fun i => (gapPair .plain tree rect1 rect2 i).2) rect1.m) := by
  obtain ⟨n, hn⟩ : ∃ n, rect1.m = n + 1 := ⟨rect1.m - 1, by omega⟩
  have hr : List.range (n + 1) = 0 :: List.range' 1 n := by
    rw [List.range_eq_range', List.range'_succ]
  have hG : 0 ≤ dmax (coord rect1.maxes 0 - coord rect2.mins 0)
      (coord rect2.maxes 0 - coord rect1.mins 0) := (le_trans (plain_gap_le h0 h0').1
        (plain_gap_le h0 h0').2)
  unfold infPair max_over_axes gapPair
  simp only [hn, hr, List.foldl_cons, Nat.add_sub_cancel, dmax] at hG ⊢
  congr 1
  · rw [foldl_max_clip _ _ _ (le_max_left _ _)]
  · rw [max_eq_right hG]

/-- The periodic Chebyshev bounds: the upper one is the largest per-axis upper bound, the
lower one is the smallest per-axis lower bound. -/
theorem box_inf_eq (tree : ckdtree) (rect1 rect2 : Rectangle) :
    (infPair .box tree rect1 rect2).2 =
      max_over_axes (fun i => (gapPair .box tree rect1 rect2 i).2) rect1.m ∧
    (infPair .box tree rect1 rect2).1 =
      (List.range' 1 (rect1.m - 1)).foldl
        (fun acc i => min acc (gapPair .box tree rect1 rect2 i).1)
        (gapPair .box tree rect1 rect2 0).1 := by
  unfold infPair max_over_axes
  exact ⟨foldl_pair_snd _ _ _, foldl_pair_fst _ _ _⟩

/-! ## Rounded arithmetic -/

/-- The helper `pow2` is the integer power of two. -/
theorem pow2_eq_zpow (e : Int) : Binary64.pow2 e = (2 : ℚ) ^ e := by
  unfold Binary64.pow2
  split_ifs with h
  · conv_rhs => rw [← Int.toNat_of_nonneg h]
    rw [zpow_natCast]
  · have h2 : 0 ≤ -e := by omega
    have h3 : e = -((-e).toNat : Int) := by rw [Int.toNat_of_nonneg h2]; ring
    conv_rhs => rw [h3]
    rw [zpow_neg, zpow_natCast, one_div]

/-- Enough fuel makes `halvings` the floor of the binary logarithm. -/
theorem halvings_spec (fuel : Nat) : ∀ n : Nat, 1 ≤ n → n ≤ fuel →
    2 ^ Binary64.halvings fuel n ≤ n ∧ n < 2 ^ (Binary64.halvings fuel n + 1) := by
  induction fuel with
  | zero => intro n h1 h2; omega
  | succ fuel ih =>
    intro n h1 h2
    unfold Binary64.halvings
    split_ifs with h
    · have : n = 1 := by omega
      subst this; norm_num
    · have hn : 2 ≤ n := by omega
      have h3 : 1 ≤ n / 2 := by omega
      have h4 : n / 2 ≤ fuel := by omega
      obtain ⟨ha, hb⟩ := ih (n / 2) h3 h4
      constructor
      · rw [pow_succ]; omega
      · rw [pow_succ]; omega

/-- The function `ilog2` is the floor of the binary logarithm. -/
theorem ilog2_spec (n : Nat) (h : 1 ≤ n) :
    2 ^ Binary64.ilog2 n ≤ n ∧ n < 2 ^ (Binary64.ilog2 n + 1) :=
  halvings_spec n n h le_rfl

/-- The exponent of a positive number brackets it between two powers of two. -/
theorem exponent_spec (a : ℚ) (ha : 0 < a) :
    Binary64.pow2 (Binary64.exponent a) ≤ a ∧ a < Binary64.pow2 (Binary64.exponent a + 1) := by
  have hnum : 0 < a.num := Rat.num_pos.mpr ha
  have hden : 0 < a.den := a.den_pos
  have hn1 : 1 ≤ a.num.natAbs := by omega
  obtain ⟨hn_lo, hn_hi⟩ := ilog2_spec a.num.natAbs hn1
  obtain ⟨hd_lo, hd_hi⟩ := ilog2_spec a.den hden
  have hnumq : (a.num : ℚ) = (a.num.natAbs : ℚ) := by
    have h0 : (a.num.natAbs : Int) = a.num := Int.natAbs_of_nonneg hnum.le
    have h1 : (((a.num.natAbs : Nat) : Int) : ℚ) = (a.num : ℚ) := by rw [h0]
    rw [← h1, Int.cast_natCast]
  have hdq : (0 : ℚ) < a.den := by exact_mod_cast hden
  have haeq : a = (a.num.natAbs : ℚ) / (a.den : ℚ) := by
    rw [← hnumq]; exact (Rat.num_div_den a).symm
  have hn_lo' : (2 : ℚ) ^ Binary64.ilog2 a.num.natAbs ≤ (a.num.natAbs : ℚ) := by
    exact_mod_cast hn_lo
  have hn_hi' : (a.num.natAbs : ℚ) < (2 : ℚ) ^ (Binary64.ilog2 a.num.natAbs + 1) := by
    exact_mod_cast hn_hi
  have hd_lo' : (2 : ℚ) ^ Binary64.ilog2 a.den ≤ (a.den : ℚ) := by
    exact_mod_cast hd_lo
  have hd_hi' : (a.den : ℚ) < (2 : ℚ) ^ (Binary64.ilog2 a.den + 1) := by
    exact_mod_cast hd_hi
  set ln := Binary64.ilog2 a.num.natAbs with hln
  set ld := Binary64.ilog2 a.den with hld
  have h2ld : (0 : ℚ) < 2 ^ ld := by positivity
  have h2ln : (0 : ℚ) < 2 ^ ln := by positivity
  -- a < 2^(ln+1) / 2^ld  and  2^ln / 2^(ld+1) < a
  have hup : a < (2 : ℚ) ^ ((ln : Int) - (ld : Int) + 1) := by
    have e1 : (2 : ℚ) ^ ((ln : Int) - (ld : Int) + 1) = (2 : ℚ) ^ (ln + 1) / 2 ^ ld := by
      rw [show ((ln : Int) - (ld : Int) + 1) = ((ln + 1 : Nat) : Int) - (ld : Int) by push_cast; ring]
      rw [zpow_sub₀ (by norm_num : (2 : ℚ) ≠ 0), zpow_natCast, zpow_natCast]
    rw [e1, haeq, div_lt_div_iff₀ hdq h2ld]
    calc (a.num.natAbs : ℚ) * 2 ^ ld < 2 ^ (ln + 1) * 2 ^ ld := by
          exact mul_lt_mul_of_pos_right hn_hi' h2ld
      _ ≤ 2 ^ (ln + 1) * (a.den : ℚ) := by
          exact mul_le_mul_of_nonneg_left hd_lo' (by positivity)
  have hlow : (2 : ℚ) ^ ((ln : Int) - (ld : Int) - 1) < a := by
    have e1 : (2 : ℚ) ^ ((ln : Int) - (ld : Int) - 1) = (2 : ℚ) ^ ln / 2 ^ (ld + 1) := by
      rw [show ((ln : Int) - (ld : Int) - 1) = ((ln : Nat) : Int) - ((ld + 1 : Nat) : Int) by push_cast; ring]
      rw [zpow_sub₀ (by norm_num : (2 : ℚ) ≠ 0), zpow_natCast, zpow_natCast]
    have h2ld1 : (0 : ℚ) < 2 ^ (ld + 1) := by positivity
    rw [e1, haeq, div_lt_div_iff₀ h2ld1 hdq]
    calc (2 : ℚ) ^ ln * (a.den : ℚ) < 2 ^ ln * 2 ^ (ld + 1) := by
          exact mul_lt_mul_of_pos_left hd_hi' h2ln
      _ ≤ (a.num.natAbs : ℚ) * 2 ^ (ld + 1) := by
          exact mul_le_mul_of_nonneg_right hn_lo' (by positivity)
  unfold Binary64.exponent
  simp only [← hln, ← hld]
  split_ifs with h
  · exact ⟨h, by rw [pow2_eq_zpow]; exact hup⟩
  · refine ⟨by rw [pow2_eq_zpow]; exact hlow.le, ?_⟩
    rw [sub_add_cancel]
    exact lt_of_not_le h

/-- The rounding function returns a nearest number with a 53-bit significand in the binade
of its argument, and the even significand at a tie. -/
theorem round_spec (x : ℚ) (hx : x ≠ 0) :
    ∃ n : Int,
      Binary64.round x =
        (if x < 0 then -1 else 1) * ((n : ℚ) * Binary64.pow2 (Binary64.exponent |x| - 52)) ∧
      (2 : ℚ) ^ 52 ≤ n ∧ (n : ℚ) ≤ 2 ^ 53 ∧
      |(n : ℚ) - |x| / Binary64.pow2 (Binary64.exponent |x| - 52)| ≤ 1 / 2 ∧
      (|(n : ℚ) - |x| / Binary64.pow2 (Binary64.exponent |x| - 52)| = 1 / 2 → n % 2 = 0) := by
  have ha : 0 < |x| := abs_pos.mpr hx
  obtain ⟨hlo, hhi⟩ := exponent_spec |x| ha
  set e := Binary64.exponent |x| with he
  have hu : Binary64.pow2 (e - 52) = (2 : ℚ) ^ e / 2 ^ 52 := by
    rw [pow2_eq_zpow, zpow_sub₀ (by norm_num : (2 : ℚ) ≠ 0)]; norm_cast
  have h2e : (0 : ℚ) < (2 : ℚ) ^ e := by positivity
  have hupos : 0 < Binary64.pow2 (e - 52) := by rw [hu]; positivity
  rw [pow2_eq_zpow] at hlo hhi
  set q := |x| / Binary64.pow2 (e - 52) with hq
  have hq_lo : (2 : ℚ) ^ 52 ≤ q := by
    rw [hq, hu, le_div_iff₀ (by positivity)]
    calc (2 : ℚ) ^ 52 * ((2 : ℚ) ^ e / 2 ^ 52) = (2 : ℚ) ^ e := by field_simp
      _ ≤ |x| := hlo
  have hq_hi : q < (2 : ℚ) ^ 53 := by
    rw [hq, hu, div_lt_iff₀ (by positivity)]
    calc |x| < (2 : ℚ) ^ (e + 1) := hhi
      _ = (2 : ℚ) ^ 53 * ((2 : ℚ) ^ e / 2 ^ 52) := by
          rw [zpow_add₀ (by norm_num : (2 : ℚ) ≠ 0)]; field_simp; ring
  have hf_lo : ((2 ^ 52 : Int) : ℚ) ≤ q := by exact_mod_cast hq_lo
  have hfl : (2 : Int) ^ 52 ≤ ⌊q⌋ := Int.le_floor.mpr hf_lo
  have hfh : ⌊q⌋ < (2 : Int) ^ 53 := Int.floor_lt.mpr (by exact_mod_cast hq_hi)
  have hr0 : 0 ≤ q - ⌊q⌋ := by linarith [Int.floor_le q]
  have hr1 : q - ⌊q⌋ < 1 := by linarith [Int.lt_floor_add_one q]
  have hflq : ((2 : ℚ) ^ 52) ≤ (⌊q⌋ : ℚ) := by exact_mod_cast hfl
  have hfhq : ((⌊q⌋ : ℚ) + 1) ≤ (2 : ℚ) ^ 53 := by
    have : ⌊q⌋ + 1 ≤ (2 : Int) ^ 53 := by omega
    exact_mod_cast this
  have hround : Binary64.round x =
      (if x < 0 then -1 else 1) *
        (((if q - ⌊q⌋ < 1 / 2 then ⌊q⌋ else if 1 / 2 < q - ⌊q⌋ then ⌊q⌋ + 1
            else if ⌊q⌋ % 2 = 0 then ⌊q⌋ else ⌊q⌋ + 1 : Int) : ℚ) *
          Binary64.pow2 (e - 52)) := by
    unfold Binary64.round
    rw [if_neg hx]
  refine ⟨_, hround, ?_⟩
  split_ifs with h1 h2 h3
  · refine ⟨hflq, by linarith, ?_, ?_⟩
    · rw [abs_le]; constructor <;> linarith
    · intro h; rw [abs_sub_comm, abs_of_nonneg hr0] at h; linarith
  · refine ⟨by push_cast; linarith, by push_cast; linarith, ?_, ?_⟩
    · rw [abs_le]; push_cast; constructor <;> linarith
    · intro h
      rw [abs_of_nonneg (by push_cast; linarith)] at h
      push_cast at h; linarith
  · refine ⟨hflq, by linarith, ?_, fun _ => h3⟩
    rw [abs_le]; constructor <;> linarith
  · refine ⟨by push_cast; linarith, by push_cast; linarith, ?_, fun _ => ?_⟩
    · rw [abs_le]; push_cast; constructor <;> linarith
    · omega

/-- The rounding error is at most half a unit in the last place. -/
theorem round_error (x : ℚ) (hx : x ≠ 0) :
    |Binary64.round x - x| ≤ Binary64.pow2 (Binary64.exponent |x| - 52) / 2 := by
  obtain ⟨n, hr, -, -, hn, -⟩ := round_spec x hx
  have ha : 0 < |x| := abs_pos.mpr hx
  have hupos : 0 < Binary64.pow2 (Binary64.exponent |x| - 52) := by
    rw [pow2_eq_zpow]; positivity
  set u := Binary64.pow2 (Binary64.exponent |x| - 52) with hu
  have key : abs ((n : ℚ) * u - |x|) ≤ u / 2 := by
    have : (n : ℚ) * u - |x| = ((n : ℚ) - |x| / u) * u := by field_simp
    rw [this, abs_mul, abs_of_pos hupos]
    calc |(n : ℚ) - |x| / u| * u ≤ 1 / 2 * u := mul_le_mul_of_nonneg_right hn hupos.le
      _ = u / 2 := by ring
  rw [hr]
  rcases lt_or_gt_of_ne hx with hneg | hpos
  · rw [if_pos hneg]
    have hax : |x| = -x := abs_of_neg hneg
    rw [hax] at key
    rw [show -1 * ((n : ℚ) * u) - x = -((n : ℚ) * u - -x) by ring, abs_neg]
    exact key
  · rw [if_neg (not_lt.mpr hpos.le)]
    have hax : |x| = x := abs_of_pos hpos
    rw [hax] at key
    rw [one_mul]; exact key

/-- With no rounding the rounded constructor is the constructor of the plain strategy. -/
theorem rounded_construct_id (pow : ℚ → ℚ → ℚ) (tree : ckdtree) (rect1 rect2 : Rectangle)
    (p : WithTop ℚ) (eps : ℚ) (upper_bound : WithTop ℚ) :
    Rounded.construct id pow tree rect1 rect2 p eps upper_bound =
      RectRectDistanceTracker.construct pow .plain tree rect1 rect2 p eps upper_bound := by
  have hmap : ∀ x : WithTop ℚ, WithTop.map id x = x := fun x => by cases x <;> rfl
  unfold Rounded.construct RectRectDistanceTracker.construct
  simp only [id, hmap]
  rfl

/-- With no rounding the rounded `push` is the `push` of the plain strategy. -/
theorem rounded_push_id (pow : ℚ → ℚ → ℚ) (t : RectRectDistanceTracker)
    (which direction : Int) (split_dim : Nat) (split_val : ℚ) :
    Rounded.push id pow t which direction split_dim split_val =
      t.push pow .plain which direction split_dim split_val := rfl

/-- The binary64 number nearest to one tenth. -/
theorem round_one_tenth :
    Binary64.round (1 / 10) = 3602879701896397 / 36028797018963968 := by decide!

/-- A tie is rounded to the even significand. -/
theorem round_tie_even :
    Binary64.round (2 + 1 / 2 ^ 25 + 1 / 2 ^ 52) = 2 + 1 / 2 ^ 25 ∧
    Binary64.round (-(1 + 3 / 2 ^ 53)) = -(1 + 1 / 2 ^ 51) := by decide!

/-- Numbers with a 53-bit significand are left unchanged. -/
theorem round_exact :
    Binary64.round 1 = 1 ∧ Binary64.round (67108865 / 67108864) = 67108865 / 67108864 ∧
    Binary64.round (-3 / 4) = -3 / 4 ∧ Binary64.round (2 ^ 60) = 2 ^ 60 := by decide!

/-- In rounded arithmetic, on the point rectangles `[x, x]` and `[0, 0]` with `x ≥ 0` a
floating-point number, `interval_interval_2` returns `fl(x * x)` and `interval_interval_p`
with `p = 2` returns `pow x 2` in both components: the two functions agree there exactly when
the library power `pow x 2` is the rounded product `fl(x * x)`. -/
theorem rounded_interval_2_eq_p_iff (fl : ℚ → ℚ) (pow : ℚ → ℚ → ℚ) (tree : ckdtree) (x : ℚ)
    (hx : 0 ≤ x) (h1 : fl (x - 0) = x) (h2 : fl (0 - x) = -x) :
    Rounded.interval_interval_2 fl tree ⟨1, [x], [x]⟩ ⟨1, [0], [0]⟩ 0 = .ok (fl (x * x), fl (x * x)) ∧
    Rounded.interval_interval_p fl pow tree ⟨1, [x], [x]⟩ ⟨1, [0], [0]⟩ 0 2 =
      .ok (pow x 2, pow x 2) ∧
    (Rounded.interval_interval_2 fl tree ⟨1, [x], [x]⟩ ⟨1, [0], [0]⟩ 0 =
        Rounded.interval_interval_p fl pow tree ⟨1, [x], [x]⟩ ⟨1, [0], [0]⟩ 0 2 ↔
      pow x 2 = fl (x * x)) := by
  have hmax1 : dmax 0 (dmax (fl (x - 0)) (fl (0 - x))) = x := by
    rw [h1, h2]; unfold dmax
    rw [max_eq_left (by linarith : -x ≤ x), max_eq_right hx]
  have hmax2 : dmax (fl (x - 0)) (fl (0 - x)) = x := by
    rw [h1, h2]; unfold dmax
    rw [max_eq_left (by linarith : -x ≤ x)]
  have e2 : Rounded.interval_interval_2 fl tree ⟨1, [x], [x]⟩ ⟨1, [0], [0]⟩ 0 =
      .ok (fl (x * x), fl (x * x)) := by
    show (Except.ok (fl (dmax 0 (dmax (fl (x - 0)) (fl (0 - x))) *
        dmax 0 (dmax (fl (x - 0)) (fl (0 - x)))),
      fl (dmax (fl (x - 0)) (fl (0 - x)) * dmax (fl (x - 0)) (fl (0 - x)))) :
        Except Error (ℚ × ℚ)) = _
    rw [hmax1, hmax2]
  have ep : Rounded.interval_interval_p fl pow tree ⟨1, [x], [x]⟩ ⟨1, [0], [0]⟩ 0 2 =
      .ok (pow x 2, pow x 2) := by
    show (Except.ok (pow (dmax 0 (dmax (fl (x - 0)) (fl (0 - x)))) 2,
      pow (dmax (fl (x - 0)) (fl (0 - x))) 2) : Except Error (ℚ × ℚ)) = _
    rw [hmax1, hmax2]
  refine ⟨e2, ep, ?_⟩
  rw [e2, ep]
  constructor
  · intro h
    have h3 := congrArg Prod.fst (Except.ok.inj h)
    exact h3.symm
  · intro h; rw [h]

end CKDTree
